import Mathlib

/-!
# futures-demo: promise/future cells, callbacks and continuations

A shallow embedding of `Future.h` and `Continuations.h`.

* Cells (`PromiseFuturePair<T>`) live in a heap indexed by `CellId`; a
  `std::shared_ptr<PromiseFuturePair<T>>` is a `CellId`.
* Closures are defunctionalised.  `Callback` lists the closures that the
  repository registers with `addCallback`, `Work` lists the closures that it
  hands to `Executor::enqueue`.
* A client callback is an observer: invoking it appends to `World.trace`.
  Every invocation of a user function (continuation function, handler,
  predicate, loop body) appends to `World.calls`.
* Callbacks run on the stack of the completing call, so completion is
  recursive (a forwarding callback completes another cell).  The recursion
  depth is bounded by a fuel argument; `none` means that the call does not
  return normally (it blocks in `get`, the callbacks recurse for ever, or the
  wrapper of a common callback throws `std::bad_variant_access`).
* The mutex and the condition variable are not modelled: every operation is
  one atomic step of a sequential interleaving.
-/

namespace FuturesDemo

/-- The variant `std::variant<FutureNotCompletedTag, T, std::exception_ptr>`. -/
inductive FutureValueType (T E : Type) where
  | notCompleted
  | value (v : T)
  | exception (e : E)
  deriving DecidableEq, Repr

/-- The enum `FutureCompletionState`. -/
inductive FutureCompletionState where
  | nonCompleted
  | completedNormally
  | exception
  deriving DecidableEq, Repr

/-- The tag `VoidFutureCompletedTag`, payload of a completed `PromiseFuturePair<void>`. -/
abbrev VoidFutureCompletedTag := Unit

/-- A shared pointer to a cell. -/
abbrev CellId := Nat

/-- The test `!std::holds_alternative<FutureNotCompletedTag>(m_val)`. -/
def FutureValueType.isCompleted {T E : Type} : FutureValueType T E → Bool
  | .notCompleted => false
  | .value _ => true
  | .exception _ => true

/-- The future that a user function hands back: `completedFuture(v)`, or a new
cell that its producer completes later (a timer, a socket operation). -/
inductive FutureExpr (T : Type) where
  | completed (v : T)
  | pending
  deriving DecidableEq, Repr

/-- The argument a user function was invoked with. -/
inductive CallArg (T E : Type) where
  | unit
  | value (v : T)
  | exception (e : E)
  deriving DecidableEq, Repr

/-- The closures passed to `Executor::enqueue` in `Continuations.h`.  A user
function returns normally (`Except.ok`) or throws (`Except.error`); `name`
identifies it in `World.calls`. -/
inductive Work (T E : Type) where
  | launch (ret : CellId) (name : Nat) (func : Unit → Except E T)
  | continuation (ret : CellId) (name : Nat) (func : T → Except E T) (fArg : CellId)
  | asyncContinuation (ret : CellId) (name : Nat)
      (func : T → Except E (FutureExpr T)) (fArg : CellId)
  | catchContinuation (ret : CellId) (name : Nat)
      (func : E → Except E (FutureExpr T)) (fArg : CellId)
  | loopStep (pname : Nat) (loopingPredicate : T → Except E Bool) (lname : Nat)
      (loopFunc : T → Except E (FutureExpr T)) (tmpResFuture : CellId) (ret : CellId)

/-- The closures passed to `addCallback` / `addCommonCallback`.
* `user tag`: a client callback (an observer);
* `common tag`: a client common callback behind the wrapper of `addCommonCallback`;
* `enqueue work`: `[&executor, work](FutureValueType const&) { executor.enqueue(work); }`;
* `forward ret`: `[ret](FutureValueType const& v) { ret->setResult(v); }`. -/
inductive Callback (T E : Type) where
  | user (tag : Nat)
  | common (tag : Nat)
  | enqueue (work : Work T E)
  | forward (ret : CellId)

/-- The class `PromiseFuturePair<T>`: the value slot and the callback list. -/
structure PromiseFuturePair (T E : Type) where
  m_val : FutureValueType T E := .notCompleted
  m_callbacks : List (Callback T E) := []

/-- The heap of cells, the work queue of the executor, and the observations. -/
structure World (T E : Type) where
  cells : CellId → PromiseFuturePair T E
  next : CellId
  queue : List (Work T E)
  calls : List (Nat × CallArg T E)
  trace : List (Nat × FutureValueType T E)
  commonTrace : List (Nat × FutureCompletionState × Option E)

/-- The result of running a piece of code to its end: it returns, an exception
of a user function escapes it, or neither (it never returns, or a completion
inside it does not return normally). -/
inductive Outcome (T E : Type) where
  | returned (w : World T E)
  | threw (e : E) (w : World T E)
  | stuck

section Model

variable {T E : Type}

/-- Lifts a completion to an outcome. -/
def Outcome.ofOption : Option (World T E) → Outcome T E
  | some w => .returned w
  | none => .stuck

/-- The world with no cell allocated. -/
def World.empty : World T E :=
  { cells := fun _ => {}, next := 0, queue := [], calls := [], trace := [], commonTrace := [] }

/-- The assignment `m_val = std::move(v)` on cell `c`. -/
def World.setVal (w : World T E) (c : CellId) (v : FutureValueType T E) : World T E :=
  { w with cells := Function.update w.cells c { (w.cells c) with m_val := v } }

/-- The call `m_callbacks.clear()` on cell `c`. -/
def World.clearCallbacks (w : World T E) (c : CellId) : World T E :=
  { w with cells := Function.update w.cells c { (w.cells c) with m_callbacks := [] } }

/-- The call `m_callbacks.push_back(callback)` on cell `c`. -/
def World.pushCallback (w : World T E) (c : CellId) (cb : Callback T E) : World T E :=
  { w with
    cells := Function.update w.cells c
              { (w.cells c) with m_callbacks := (w.cells c).m_callbacks ++ [cb] } }

/-- The call `Executor::enqueue` (`ThreadPool::enqueue`: push at the back of `m_workItems`). -/
def World.enqueue (w : World T E) (work : Work T E) : World T E :=
  { w with queue := w.queue ++ [work] }

/-- Records that the user function `name` was invoked with `arg`. -/
def World.logCall (w : World T E) (name : Nat) (arg : CallArg T E) : World T E :=
  { w with calls := w.calls ++ [(name, arg)] }

/-- The call `std::make_shared<PromiseFuturePair<T>>()`: a new cell, pending, no callback. -/
def makeShared (w : World T E) : CellId × World T E :=
  (w.next, { w with cells := Function.update w.cells w.next {}, next := w.next + 1 })

/-- The arguments the wrapper of `addCommonCallback` passes on.  On a value that
is not completed the wrapper takes its `else` branch and
`std::get<std::exception_ptr>(val)` throws `std::bad_variant_access` before the
common callback is called: `none`. -/
def commonArgs (val : FutureValueType T E) : Option (FutureCompletionState × Option E) :=
  match val with
  | .value _ => some (.completedNormally, none)
  | .exception e => some (.exception, some e)
  | .notCompleted => none

/-- One callback invocation `callback(val)`; `sr` is `setResult` with the fuel left.
`none`: the invocation does not return normally (the completion it forwards to
does not, or the wrapper of a common callback throws). -/
def invokeCallback (sr : World T E → CellId → FutureValueType T E → Option (World T E))
    (w : World T E) (cb : Callback T E) (val : FutureValueType T E) : Option (World T E) :=
  match cb with
  | .user tag => some { w with trace := w.trace ++ [(tag, val)] }
  | .common tag =>
    match commonArgs val with
    | none => none
    | some args => some { w with commonTrace := w.commonTrace ++ [(tag, args)] }
  | .enqueue work => some (w.enqueue work)
  | .forward ret => sr w ret val

/-- The loop `for(auto& callback : m_callbacks) callback(m_val);` of cell `c`:
`m_val` is passed by reference, so each callback sees the slot as it is then.
A callback that does not return normally ends the loop. -/
def runCallbacks (sr : World T E → CellId → FutureValueType T E → Option (World T E))
    (w : World T E) (c : CellId) : List (Callback T E) → Option (World T E)
  | [] => some w
  | cb :: rest =>
    match invokeCallback sr w cb (w.cells c).m_val with
    | none => none
    | some w1 => runCallbacks sr w1 c rest

/-- The method `PromiseFuturePair<T>::setResult`.  `none`: the call does not
return normally; the list is then not cleared, and no state is given for it. -/
def setResult : Nat → World T E → CellId → FutureValueType T E → Option (World T E)
  | 0, _, _, _ => none
  | fuel + 1, w, c, v =>
    let w1 := w.setVal c v
    if (w1.cells c).m_callbacks.isEmpty then some w1
    else
      match runCallbacks (setResult fuel) w1 c (w1.cells c).m_callbacks with
      | none => none
      | some w2 => some (w2.clearCallbacks c)

/-- The method `PromiseFuturePair<T>::set`. -/
def set (fuel : Nat) (w : World T E) (c : CellId) (value : T) : Option (World T E) :=
  setResult fuel w c (.value value)

/-- The method `PromiseFuturePair<T>::setException`. -/
def setException (fuel : Nat) (w : World T E) (c : CellId) (pEx : E) : Option (World T E) :=
  setResult fuel w c (.exception pEx)

/-- The method `PromiseFuturePair<T>::addCallback`. -/
def addCallback (fuel : Nat) (w : World T E) (c : CellId) (callback : Callback T E) :
    Option (World T E) :=
  if (w.cells c).m_val.isCompleted then
    invokeCallback (setResult fuel) w callback (w.cells c).m_val
  else
    some (w.pushCallback c callback)

/-- The method `PromiseFuturePair<T>::addCommonCallback`. -/
def addCommonCallback (fuel : Nat) (w : World T E) (c : CellId) (tag : Nat) :
    Option (World T E) :=
  addCallback fuel w c (.common tag)

/-- The method `PromiseFuturePair<T>::isReady`. -/
def PromiseFuturePair.isReady (p : PromiseFuturePair T E) : Bool :=
  p.m_val.isCompleted

/-- The method `PromiseFuturePair<T>::get`: waits until the slot is completed
(`none`: the wait does not end in this state), then returns the slot. -/
def PromiseFuturePair.get (p : PromiseFuturePair T E) : Option (FutureValueType T E) :=
  if p.m_val.isCompleted then some p.m_val else none

/-- The method `PromiseFuturePair<T>::getMove`; the moved-from payload is not modelled. -/
def PromiseFuturePair.getMove (p : PromiseFuturePair T E) : Option (FutureValueType T E) :=
  if p.m_val.isCompleted then some p.m_val else none

/-- The method `Future<T>::get`: the value, or the stored exception rethrown. -/
def Future.get (w : World T E) (m_pFuture : CellId) : Option (Except E T) :=
  match (w.cells m_pFuture).get with
  | none => none
  | some (.value v) => some (.ok v)
  | some (.exception e) => some (.error e)
  | some .notCompleted => none

/-- The method `Future<T>::getMove`. -/
def Future.getMove (w : World T E) (m_pFuture : CellId) : Option (Except E T) :=
  match (w.cells m_pFuture).getMove with
  | none => none
  | some (.value v) => some (.ok v)
  | some (.exception e) => some (.error e)
  | some .notCompleted => none

/-- The function `completedFuture(T val)`. -/
def completedFuture (fuel : Nat) (w : World T E) (val : T) : Option (CellId × World T E) :=
  let (ret, w1) := makeShared w
  match set fuel w1 ret val with
  | none => none
  | some w2 => some (ret, w2)

/-- Creates the future a user function returns. -/
def FutureExpr.make (fuel : Nat) (w : World T E) : FutureExpr T → Option (CellId × World T E)
  | .completed v => completedFuture fuel w v
  | .pending => some (makeShared w)

/-- The function `launchAsync`. -/
def launchAsync (w : World T E) (name : Nat) (func : Unit → Except E T) : CellId × World T E :=
  let (ret, w1) := makeShared w
  (ret, w1.enqueue (.launch ret name func))

/-- The function `addContinuation`. -/
def addContinuation (fuel : Nat) (w : World T E) (name : Nat) (func : T → Except E T)
    (fArg : CellId) : Option (CellId × World T E) :=
  let (ret, w1) := makeShared w
  match addCallback fuel w1 fArg (.enqueue (.continuation ret name func fArg)) with
  | none => none
  | some w2 => some (ret, w2)

/-- The function `addAsyncContinuation`. -/
def addAsyncContinuation (fuel : Nat) (w : World T E) (name : Nat)
    (func : T → Except E (FutureExpr T)) (fArg : CellId) : Option (CellId × World T E) :=
  let (ret, w1) := makeShared w
  match addCallback fuel w1 fArg (.enqueue (.asyncContinuation ret name func fArg)) with
  | none => none
  | some w2 => some (ret, w2)

/-- The function `catchAsync`. -/
def catchAsync (fuel : Nat) (w : World T E) (name : Nat)
    (func : E → Except E (FutureExpr T)) (fArg : CellId) : Option (CellId × World T E) :=
  let (ret, w1) := makeShared w
  match addCallback fuel w1 fArg (.enqueue (.catchContinuation ret name func fArg)) with
  | none => none
  | some w2 => some (ret, w2)

/-- The statements `auto future = tmpFunc(arg); future.addCallback([ret](v) {ret->setResult(v);});`
inside the `try` of `addAsyncContinuation` and `catchAsync`, with its `catch(...)`. -/
def chainInner (fuel : Nat) (w : World T E) (ret : CellId)
    (res : Except E (FutureExpr T)) : Outcome T E :=
  match res with
  | .ok fe =>
    match fe.make fuel w with
    | none => .stuck
    | some (future, w1) => .ofOption (addCallback fuel w1 future (.forward ret))
  | .error e => .ofOption (setException fuel w ret e)

/-- The function `continuations_private::auxLoop`.  The predicate is called
outside the `try` block. -/
def auxLoop (fuel : Nat) (w : World T E) (pname : Nat) (loopingPredicate : T → Except E Bool)
    (lname : Nat) (loopFunc : T → Except E (FutureExpr T)) (start : T) (ret : CellId) :
    Outcome T E :=
  let w1 := w.logCall pname (.value start)
  match loopingPredicate start with
  | .error e => .threw e w1
  | .ok false => .ofOption (set fuel w1 ret start)
  | .ok true =>
    let w2 := w1.logCall lname (.value start)
    match loopFunc start with
    | .error e => .ofOption (setException fuel w2 ret e)
    | .ok fe =>
      match fe.make fuel w2 with
      | none => .stuck
      | some (tmpResFuture, w3) =>
        .ofOption (addCallback fuel w3 tmpResFuture
          (.enqueue (.loopStep pname loopingPredicate lname loopFunc tmpResFuture ret)))

/-- The function `executeAsyncLoop`. -/
def executeAsyncLoop (fuel : Nat) (w : World T E) (pname : Nat)
    (loopingPredicate : T → Except E Bool) (lname : Nat)
    (loopFunc : T → Except E (FutureExpr T)) (start : T) : CellId × Outcome T E :=
  let (ret, w1) := makeShared w
  (ret, auxLoop fuel w1 pname loopingPredicate lname loopFunc start ret)

/-- The body of a closure handed to the executor. -/
def runWork (fuel : Nat) (w : World T E) : Work T E → Outcome T E
  | .launch ret name func =>
    let w1 := w.logCall name .unit
    match func () with
    | .ok r => .ofOption (set fuel w1 ret r)
    | .error e => .threw e w1
  | .continuation ret name func fArg =>
    match (w.cells fArg).get with
    | none => .stuck
    | some (.value a) =>
      let w1 := w.logCall name (.value a)
      match func a with
      | .ok r => .ofOption (set fuel w1 ret r)
      | .error e => .ofOption (setException fuel w1 ret e)
    | some (.exception e) => .ofOption (setException fuel w ret e)
    | some .notCompleted => .stuck
  | .asyncContinuation ret name func fArg =>
    match (w.cells fArg).get with
    | none => .stuck
    | some (.value a) => chainInner fuel (w.logCall name (.value a)) ret (func a)
    | some (.exception e) => .ofOption (setException fuel w ret e)
    | some .notCompleted => .stuck
  | .catchContinuation ret name func fArg =>
    match (w.cells fArg).get with
    | none => .stuck
    | some (.exception e) => chainInner fuel (w.logCall name (.exception e)) ret (func e)
    | some val => .ofOption (setResult fuel w ret val)
  | .loopStep pname loopingPredicate lname loopFunc tmpResFuture ret =>
    match (w.cells tmpResFuture).get with
    | none => .stuck
    | some (.value a) => auxLoop fuel w pname loopingPredicate lname loopFunc a ret
    | some (.exception e) => .ofOption (setException fuel w ret e)
    | some .notCompleted => .stuck

/-- The method `PromiseFuturePair<void>::internalSet`. -/
def internalSet :
    Nat → World VoidFutureCompletedTag E → CellId → FutureValueType VoidFutureCompletedTag E →
      Option (World VoidFutureCompletedTag E)
  | 0, _, _, _ => none
  | fuel + 1, w, c, v =>
    let w1 := w.setVal c v
    if (w1.cells c).m_callbacks.isEmpty then some w1
    else
      match runCallbacks (internalSet fuel) w1 c (w1.cells c).m_callbacks with
      | none => none
      | some w2 => some (w2.clearCallbacks c)

/-- The forwarding callbacks of the heap point down the ranking `rank`: a cell
forwards only to cells of smaller rank, so completion cannot recurse for ever. -/
def ForwardsDescend (rank : CellId → Nat) (w : World T E) : Prop :=
  ∀ c d, Callback.forward d ∈ (w.cells c).m_callbacks → rank d < rank c

/-- The forwarding callbacks of the heap point at allocated cells only. -/
def ForwardsAllocated (w : World T E) : Prop :=
  ∀ c d, Callback.forward d ∈ (w.cells c).m_callbacks → d < w.next

/-- What running callbacks can do to a world, seen from outside: callback lists
only lose entries, no cell is allocated, no user function is invoked. -/
structure Evolves (w w1 : World T E) : Prop where
  callbacks_sub : ∀ d cb, cb ∈ (w1.cells d).m_callbacks → cb ∈ (w.cells d).m_callbacks
  next_eq : w1.next = w.next
  calls_eq : w1.calls = w.calls

/-- The state in which a worker thread starts the work item that a combinator
called in `w0` has built: the input cell `fArg` holds `val`, the output cell
(`w0.next`, allocated by the combinator) is as created, and no user function
has been invoked since the call. -/
structure Ready (w0 w : World T E) (fArg : CellId) (val : FutureValueType T E) : Prop where
  input : (w.cells fArg).m_val = val
  output : w.cells w0.next = {}
  allocated : fArg < w0.next
  calls_eq : w.calls = w0.calls
  next_eq : w.next = w0.next + 1

/-- The output cell `ret` once its work item has chained it to the future
`inner` that the user function returned (or failed to return): `res` is the
result of the user function.
* The function threw `e`: `ret` holds the error `e`.
* It returned `completedFuture(r)`: `inner` is terminal and `ret` holds its state.
* It returned a pending future: `ret` is still pending, and when the producer
  of `inner` completes it with any state `s`, `ret` takes the state `s`. -/
def Chained (fuel : Nat) (w : World T E) (ret inner : CellId)
    (res : Except E (FutureExpr T)) : Prop :=
  match res with
  | .error e => Future.get w ret = some (.error e)
  | .ok (.completed r) => Future.get w inner = some (.ok r) ∧ Future.get w ret = some (.ok r)
  | .ok .pending =>
    Future.get w inner = none ∧ Future.get w ret = none ∧
    ∀ s : FutureValueType T E, ∃ w1, setResult fuel w inner s = some w1 ∧
      (w1.cells inner).m_val = s ∧ (w1.cells ret).m_val = s ∧ w1.calls = w.calls

/-- A heap with one cell, just created by its producer. -/
def oneCell : World Int Nat := (makeShared World.empty).2

/-- A heap with one `PromiseFuturePair<void>`, just created by its producer. -/
def oneVoidCell : World VoidFutureCompletedTag Nat := (makeShared World.empty).2

/-! ### The worker of `ThreadPool` and the environment of a loop -/

/-- The method `ThreadPool::workerFunction`, for a worker that finds the flag
`m_closing` as given; `steps` bounds the iterations of its `while (true)`.
An exception of a work item is not caught: it leaves the function.  On an empty
queue the worker returns when `m_closing` is set and waits otherwise (no other
thread is modelled, so the wait does not end). -/
def workerFunction (fuel : Nat) (m_closing : Bool) : Nat → World T E → Outcome T E
  | 0, _ => .stuck
  | steps + 1, w =>
    match w.queue with
    | func :: rest =>
      match runWork fuel { w with queue := rest } func with
      | .returned w1 => workerFunction fuel m_closing steps w1
      | .threw e w1 => .threw e w1
      | .stuck => .stuck
    | [] => if m_closing then .returned w else .stuck

/-- The accumulator of the next iteration of a loop: the value of the body
future, which is `v` for `completedFuture(v)` and is what the producer sets
(`produce x`) for a pending future. -/
def nextAcc (loopFunc : T → Except E (FutureExpr T)) (produce : T → T) (x : T) : T :=
  match loopFunc x with
  | .ok (.completed v) => v
  | _ => produce x

/-- What happens between two steps of a loop.  The body future of the step
that has just run is the cell allocated last; when it is still pending its
producer completes it with `v`.  Then a worker takes the work item at the front
of the queue and runs it (one iteration of `workerFunction`). -/
def loopRound (fuel : Nat) (w : World T E) (v : FutureValueType T E) : Outcome T E :=
  let tmpResFuture := w.next - 1
  match (if (w.cells tmpResFuture).m_val.isCompleted then some w
         else setResult fuel w tmpResFuture v) with
  | none => .stuck
  | some w1 =>
    match w1.queue with
    | [] => .stuck
    | func :: rest => runWork fuel { w1 with queue := rest } func

/-- The rounds of a loop that follow the step for the accumulator `x`. -/
def loopRounds (fuel : Nat) (loopFunc : T → Except E (FutureExpr T)) (produce : T → T) :
    Nat → T → World T E → Outcome T E
  | 0, _, w => .returned w
  | n + 1, x, w =>
    match loopRound fuel w (.value (produce x)) with
    | .returned w1 => loopRounds fuel loopFunc produce n (nextAcc loopFunc produce x) w1
    | .threw e w1 => .threw e w1
    | .stuck => .stuck

/-- The user-function calls of a loop that runs `n` times from the accumulator
`x`: predicate and body on each accumulator, then the predicate that ends it. -/
def loopCalls (pname lname : Nat) (step : T → T) : Nat → T → List (Nat × CallArg T E)
  | 0, x => [(pname, .value x)]
  | n + 1, x => (pname, .value x) :: (lname, .value x) :: loopCalls pname lname step n (step x)

/-- Two calls of `launchAsync` on an idle executor: the first function raises
`5`, the second returns `9`. -/
def twoLaunches : World Int Nat :=
  (launchAsync (launchAsync World.empty 1 (fun _ => .error 5)).2 2 (fun _ => .ok 9)).2

/-- One call of `launchAsync` on an idle executor, with a function that returns `9`. -/
def oneLaunch : World Int Nat :=
  (launchAsync World.empty 1 (fun _ => .ok 9)).2

/-- The work item `launchAsync` builds for a function that returns `r`. -/
def launchOk (p : CellId × Nat × T) : Work T E :=
  .launch p.1 p.2.1 (fun _ => .ok p.2.2)

/-! ### The timer scheduler `AlarmClock` -/

/-- The closures given to `AlarmClock::setTimer(when, func)`: a client action
(an observer), or `[ret]() { ret->set(v); }` (`ret->set()` for `T` the void
tag, as in `setTimer(when)`; a value as in `delayedResult` of `main.cpp`). -/
inductive TimerAction (T : Type) where
  | user (tag : Nat)
  | set (ret : CellId) (v : T)

/-- The class `AlarmClock`: `m_timers` is a `std::map` from deadline to action,
kept as the list of its entries in key order; `fired` records the client
actions that have run.  A deadline is a number of clock ticks. -/
structure AlarmClock (T : Type) where
  m_timers : List (Nat × TimerAction T)
  m_closing : Bool
  fired : List Nat

/-- The call `std::map::emplace(key, value)` on the entries of a map: the entry
is inserted at its place in key order, unless the key is present, in which case
nothing is inserted. -/
def mapEmplace {A : Type} : List (Nat × A) → Nat → A → List (Nat × A)
  | [], key, value => [(key, value)]
  | (k1, a1) :: rest, key, value =>
    if key < k1 then (key, value) :: (k1, a1) :: rest
    else if key = k1 then (k1, a1) :: rest
    else (k1, a1) :: mapEmplace rest key value

/-- The method `AlarmClock::setTimer(when, func)`; the notification of the
thread is not modelled. -/
def AlarmClock.setTimer (ac : AlarmClock T) (when : Nat) (func : TimerAction T) :
    AlarmClock T :=
  { ac with m_timers := mapEmplace ac.m_timers when func }

/-- The method `AlarmClock::setTimer(when)`, which returns a `Future<void>`. -/
def AlarmClock.setTimerVoid (ac : AlarmClock VoidFutureCompletedTag)
    (w : World VoidFutureCompletedTag E) (when : Nat) :
    CellId × AlarmClock VoidFutureCompletedTag × World VoidFutureCompletedTag E :=
  let (ret, w1) := makeShared w
  (ret, ac.setTimer when (.set ret ()), w1)

/-- The method `AlarmClock::threadFunc`: each wait on the earliest deadline
ends by timeout when the clock reaches it, and the entry is erased and its
action run.  The thread returns when it finds the map empty and `m_closing`
set; on an empty map without the flag it waits (`none`).  `steps` bounds the
iterations of the `while (true)`. -/
def AlarmClock.threadFunc (fuel : Nat) :
    Nat → AlarmClock T → World T E → Option (AlarmClock T × World T E)
  | 0, _, _ => none
  | steps + 1, ac, w =>
    match ac.m_timers with
    | [] => if ac.m_closing then some (ac, w) else none
    | (_, action) :: rest =>
      match action with
      | .user tag =>
        AlarmClock.threadFunc fuel steps
          { ac with m_timers := rest, fired := ac.fired ++ [tag] } w
      | .set ret v =>
        match set fuel w ret v with
        | none => none
        | some w1 => AlarmClock.threadFunc fuel steps { ac with m_timers := rest } w1

/-! ### The waiter set `FutureWaiter` -/

/-- The class `FutureWaiter`: the slots `(cell handle, active)` and the counter. -/
structure FutureWaiter where
  m_waitList : List (Option CellId × Bool)
  m_nrActive : Nat

/-- The number of slots whose active bit is set. -/
def activeCount : List (Option CellId × Bool) → Nat
  | [] => 0
  | (_, active) :: rest => (if active then 1 else 0) + activeCount rest

/-- The loop `for(index=0 ; index < m_waitList.size() ; ++index) if(!m_waitList[index].second) break;`:
the first index whose slot is not active, or the size. -/
def freeIndex : List (Option CellId × Bool) → Nat
  | [] => 0
  | (_, active) :: rest => if active then freeIndex rest + 1 else 0

/-- The statement `--m_nrActive` on a `size_t`. -/
def decrement (n : Nat) : Nat :=
  if n = 0 then 2 ^ 64 - 1 else n - 1

/-- The part of `FutureWaiter::addToWaitList` that runs under the lock: a slot
is taken or appended for the future `f` and the counter is incremented (the
counter is bounded by the size of the vector, so the increment does not wrap).
Returns the index of the slot. -/
def FutureWaiter.claim (fw : FutureWaiter) (f : CellId) : Nat × FutureWaiter :=
  let index := freeIndex fw.m_waitList
  (index,
    { m_waitList :=
        if index ≥ fw.m_waitList.length then fw.m_waitList ++ [(some f, true)]
        else fw.m_waitList.set index (some f, true),
      m_nrActive := fw.m_nrActive + 1 })

/-- The method `FutureWaiter::callback`.  An index past the end (undefined
behaviour in the source, never produced by `addToWaitList`) changes nothing. -/
def FutureWaiter.callback (fw : FutureWaiter) (index : Nat) : FutureWaiter :=
  match fw.m_waitList.get? index with
  | some (_, true) =>
    { m_waitList := fw.m_waitList.set index (none, false),
      m_nrActive := decrement fw.m_nrActive }
  | _ => fw

/-- The method `FutureWaiter::waitForAll`: returns when `m_nrActive == 0`, and
does not return in a state where the counter is not zero (`none`). -/
def FutureWaiter.waitForAll (fw : FutureWaiter) : Option Unit :=
  if fw.m_nrActive = 0 then some () else none

/-- The calls `callback(index)` made by the common callbacks that a step of the
heap has invoked; each is recorded, with its index as tag, in `commonTrace`. -/
def FutureWaiter.deliver (fw : FutureWaiter)
    (invoked : List (Nat × FutureCompletionState × Option E)) : FutureWaiter :=
  invoked.foldl (fun x entry => x.callback entry.1) fw

/-- The method `FutureWaiter::addToWaitList`: the slot is claimed, then the
common callback `[this, index](state, eptr) { callback(index); }` is added to
the future, which invokes it at once when the future is terminal. -/
def addToWaitList (fuel : Nat) (fw : FutureWaiter) (w : World T E) (f : CellId) :
    Option (FutureWaiter × World T E) :=
  let (index, fw1) := fw.claim f
  match addCommonCallback fuel w f index with
  | none => none
  | some w1 => some (fw1.deliver (w1.commonTrace.drop w.commonTrace.length), w1)

/-- The terminal state a producer stores: `set(v)` or `setException(e)`. -/
def terminalState (r : Except E T) : FutureValueType T E :=
  match r with
  | .ok v => .value v
  | .error e => .exception e

/-- The producer of the cell `c` completes it with a value or with an error;
the common callbacks registered on it call back into the waiter. -/
def completeFuture (fuel : Nat) (fw : FutureWaiter) (w : World T E) (c : CellId)
    (r : Except E T) : Option (FutureWaiter × World T E) :=
  match setResult fuel w c (terminalState r) with
  | none => none
  | some w1 => some (fw.deliver (w1.commonTrace.drop w.commonTrace.length), w1)

/-- What happens around a `FutureWaiter`: a future is added to it, or the
producer of a cell completes it. -/
inductive WaiterEvent (T E : Type) where
  | add (f : CellId)
  | complete (c : CellId) (r : Except E T)

/-- The futures added by a sequence of events. -/
def addedFutures : List (WaiterEvent T E) → List CellId
  | [] => []
  | .add f :: rest => f :: addedFutures rest
  | .complete _ _ :: rest => addedFutures rest

/-- A sequence of events, from the waiter `fw` and the heap `w`. -/
def runWaiter (fuel : Nat) : List (WaiterEvent T E) → FutureWaiter → World T E →
    Option (FutureWaiter × World T E)
  | [], fw, w => some (fw, w)
  | .add f :: rest, fw, w =>
    match addToWaitList fuel fw w f with
    | none => none
    | some (fw1, w1) => runWaiter fuel rest fw1 w1
  | .complete c r :: rest, fw, w =>
    match completeFuture fuel fw w c r with
    | none => none
    | some (fw1, w1) => runWaiter fuel rest fw1 w1

/-- The operations on the state of a `FutureWaiter` alone. -/
inductive WaiterOp where
  | claim (f : CellId)
  | callback (index : Nat)

/-- One operation on the state of a `FutureWaiter`. -/
def FutureWaiter.apply (fw : FutureWaiter) : WaiterOp → FutureWaiter
  | .claim f => (fw.claim f).2
  | .callback index => fw.callback index

/-- A heap with three cells, all pending. -/
def threeCells : World Int Nat :=
  (makeShared (makeShared (makeShared World.empty).2).2).2

/-- The counter of a `FutureWaiter` agrees with its slots, and a slot that is
not active holds a null handle. -/
structure WaiterInv (fw : FutureWaiter) : Prop where
  count : fw.m_nrActive = activeCount fw.m_waitList
  null : ∀ x b, (x, b) ∈ fw.m_waitList → b = false → x = none

/-- The indices of the common callbacks in a callback list. -/
def commonTags : List (Callback T E) → List Nat
  | [] => []
  | .common tag :: rest => tag :: commonTags rest
  | _ :: rest => commonTags rest

/-- A heap on which no waiter has registered yet, and whose completions do not
cascade: every callback is a client callback or enqueues a work item. -/
def PlainHeap (w : World T E) : Prop :=
  ∀ c cb, cb ∈ (w.cells c).m_callbacks →
    (∃ tag, cb = Callback.user tag) ∨ (∃ work, cb = Callback.enqueue work)

/-- How a `FutureWaiter` and the heap fit together after the futures `added`
were added: an active slot holds an added future that is pending and carries
the common callback of the slot; a common callback sits only on the future of
its active slot; an added future is terminal or sits in an active slot. -/
structure WaiterLink (fw : FutureWaiter) (w : World T E) (added : List CellId) : Prop where
  inv : WaiterInv fw
  active : ∀ (i : Nat) (x : Option CellId), fw.m_waitList[i]? = some (x, true) →
    ∃ c, x = some c ∧ c ∈ added ∧ (w.cells c).m_val = .notCompleted ∧
      Callback.common i ∈ (w.cells c).m_callbacks
  registered : ∀ (c : CellId) (i : Nat), Callback.common i ∈ (w.cells c).m_callbacks →
    fw.m_waitList[i]? = some (some c, true)
  settled : ∀ f, f ∈ added → (w.cells f).m_val.isCompleted = true ∨
    ∃ i : Nat, fw.m_waitList[i]? = some (some f, true)
  no_forward : ∀ c d, Callback.forward d ∉ (w.cells c).m_callbacks

end Model

/-! ## Basic facts about the heap operations -/

section Basic

variable {T E : Type}

@[simp] theorem setVal_cells_same (w : World T E) (c : CellId) (v : FutureValueType T E) :
    (w.setVal c v).cells c = { m_val := v, m_callbacks := (w.cells c).m_callbacks } := by
  simp [World.setVal]

@[simp] theorem setVal_cells_other (w : World T E) (c d : CellId) (v : FutureValueType T E)
    (h : d ≠ c) : (w.setVal c v).cells d = w.cells d := by
  simp [World.setVal, Function.update_noteq h]

@[simp] theorem setVal_callbacks (w : World T E) (c d : CellId) (v : FutureValueType T E) :
    ((w.setVal c v).cells d).m_callbacks = (w.cells d).m_callbacks := by
  by_cases h : d = c
  · subst h; simp
  · simp [h]

@[simp] theorem setVal_next (w : World T E) (c : CellId) (v : FutureValueType T E) :
    (w.setVal c v).next = w.next := rfl

@[simp] theorem setVal_calls (w : World T E) (c : CellId) (v : FutureValueType T E) :
    (w.setVal c v).calls = w.calls := rfl

@[simp] theorem setVal_queue (w : World T E) (c : CellId) (v : FutureValueType T E) :
    (w.setVal c v).queue = w.queue := rfl

@[simp] theorem setVal_trace (w : World T E) (c : CellId) (v : FutureValueType T E) :
    (w.setVal c v).trace = w.trace := rfl

@[simp] theorem clearCallbacks_cells_same (w : World T E) (c : CellId) :
    (w.clearCallbacks c).cells c = { m_val := (w.cells c).m_val, m_callbacks := [] } := by
  simp [World.clearCallbacks]

@[simp] theorem clearCallbacks_cells_other (w : World T E) (c d : CellId) (h : d ≠ c) :
    (w.clearCallbacks c).cells d = w.cells d := by
  simp [World.clearCallbacks, Function.update_noteq h]

@[simp] theorem clearCallbacks_next (w : World T E) (c : CellId) :
    (w.clearCallbacks c).next = w.next := rfl

@[simp] theorem clearCallbacks_calls (w : World T E) (c : CellId) :
    (w.clearCallbacks c).calls = w.calls := rfl

@[simp] theorem clearCallbacks_queue (w : World T E) (c : CellId) :
    (w.clearCallbacks c).queue = w.queue := rfl

@[simp] theorem clearCallbacks_trace (w : World T E) (c : CellId) :
    (w.clearCallbacks c).trace = w.trace := rfl

@[simp] theorem pushCallback_cells_same (w : World T E) (c : CellId) (cb : Callback T E) :
    (w.pushCallback c cb).cells c =
      { m_val := (w.cells c).m_val, m_callbacks := (w.cells c).m_callbacks ++ [cb] } := by
  simp [World.pushCallback]

@[simp] theorem pushCallback_cells_other (w : World T E) (c d : CellId) (cb : Callback T E)
    (h : d ≠ c) : (w.pushCallback c cb).cells d = w.cells d := by
  simp [World.pushCallback, Function.update_noteq h]

@[simp] theorem pushCallback_next (w : World T E) (c : CellId) (cb : Callback T E) :
    (w.pushCallback c cb).next = w.next := rfl

@[simp] theorem pushCallback_calls (w : World T E) (c : CellId) (cb : Callback T E) :
    (w.pushCallback c cb).calls = w.calls := rfl

@[simp] theorem pushCallback_queue (w : World T E) (c : CellId) (cb : Callback T E) :
    (w.pushCallback c cb).queue = w.queue := rfl

@[simp] theorem pushCallback_trace (w : World T E) (c : CellId) (cb : Callback T E) :
    (w.pushCallback c cb).trace = w.trace := rfl

@[simp] theorem enqueue_cells (w : World T E) (work : Work T E) :
    (w.enqueue work).cells = w.cells := rfl

@[simp] theorem enqueue_next (w : World T E) (work : Work T E) :
    (w.enqueue work).next = w.next := rfl

@[simp] theorem enqueue_calls (w : World T E) (work : Work T E) :
    (w.enqueue work).calls = w.calls := rfl

@[simp] theorem enqueue_queue (w : World T E) (work : Work T E) :
    (w.enqueue work).queue = w.queue ++ [work] := rfl

@[simp] theorem enqueue_trace (w : World T E) (work : Work T E) :
    (w.enqueue work).trace = w.trace := rfl

@[simp] theorem logCall_cells (w : World T E) (name : Nat) (arg : CallArg T E) :
    (w.logCall name arg).cells = w.cells := rfl

@[simp] theorem logCall_next (w : World T E) (name : Nat) (arg : CallArg T E) :
    (w.logCall name arg).next = w.next := rfl

@[simp] theorem logCall_calls (w : World T E) (name : Nat) (arg : CallArg T E) :
    (w.logCall name arg).calls = w.calls ++ [(name, arg)] := rfl

@[simp] theorem logCall_queue (w : World T E) (name : Nat) (arg : CallArg T E) :
    (w.logCall name arg).queue = w.queue := rfl

@[simp] theorem logCall_trace (w : World T E) (name : Nat) (arg : CallArg T E) :
    (w.logCall name arg).trace = w.trace := rfl

@[simp] theorem makeShared_fst (w : World T E) : (makeShared w).1 = w.next := rfl

@[simp] theorem makeShared_cells_new (w : World T E) :
    (makeShared w).2.cells w.next = {} := by
  simp [makeShared]

@[simp] theorem makeShared_cells_old (w : World T E) (d : CellId) (h : d ≠ w.next) :
    (makeShared w).2.cells d = w.cells d := by
  simp [makeShared, Function.update_noteq h]

@[simp] theorem makeShared_next (w : World T E) : (makeShared w).2.next = w.next + 1 := rfl

@[simp] theorem makeShared_calls (w : World T E) : (makeShared w).2.calls = w.calls := rfl

@[simp] theorem makeShared_queue (w : World T E) : (makeShared w).2.queue = w.queue := rfl

@[simp] theorem makeShared_trace (w : World T E) : (makeShared w).2.trace = w.trace := rfl

theorem Evolves.refl (w : World T E) : Evolves w w :=
  ⟨fun _ _ h => h, rfl, rfl⟩

theorem Evolves.trans {w w1 w2 : World T E} (h1 : Evolves w w1) (h2 : Evolves w1 w2) :
    Evolves w w2 :=
  ⟨fun d cb h => h1.callbacks_sub d cb (h2.callbacks_sub d cb h),
   h2.next_eq.trans h1.next_eq, h2.calls_eq.trans h1.calls_eq⟩

theorem ForwardsDescend.evolves {rank : CellId → Nat} {w w1 : World T E}
    (h : ForwardsDescend rank w) (he : Evolves w w1) : ForwardsDescend rank w1 :=
  fun c d hm => h c d (he.callbacks_sub c _ hm)

theorem runCallbacks_append (sr : World T E → CellId → FutureValueType T E → Option (World T E))
    (c : CellId) (l1 l2 : List (Callback T E)) (w : World T E) :
    runCallbacks sr w c (l1 ++ l2) =
      (runCallbacks sr w c l1).bind (fun w1 => runCallbacks sr w1 c l2) := by
  induction l1 generalizing w with
  | nil => simp [runCallbacks]
  | cons cb rest ih =>
    simp only [List.cons_append, runCallbacks]
    cases invokeCallback sr w cb (w.cells c).m_val with
    | none => simp
    | some w1 => simpa using ih w1

end Basic

/-! ## Completion terminates when the forwarding callbacks descend -/

section Termination

variable {T E : Type}

/-- The wrapper of a common callback passes a completed value on. -/
theorem commonArgs_completed (v : FutureValueType T E) (hv : v.isCompleted = true) :
    ∃ args, commonArgs v = some args := by
  cases v with
  | notCompleted => exact (Bool.false_ne_true hv).elim
  | value x => exact ⟨_, rfl⟩
  | exception e => exact ⟨_, rfl⟩

/-- One loop of callbacks over a completed slot, given that completion with the
fuel left behaves: cells of rank `k` and above are not touched when every
forwarding callback of the list points below `k`. -/
theorem runCallbacks_descend (rank : CellId → Nat) (k : Nat)
    (sr : World T E → CellId → FutureValueType T E → Option (World T E))
    (hsr : ∀ (w : World T E) (d : CellId) (v : FutureValueType T E),
      ForwardsDescend rank w → rank d < k → v.isCompleted = true →
      ∃ w1, sr w d v = some w1 ∧ (∀ x, rank d < rank x → w1.cells x = w.cells x) ∧ Evolves w w1)
    (c : CellId) (hck : k ≤ rank c) (l : List (Callback T E)) :
    ∀ w : World T E, ForwardsDescend rank w → (w.cells c).m_val.isCompleted = true →
      (∀ d, Callback.forward d ∈ l → rank d < k) →
      ∃ w1, runCallbacks sr w c l = some w1 ∧
        (∀ x, k ≤ rank x → w1.cells x = w.cells x) ∧ Evolves w w1 := by
  induction l with
  | nil =>
    intro w _ _ _
    exact ⟨w, rfl, fun _ _ => rfl, Evolves.refl w⟩
  | cons cb rest ih =>
    intro w hw hv hl
    have hrest : ∀ d, Callback.forward d ∈ rest → rank d < k :=
      fun d hd => hl d (List.mem_cons_of_mem _ hd)
    have hstep : ∃ w1, invokeCallback sr w cb (w.cells c).m_val = some w1 ∧
        (∀ x, k ≤ rank x → w1.cells x = w.cells x) ∧ Evolves w w1 := by
      cases cb with
      | user tag => exact ⟨_, rfl, fun _ _ => rfl, ⟨fun _ _ h => h, rfl, rfl⟩⟩
      | common tag =>
        obtain ⟨args, ha⟩ := commonArgs_completed _ hv
        refine ⟨{ w with commonTrace := w.commonTrace ++ [(tag, args)] }, ?_,
          fun _ _ => rfl, ⟨fun _ _ h => h, rfl, rfl⟩⟩
        simp only [invokeCallback, ha]
      | enqueue work => exact ⟨_, rfl, fun _ _ => rfl, ⟨fun _ _ h => h, rfl, rfl⟩⟩
      | forward d =>
        have hd : rank d < k := hl d (List.mem_cons_self _ _)
        obtain ⟨w1, h1, h2, h3⟩ := hsr w d (w.cells c).m_val hw hd hv
        exact ⟨w1, h1, fun x hx => h2 x (lt_of_lt_of_le hd hx), h3⟩
    obtain ⟨w1, h1, h2, h3⟩ := hstep
    have hv1 : (w1.cells c).m_val.isCompleted = true := by rw [h2 c hck]; exact hv
    obtain ⟨w2, h4, h5, h6⟩ := ih w1 (hw.evolves h3) hv1 hrest
    refine ⟨w2, ?_, fun x hx => (h5 x hx).trans (h2 x hx), h3.trans h6⟩
    simp [runCallbacks, h1, h4]

/-- Completion of a cell with a completed state returns when the forwarding
callbacks descend and the fuel exceeds the rank of the cell: the cell then holds
the new state and no callback, and no other cell of the same or a higher rank
is touched. -/
theorem setResult_descend (rank : CellId → Nat) :
    ∀ (fuel : Nat) (w : World T E) (c : CellId) (v : FutureValueType T E),
      ForwardsDescend rank w → rank c < fuel → v.isCompleted = true →
      ∃ w1, setResult fuel w c v = some w1 ∧
        w1.cells c = { m_val := v, m_callbacks := [] } ∧
        (∀ x, x ≠ c → rank c ≤ rank x → w1.cells x = w.cells x) ∧ Evolves w w1 := by
  intro fuel
  induction fuel with
  | zero => intro w c v _ h; exact absurd h (Nat.not_lt_zero _)
  | succ n ih =>
    intro w c v hw hc hv
    have hsr : ∀ (w : World T E) (d : CellId) (v : FutureValueType T E),
        ForwardsDescend rank w → rank d < rank c → v.isCompleted = true →
        ∃ w1, setResult n w d v = some w1 ∧
          (∀ x, rank d < rank x → w1.cells x = w.cells x) ∧ Evolves w w1 := by
      intro w d v hw hd hv
      obtain ⟨w1, h1, _, h3, h4⟩ := ih w d v hw (lt_of_lt_of_le hd (Nat.le_of_lt_succ hc)) hv
      exact ⟨w1, h1, fun x hx => h3 x (fun hxd => by subst hxd; exact lt_irrefl _ hx)
        (le_of_lt hx), h4⟩
    have hw1 : ForwardsDescend rank (w.setVal c v) := by
      intro x d hm
      rw [setVal_callbacks] at hm
      exact hw x d hm
    have hev1 : Evolves w (w.setVal c v) :=
      ⟨fun d cb h => by rw [setVal_callbacks] at h; exact h, rfl, rfl⟩
    by_cases hemp : ((w.setVal c v).cells c).m_callbacks.isEmpty = true
    · refine ⟨w.setVal c v, ?_, ?_, fun x hx _ => setVal_cells_other w c x v hx, hev1⟩
      · simp only [setResult, hemp, if_true]
      · have : (w.cells c).m_callbacks = [] := by simpa using hemp
        simp [this]
    · have hl : ∀ d, Callback.forward d ∈ ((w.setVal c v).cells c).m_callbacks →
          rank d < rank c := fun d hd => hw1 c d hd
      have hv1 : ((w.setVal c v).cells c).m_val.isCompleted = true := by
        rw [setVal_cells_same]
        exact hv
      obtain ⟨w2, h1, h2, h3⟩ :=
        runCallbacks_descend rank (rank c) (setResult n) hsr c le_rfl _ (w.setVal c v) hw1
          hv1 hl
      refine ⟨w2.clearCallbacks c, ?_, ?_, ?_, ?_⟩
      · simp only [setResult, hemp, h1]
        simp
      · rw [clearCallbacks_cells_same, h2 c le_rfl]
        simp
      · intro x hx hr
        rw [clearCallbacks_cells_other _ _ _ hx, h2 x hr, setVal_cells_other _ _ _ _ hx]
      · refine hev1.trans (h3.trans ⟨?_, rfl, rfl⟩)
        intro d cb h
        by_cases hdc : d = c
        · subst hdc; simp at h
        · rwa [clearCallbacks_cells_other _ _ _ hdc] at h

/-- The void specialisation completes a cell exactly as the generic class does. -/
theorem internalSet_eq_setResult {E : Type} :
    ∀ (fuel : Nat) (w : World VoidFutureCompletedTag E) (c : CellId)
      (v : FutureValueType VoidFutureCompletedTag E),
      internalSet fuel w c v = setResult fuel w c v := by
  intro fuel
  induction fuel with
  | zero => intro w c v; rfl
  | succ n ih =>
    intro w c v
    have hfun : internalSet n = (setResult n :
        World VoidFutureCompletedTag E → CellId → FutureValueType VoidFutureCompletedTag E →
          Option (World VoidFutureCompletedTag E)) := by
      funext w c v
      exact ih w c v
    simp only [internalSet, setResult, hfun]
    split
    · rfl
    · cases runCallbacks (setResult n) (w.setVal c v) c ((w.setVal c v).cells c).m_callbacks <;>
        rfl

/-- Completing a cell that has no callback only assigns the slot. -/
theorem setResult_no_callbacks (fuel : Nat) (w : World T E) (c : CellId)
    (v : FutureValueType T E) (h : (w.cells c).m_callbacks = []) (hpos : 0 < fuel) :
    setResult fuel w c v = some (w.setVal c v) := by
  obtain ⟨n, rfl⟩ : ∃ n, fuel = n + 1 := ⟨fuel - 1, by omega⟩
  simp [setResult, h]

/-- Completing a cell whose only callback forwards to a cell without callbacks. -/
theorem setResult_forward_only (n : Nat) (w : World T E) (c ret : CellId)
    (v s : FutureValueType T E) (hc : w.cells c = ⟨v, [.forward ret]⟩)
    (hret : (w.cells ret).m_callbacks = []) :
    setResult (n + 2) w c s = some (((w.setVal c s).setVal ret s).clearCallbacks c) := by
  have hcb : ((w.setVal c s).cells ret).m_callbacks = [] := by
    rw [setVal_callbacks, hret]
  have h1 : setResult (n + 1) (w.setVal c s) ret s = some ((w.setVal c s).setVal ret s) :=
    setResult_no_callbacks _ _ _ _ hcb (Nat.succ_pos n)
  show (if ((w.setVal c s).cells c).m_callbacks.isEmpty then some (w.setVal c s)
    else
      match runCallbacks (setResult (n + 1)) (w.setVal c s) c
        ((w.setVal c s).cells c).m_callbacks with
      | none => none
      | some w2 => some (w2.clearCallbacks c)) = _
  simp [hc, runCallbacks, invokeCallback, h1]

end Termination

/-! ## The cell: completion, callbacks, `get` -/

section Cell

variable {T E : Type}

/-- C1, as stated, fails: a cell completed with `1` and then with `2` holds `2`,
and a void cell completed normally and then with exception `7` holds the
exception.  The second attempt is neither rejected nor a no-op. -/
theorem setResult_twice_overwrites :
    (∃ w1 w2, set 1 oneCell 0 1 = some w1 ∧ (w1.cells 0).m_val = .value 1 ∧
        set 1 w1 0 2 = some w2 ∧ (w2.cells 0).m_val = .value 2 ∧
        (w2.cells 0).m_val ≠ (w1.cells 0).m_val) ∧
    (∃ w1 w2, internalSet 1 oneVoidCell 0 (.value ()) = some w1 ∧
        (w1.cells 0).m_val = .value () ∧
        internalSet 1 w1 0 (.exception 7) = some w2 ∧ (w2.cells 0).m_val = .exception 7 ∧
        (w2.cells 0).m_val ≠ (w1.cells 0).m_val) := by
  refine ⟨⟨(oneCell.setVal 0 (.value 1)), (oneCell.setVal 0 (.value 1)).setVal 0 (.value 2),
    rfl, rfl, rfl, rfl, by decide⟩,
    ⟨(oneVoidCell.setVal 0 (.value ())), (oneVoidCell.setVal 0 (.value ())).setVal 0 (.exception 7),
    rfl, rfl, rfl, rfl, by decide⟩⟩

/-- Completions of a cell that holds no callback only assign the slot, whatever
the states: the last one stays. -/
theorem setResult_sequence_no_callbacks (fuel : Nat) (hfuel : 0 < fuel) (c : CellId)
    (vs : List (FutureValueType T E)) :
    ∀ (w : World T E) (v0 : FutureValueType T E), w.cells c = { m_val := v0, m_callbacks := [] } →
      ∃ w1, vs.foldlM (fun x s => setResult fuel x c s) w = some w1 ∧
        w1.cells c = { m_val := (v0 :: vs).getLast (List.cons_ne_nil v0 vs), m_callbacks := [] } := by
  induction vs with
  | nil =>
    intro w v0 hw
    exact ⟨w, rfl, hw⟩
  | cons v rest ih =>
    intro w v0 hw
    have h1 : setResult fuel w c v = some (w.setVal c v) :=
      setResult_no_callbacks fuel w c v (by rw [hw]) hfuel
    obtain ⟨w2, h5, h6⟩ := ih (w.setVal c v) v (by rw [setVal_cells_same, hw])
    refine ⟨w2, by simpa [h1] using h5, ?_⟩
    rw [h6, List.getLast_cons_cons]

/-- C1, amended: completion is last-write-wins.  After any sequence of
`set` / `setException` / `setResult` calls on a cell whose first call supplies a
completed state (`s`, then the states `vs`, of any kind), every call returns,
the value slot holds the state of the last call, whatever it held before, and
the callback list is empty; likewise for `internalSet` of the void
specialisation.  A first call that supplies the state that is not completed to
a cell whose first callback is a common one does not return normally: the
wrapper of the common callback throws. -/
theorem setResult_last_wins (rank : CellId → Nat) (fuel : Nat) (c : CellId)
    (hc : rank c < fuel) :
    (∀ (w : World T E) (s : FutureValueType T E) (vs : List (FutureValueType T E)),
      ForwardsDescend rank w → s.isCompleted = true →
      ∃ w1, (s :: vs).foldlM (fun x v => setResult fuel x c v) w = some w1 ∧
        w1.cells c =
          { m_val := (s :: vs).getLast (List.cons_ne_nil s vs), m_callbacks := [] }) ∧
    (∀ (w : World VoidFutureCompletedTag E) (s : FutureValueType VoidFutureCompletedTag E)
      (vs : List (FutureValueType VoidFutureCompletedTag E)),
      ForwardsDescend rank w → s.isCompleted = true →
      ∃ w1, (s :: vs).foldlM (fun x v => internalSet fuel x c v) w = some w1 ∧
        w1.cells c =
          { m_val := (s :: vs).getLast (List.cons_ne_nil s vs), m_callbacks := [] }) ∧
    (∀ (w : World T E) (tag : Nat) (rest : List (Callback T E)),
      (w.cells c).m_callbacks = .common tag :: rest →
      setResult fuel w c .notCompleted = none) := by
  have hfuel : 0 < fuel := Nat.lt_of_le_of_lt (Nat.zero_le _) hc
  have key : ∀ (A : Type) (w : World A E) (s : FutureValueType A E)
      (vs : List (FutureValueType A E)), ForwardsDescend rank w → s.isCompleted = true →
      ∃ w1, (s :: vs).foldlM (fun x v => setResult fuel x c v) w = some w1 ∧
        w1.cells c =
          { m_val := (s :: vs).getLast (List.cons_ne_nil s vs), m_callbacks := [] } := by
    intro A w s vs hw hs
    obtain ⟨w1, h1, h2, _, _⟩ := setResult_descend rank fuel w c s hw hc hs
    obtain ⟨w2, h5, h6⟩ := setResult_sequence_no_callbacks fuel hfuel c vs w1 s h2
    exact ⟨w2, by simpa [h1] using h5, h6⟩
  refine ⟨key T, ?_, ?_⟩
  · intro w s vs hw hs
    have hfun : (fun (x : World VoidFutureCompletedTag E) v => internalSet fuel x c v) =
        (fun x v => setResult fuel x c v) := by
      funext x v
      exact internalSet_eq_setResult fuel x c v
    rw [hfun]
    exact key _ w s vs hw hs
  · intro w tag rest hcb
    obtain ⟨n, rfl⟩ : ∃ n, fuel = n + 1 := ⟨fuel - 1, by omega⟩
    simp [setResult, hcb, runCallbacks, invokeCallback, commonArgs]

/-- The amended C1 at concrete cells: completions with `1`, `2` and then the
exception `5` leave the exception `5`; a completion with `1` followed by one with
the state that is not completed leaves the cell pending again; and on a cell
that holds a common callback a first completion with the state that is not
completed does not return normally. -/
theorem setResult_last_wins_witness :
    (0 : Nat) < 1 ∧ ForwardsDescend (fun _ => 0) oneCell ∧
    (∃ w1, ([.value 1, .value 2, .exception 5] : List (FutureValueType Int Nat)).foldlM
        (fun x s => setResult 1 x 0 s) oneCell = some w1 ∧
      w1.cells 0 = { m_val := .exception 5, m_callbacks := [] }) ∧
    (∃ w1, ([.value 1, .notCompleted] : List (FutureValueType Int Nat)).foldlM
        (fun x s => setResult 1 x 0 s) oneCell = some w1 ∧
      w1.cells 0 = { m_val := .notCompleted, m_callbacks := [] }) ∧
    ((oneCell.pushCallback 0 (.common 3)).cells 0).m_callbacks = [.common 3] ∧
    setResult 1 (oneCell.pushCallback 0 (.common 3)) 0 .notCompleted = none ∧
    (setResult 1 (oneCell.pushCallback 0 (.common 3)) 0 (.value 1)).map
      (fun w => (w.cells 0, w.commonTrace)) =
        some ({ m_val := .value 1, m_callbacks := [] }, [(3, .completedNormally, none)]) :=
  have h : ForwardsDescend (fun _ => 0) oneCell := by
    intro c d hm
    by_cases hc : c = 0
    · subst hc; simp [oneCell, makeShared, World.empty] at hm
    · simp [oneCell, makeShared, World.empty, Function.update_noteq hc] at hm
  ⟨by decide, h,
    (setResult_last_wins (E := Nat) (fun _ => 0) 1 0 (by decide)).1 oneCell (.value 1)
      [.value 2, .exception 5] h rfl,
    (setResult_last_wins (E := Nat) (fun _ => 0) 1 0 (by decide)).1 oneCell (.value 1)
      [.notCompleted] h rfl,
    rfl,
    (setResult_last_wins (T := Int) (E := Nat) (fun _ => 0) 1 0 (by decide)).2.2
      (oneCell.pushCallback 0 (.common 3)) 3 [] rfl,
    rfl⟩

/-- The loop over client callbacks appends one trace entry per callback, in order. -/
theorem runCallbacks_user (sr : World T E → CellId → FutureValueType T E → Option (World T E))
    (c : CellId) (tags : List Nat) :
    ∀ w : World T E, ∃ w1, runCallbacks sr w c (tags.map Callback.user) = some w1 ∧
      w1.trace = w.trace ++ tags.map (fun t => (t, (w.cells c).m_val)) ∧
      w1.cells = w.cells ∧ w1.queue = w.queue ∧ w1.calls = w.calls ∧ w1.next = w.next := by
  induction tags with
  | nil => intro w; exact ⟨w, rfl, by simp, rfl, rfl, rfl, rfl⟩
  | cons t rest ih =>
    intro w
    obtain ⟨w1, h1, h2, h3, h4, h5, h6⟩ :=
      ih { w with trace := w.trace ++ [(t, (w.cells c).m_val)] }
    exact ⟨w1, by simpa [runCallbacks, invokeCallback] using h1, by simpa using h2,
      h3, h4, h5, h6⟩

/-- Registering client callbacks on a pending cell appends them, in order. -/
theorem addCallback_pending_list (fuel : Nat) (c : CellId) (tags : List Nat) :
    ∀ (w : World T E) (pre : List (Callback T E)),
      w.cells c = { m_val := .notCompleted, m_callbacks := pre } →
      ∃ w1, tags.foldlM (fun x t => addCallback fuel x c (.user t)) w = some w1 ∧
        w1.cells c = { m_val := .notCompleted, m_callbacks := pre ++ tags.map Callback.user } ∧
        w1.trace = w.trace := by
  induction tags with
  | nil => intro w pre h; exact ⟨w, rfl, by simpa using h, rfl⟩
  | cons t rest ih =>
    intro w pre h
    have hstep : addCallback fuel w c (.user t) = some (w.pushCallback c (.user t)) := by
      simp [addCallback, h, FutureValueType.isCompleted]
    obtain ⟨w1, h1, h2, h3⟩ := ih (w.pushCallback c (.user t)) (pre ++ [.user t])
      (by simp [h])
    exact ⟨w1, by simpa [hstep] using h1, by simpa using h2, by simpa using h3⟩

/-- C2: on a new (pending) cell, register the client callbacks `tags` with
`addCallback`, in order, then complete the cell with `v`: the completion
returns, it has invoked each callback exactly once, in registration order, each
with `v`, and the cell holds `v` and an empty callback list. -/
theorem setResult_runs_callbacks (fuel : Nat) (w : World T E) (c : CellId) (tags : List Nat)
    (v : FutureValueType T E)
    (hnew : w.cells c = { m_val := .notCompleted, m_callbacks := [] }) :
    ∃ w1 w2, tags.foldlM (fun x t => addCallback fuel x c (.user t)) w = some w1 ∧
      w1.trace = w.trace ∧
      setResult (fuel + 1) w1 c v = some w2 ∧
      w2.trace = w.trace ++ tags.map (fun t => (t, v)) ∧
      w2.cells c = { m_val := v, m_callbacks := [] } := by
  obtain ⟨w1, h1, h2, h3⟩ := addCallback_pending_list fuel c tags w [] hnew
  obtain ⟨w2, h4, h5, h6, _⟩ := runCallbacks_user (setResult fuel) c tags (w1.setVal c v)
  have hrun : ∃ w3, setResult (fuel + 1) w1 c v = some w3 ∧
      w3.trace = w.trace ++ tags.map (fun t => (t, v)) ∧
      w3.cells c = { m_val := v, m_callbacks := [] } := by
    cases tags with
    | nil =>
      refine ⟨w1.setVal c v, ?_, ?_, ?_⟩
      · simp [setResult, h2]
      · simp [h3]
      · simp [h2]
    | cons t rest =>
      refine ⟨w2.clearCallbacks c, ?_, ?_, ?_⟩
      · have hne : ((w1.setVal c v).cells c).m_callbacks =
            Callback.user t :: rest.map Callback.user := by
          simp [h2]
        simp only [setResult, hne, List.isEmpty_cons]
        simp only [List.map_cons] at h4
        simp [h4]
      · simpa [h3] using h5
      · simp [h6]
  obtain ⟨w3, h7, h8, h9⟩ := hrun
  exact ⟨w1, w3, h1, h3, h7, h8, h9⟩

/-- C2 at a concrete cell: callbacks `10`, `20`, `30` are invoked in that
order with the value `7`. -/
theorem setResult_runs_callbacks_witness :
    oneCell.cells 0 = { m_val := .notCompleted, m_callbacks := [] } ∧
    ∃ w1 w2, [10, 20, 30].foldlM (fun x t => addCallback 0 x 0 (.user t)) oneCell = some w1 ∧
      w1.trace = oneCell.trace ∧
      setResult (0 + 1) w1 0 (.value 7) = some w2 ∧
      w2.trace = oneCell.trace ++ [10, 20, 30].map (fun t => (t, .value 7)) ∧
      w2.cells 0 = { m_val := .value 7, m_callbacks := [] } :=
  ⟨rfl, setResult_runs_callbacks 0 oneCell 0 [10, 20, 30] (.value 7) rfl⟩

/-- C3: on a cell that is already terminal, `addCallback(cb)` is exactly one
invocation of `cb` with the stored state, made before it returns; for a client
callback the invocation is recorded once and no cell changes, so `cb` is not
appended to the callback list.  (`PromiseFuturePair<void>::addCallback` is the
same code: the case `T = VoidFutureCompletedTag`.) -/
theorem addCallback_terminal (fuel : Nat) (w : World T E) (c : CellId)
    (hterm : (w.cells c).m_val.isCompleted = true) :
    (∀ cb, addCallback fuel w c cb = invokeCallback (setResult fuel) w cb (w.cells c).m_val) ∧
    (∀ tag, ∃ w1, addCallback fuel w c (.user tag) = some w1 ∧
      w1.trace = w.trace ++ [(tag, (w.cells c).m_val)] ∧ w1.cells = w.cells ∧
      w1.queue = w.queue) := by
  refine ⟨fun cb => by simp [addCallback, hterm], fun tag => ?_⟩
  exact ⟨{ w with trace := w.trace ++ [(tag, (w.cells c).m_val)] },
    by simp [addCallback, hterm, invokeCallback], rfl, rfl, rfl⟩

/-- C3 at a concrete cell holding the value `1`, and at a void cell holding an exception. -/
theorem addCallback_terminal_witness :
    (((oneCell.setVal 0 (.value 1)).cells 0).m_val.isCompleted = true ∧
      ∃ w1, addCallback 0 (oneCell.setVal 0 (.value 1)) 0 (.user 9) = some w1 ∧
        w1.trace = [(9, .value 1)] ∧ (w1.cells 0).m_callbacks = []) ∧
    (((oneVoidCell.setVal 0 (.exception 3)).cells 0).m_val.isCompleted = true ∧
      ∃ w1, addCallback 0 (oneVoidCell.setVal 0 (.exception 3)) 0 (.user 9) = some w1 ∧
        w1.trace = [(9, .exception 3)] ∧ (w1.cells 0).m_callbacks = []) := by
  refine ⟨⟨rfl, ?_⟩, ⟨rfl, ?_⟩⟩
  · obtain ⟨w1, h1, h2, h3, _⟩ :=
      (addCallback_terminal 0 (oneCell.setVal 0 (.value 1)) 0 rfl).2 9
    exact ⟨w1, h1, h2, by rw [h3]; rfl⟩
  · obtain ⟨w1, h1, h2, h3, _⟩ :=
      (addCallback_terminal 0 (oneVoidCell.setVal 0 (.exception 3)) 0 rfl).2 9
    exact ⟨w1, h1, h2, by rw [h3]; rfl⟩

/-- C4: `completedFuture(v)` returns a future whose `get()` (and `getMove()`)
returns `v`; the future is terminal on construction. -/
theorem completedFuture_get (fuel : Nat) (w : World T E) (v : T) :
    ∃ c w1, completedFuture (fuel + 1) w v = some (c, w1) ∧
      (w1.cells c).isReady = true ∧
      Future.get w1 c = some (.ok v) ∧ Future.getMove w1 c = some (.ok v) := by
  refine ⟨w.next, (makeShared w).2.setVal w.next (.value v), ?_, ?_, ?_, ?_⟩
  · simp [completedFuture, set, setResult, makeShared]
  · simp [PromiseFuturePair.isReady, FutureValueType.isCompleted]
  · simp [Future.get, PromiseFuturePair.get, FutureValueType.isCompleted]
  · simp [Future.getMove, PromiseFuturePair.getMove, FutureValueType.isCompleted]

/-- C5: on a terminal cell, `get()` and `getMove()` return the stored value
when the cell holds a value, and raise exactly the stored exception when it
holds an error: they never return a value for an errored cell. -/
theorem Future_get_terminal (w : World T E) (c : CellId)
    (hterm : (w.cells c).m_val.isCompleted = true) :
    (∀ v, (w.cells c).m_val = .value v →
      Future.get w c = some (.ok v) ∧ Future.getMove w c = some (.ok v)) ∧
    (∀ e, (w.cells c).m_val = .exception e →
      Future.get w c = some (.error e) ∧ Future.getMove w c = some (.error e) ∧
      ∀ v, Future.get w c ≠ some (.ok v) ∧ Future.getMove w c ≠ some (.ok v)) ∧
    ((∃ v, (w.cells c).m_val = .value v) ∨ (∃ e, (w.cells c).m_val = .exception e)) := by
  refine ⟨?_, ?_, ?_⟩
  · intro v hv
    simp [Future.get, Future.getMove, PromiseFuturePair.get, PromiseFuturePair.getMove, hv,
      FutureValueType.isCompleted]
  · intro e he
    simp [Future.get, Future.getMove, PromiseFuturePair.get, PromiseFuturePair.getMove, he,
      FutureValueType.isCompleted]
  · cases hm : (w.cells c).m_val with
    | notCompleted => simp [hm, FutureValueType.isCompleted] at hterm
    | value v => exact Or.inl ⟨v, rfl⟩
    | exception e => exact Or.inr ⟨e, rfl⟩

/-- C5 at concrete cells: a cell holding `1` yields `1`, a cell holding the
exception `3` raises `3`. -/
theorem Future_get_terminal_witness :
    (((oneCell.setVal 0 (.value 1)).cells 0).m_val.isCompleted = true ∧
      Future.get (oneCell.setVal 0 (.value 1)) 0 = some (.ok 1)) ∧
    (((oneCell.setVal 0 (.exception 3)).cells 0).m_val.isCompleted = true ∧
      Future.get (oneCell.setVal 0 (.exception 3)) 0 = some (.error 3)) :=
  ⟨⟨rfl, ((Future_get_terminal (oneCell.setVal 0 (.value 1)) 0 rfl).1 1 rfl).1⟩,
   ⟨rfl, ((Future_get_terminal (oneCell.setVal 0 (.exception 3)) 0 rfl).2.1 3 rfl).1⟩⟩

end Cell

/-! ## Registration of a continuation and completion of its input -/

section Registration

variable {T E : Type}

/-- Completion with fuel `n` of cells ranked below `k`, for `k ≤ n`. -/
theorem setResult_below (rank : CellId → Nat) (n k : Nat) (hk : k ≤ n)
    (w : World T E) (d : CellId) (v : FutureValueType T E)
    (hw : ForwardsDescend rank w) (hd : rank d < k) (hv : v.isCompleted = true) :
    ∃ w1, setResult n w d v = some w1 ∧
      (∀ x, rank d < rank x → w1.cells x = w.cells x) ∧ Evolves w w1 := by
  obtain ⟨w1, h1, _, h3, h4⟩ := setResult_descend rank n w d v hw (lt_of_lt_of_le hd hk) hv
  exact ⟨w1, h1, fun x hx => h3 x (fun hxd => by subst hxd; exact lt_irrefl _ hx)
    (le_of_lt hx), h4⟩

/-- A combinator that finds its input pending appends its callback to the input. -/
theorem addCallback_register_pending (fuel : Nat) (w0 : World T E) (fArg : CellId)
    (work : Work T E) (hin : fArg < w0.next)
    (hpend : (w0.cells fArg).m_val = .notCompleted) :
    addCallback fuel (makeShared w0).2 fArg (.enqueue work) =
      some ((makeShared w0).2.pushCallback fArg (.enqueue work)) := by
  have hne : fArg ≠ w0.next := Nat.ne_of_lt hin
  simp [addCallback, makeShared_cells_old w0 fArg hne, hpend, FutureValueType.isCompleted]

/-- A combinator that finds its input terminal enqueues its work item at once. -/
theorem addCallback_register_terminal (fuel : Nat) (w0 : World T E) (fArg : CellId)
    (work : Work T E) (hin : fArg < w0.next)
    (hterm : (w0.cells fArg).m_val.isCompleted = true) :
    addCallback fuel (makeShared w0).2 fArg (.enqueue work) =
      some ((makeShared w0).2.enqueue work) := by
  have hne : fArg ≠ w0.next := Nat.ne_of_lt hin
  simp [addCallback, makeShared_cells_old w0 fArg hne, hterm, invokeCallback]

theorem Ready.distinct {w0 w : World T E} {fArg : CellId} {val : FutureValueType T E}
    (h : Ready w0 w fArg val) : fArg ≠ w0.next :=
  Nat.ne_of_lt h.allocated

/-- The work item of a combinator that found its input terminal is ready to run. -/
theorem ready_of_terminal (w0 : World T E) (fArg : CellId) (work : Work T E)
    (hin : fArg < w0.next) :
    Ready w0 { ((makeShared w0).2.enqueue work) with queue := w0.queue } fArg
      (w0.cells fArg).m_val := by
  have hne : fArg ≠ w0.next := Nat.ne_of_lt hin
  refine ⟨?_, ?_, hin, rfl, rfl⟩
  · show (((makeShared w0).2.cells fArg)).m_val = _
    rw [makeShared_cells_old w0 fArg hne]
  · show (makeShared w0).2.cells w0.next = _
    exact makeShared_cells_new w0

/-- Completion of an input on which a combinator has registered its callback:
the completion returns, the work item is the last one enqueued, and it is
ready to run. -/
theorem complete_registered (rank : CellId → Nat) (fuel : Nat) (w0 : World T E)
    (fArg : CellId) (work : Work T E) (val : FutureValueType T E)
    (hdesc : ForwardsDescend rank w0) (halloc : ForwardsAllocated w0)
    (hin : fArg < w0.next) (hfuel : rank fArg < fuel) (hval : val.isCompleted = true) :
    ∃ w2 q, setResult fuel ((makeShared w0).2.pushCallback fArg (.enqueue work)) fArg val
        = some w2 ∧
      w2.queue = q ++ [work] ∧ w2.cells fArg = { m_val := val, m_callbacks := [] } ∧
      Ready w0 { w2 with queue := q } fArg val := by
  have hne : fArg ≠ w0.next := Nat.ne_of_lt hin
  have hne2 : w0.next ≠ fArg := fun h => hne h.symm
  obtain ⟨n, rfl⟩ : ∃ n, fuel = n + 1 := ⟨fuel - 1, by omega⟩
  -- the heap after registration and after the assignment of the slot
  have hF : (((makeShared w0).2.pushCallback fArg (.enqueue work)).setVal fArg val).cells fArg =
      ⟨val, (w0.cells fArg).m_callbacks ++ [.enqueue work]⟩ := by
    simp [makeShared_cells_old w0 fArg hne]
  have hR : (((makeShared w0).2.pushCallback fArg (.enqueue work)).setVal fArg val).cells
      w0.next = {} := by
    rw [setVal_cells_other _ _ _ _ hne2, pushCallback_cells_other _ _ _ _ hne2]
    exact makeShared_cells_new w0
  have hO : ∀ x, x ≠ fArg → x ≠ w0.next →
      (((makeShared w0).2.pushCallback fArg (.enqueue work)).setVal fArg val).cells x =
        w0.cells x := by
    intro x hx1 hx2
    rw [setVal_cells_other _ _ _ _ hx1, pushCallback_cells_other _ _ _ _ hx1]
    exact makeShared_cells_old w0 x hx2
  generalize hwa : ((makeShared w0).2.pushCallback fArg (.enqueue work)).setVal fArg val = wa
    at hF hR hO
  have hwa_calls : wa.calls = w0.calls := by rw [← hwa]; rfl
  have hwa_next : wa.next = w0.next + 1 := by rw [← hwa]; rfl
  -- the ranking, with the new cell placed beside the input
  have hrF : Function.update rank w0.next (rank fArg) fArg = rank fArg := by
    rw [Function.update_noteq hne]
  have hrR : Function.update rank w0.next (rank fArg) w0.next = rank fArg := by
    rw [Function.update_same]
  have hold : ∀ c d, Callback.forward d ∈ (w0.cells c).m_callbacks →
      Function.update rank w0.next (rank fArg) d < rank c := by
    intro c d hm
    have hd : d ≠ w0.next := Nat.ne_of_lt (halloc c d hm)
    rw [Function.update_noteq hd]
    exact hdesc c d hm
  have hdesc1 : ForwardsDescend (Function.update rank w0.next (rank fArg)) wa := by
    intro c d hm
    by_cases hc1 : c = fArg
    · subst hc1
      rw [hF] at hm
      have hm2 : Callback.forward d ∈ (w0.cells c).m_callbacks := by simpa using hm
      rw [hrF]
      exact hold c d hm2
    · by_cases hc2 : c = w0.next
      · subst hc2
        rw [hR] at hm
        simp at hm
      · rw [hO c hc1 hc2] at hm
        rw [Function.update_noteq hc2]
        exact hold c d hm
  have hl : ∀ d, Callback.forward d ∈ (w0.cells fArg).m_callbacks →
      Function.update rank w0.next (rank fArg) d <
        Function.update rank w0.next (rank fArg) fArg := by
    intro d hm
    rw [hrF]
    exact hold fArg d hm
  have hk : Function.update rank w0.next (rank fArg) fArg ≤ n := by
    rw [hrF]; omega
  obtain ⟨wm, h1, h2, h3⟩ := runCallbacks_descend (Function.update rank w0.next (rank fArg))
    (Function.update rank w0.next (rank fArg) fArg) (setResult n)
    (fun w d v hw hd hv => setResult_below _ n _ hk w d v hw hd hv)
    fArg le_rfl (w0.cells fArg).m_callbacks wa hdesc1 (by rw [hF]; exact hval) hl
  refine ⟨(wm.enqueue work).clearCallbacks fArg, wm.queue, ?_, rfl, ?_, ?_⟩
  · have hne3 : ((w0.cells fArg).m_callbacks ++ [Callback.enqueue work]).isEmpty = false := by
      cases (w0.cells fArg).m_callbacks <;> rfl
    simp only [setResult, hwa, hF, hne3]
    rw [runCallbacks_append, h1]
    simp [runCallbacks, invokeCallback]
  · rw [clearCallbacks_cells_same]
    show _ = _
    have := h2 fArg le_rfl
    simp [this, hF]
  · refine ⟨?_, ?_, hin, ?_, ?_⟩
    · show (((wm.enqueue work).clearCallbacks fArg).cells fArg).m_val = val
      rw [clearCallbacks_cells_same]
      have := h2 fArg le_rfl
      simp [this, hF]
    · show ((wm.enqueue work).clearCallbacks fArg).cells w0.next = {}
      rw [clearCallbacks_cells_other _ _ _ hne2]
      have := h2 w0.next (by rw [hrF, hrR])
      simp [this, hR]
    · show wm.calls = w0.calls
      rw [h3.calls_eq, hwa_calls]
    · show wm.next = w0.next + 1
      rw [h3.next_eq, hwa_next]

end Registration

/-! ## Running the work items -/

section Running

variable {T E : Type}

theorem Future_get_setVal_same (w : World T E) (c : CellId) (r : Except E T) :
    Future.get (w.setVal c (match r with | .ok x => .value x | .error e => .exception e)) c
      = some r := by
  cases r <;> simp [Future.get, PromiseFuturePair.get, FutureValueType.isCompleted]

theorem Future_get_value (w : World T E) (c : CellId) (v : T)
    (h : (w.cells c).m_val = .value v) : Future.get w c = some (.ok v) := by
  simp [Future.get, PromiseFuturePair.get, FutureValueType.isCompleted, h]

theorem Future_get_exception (w : World T E) (c : CellId) (e : E)
    (h : (w.cells c).m_val = .exception e) : Future.get w c = some (.error e) := by
  simp [Future.get, PromiseFuturePair.get, FutureValueType.isCompleted, h]

theorem Future_get_pending (w : World T E) (c : CellId)
    (h : (w.cells c).m_val = .notCompleted) : Future.get w c = none := by
  simp [Future.get, PromiseFuturePair.get, FutureValueType.isCompleted, h]

/-- The work item of `addContinuation`, run on an input that holds a value. -/
theorem runWork_continuation_value (n : Nat) (w0 w : World T E) (fArg : CellId) (name : Nat)
    (f : T → Except E T) (v : T) (h : Ready w0 w fArg (.value v)) :
    ∃ w3, runWork (n + 1) w (.continuation w0.next name f fArg) = .returned w3 ∧
      Future.get w3 w0.next = some (f v) ∧ Future.get w3 fArg = some (.ok v) ∧
      w3.calls = w0.calls ++ [(name, .value v)] := by
  have hcb : ((w.logCall name (.value v)).cells w0.next).m_callbacks = [] := by
    rw [logCall_cells, h.output]
  refine ⟨(w.logCall name (.value v)).setVal w0.next
    (match f v with | .ok x => .value x | .error e => .exception e), ?_, ?_, ?_, ?_⟩
  · simp only [runWork, PromiseFuturePair.get, h.input, FutureValueType.isCompleted, if_true]
    cases hf : f v with
    | ok r => simp [set, setResult_no_callbacks _ _ _ _ hcb (Nat.succ_pos _), Outcome.ofOption]
    | error e => simp [setException, setResult_no_callbacks _ _ _ _ hcb (Nat.succ_pos _), Outcome.ofOption]
  · exact Future_get_setVal_same _ _ _
  · apply Future_get_value
    rw [setVal_cells_other _ _ _ _ h.distinct, logCall_cells, h.input]
  · simp [h.calls_eq]

/-- The work items of `addContinuation` and `addAsyncContinuation`, run on an
input that holds an error: the error is stored, the user function is not invoked. -/
theorem runWork_input_exception (n : Nat) (w0 w : World T E) (fArg : CellId) (e : E)
    (h : Ready w0 w fArg (.exception e)) (work : Work T E)
    (hwork : (∃ name f, work = .continuation w0.next name f fArg) ∨
      (∃ name f, work = .asyncContinuation w0.next name f fArg)) :
    ∃ w3, runWork (n + 1) w work = .returned w3 ∧
      Future.get w3 w0.next = some (.error e) ∧ Future.get w3 fArg = some (.error e) ∧
      w3.calls = w0.calls := by
  have hcb : (w.cells w0.next).m_callbacks = [] := by rw [h.output]
  refine ⟨w.setVal w0.next (.exception e), ?_, ?_, ?_, ?_⟩
  · rcases hwork with ⟨name, f, rfl⟩ | ⟨name, f, rfl⟩ <;>
      simp [runWork, PromiseFuturePair.get, h.input, FutureValueType.isCompleted, setException,
        setResult_no_callbacks _ _ _ _ hcb (Nat.succ_pos _), Outcome.ofOption]
  · exact Future_get_exception _ _ e (by simp)
  · apply Future_get_exception
    rw [setVal_cells_other _ _ _ _ h.distinct, h.input]
  · simp [h.calls_eq]

/-- The work item of `catchAsync`, run on an input that holds a value: the
value is passed on, the handler is not invoked. -/
theorem runWork_catch_value (n : Nat) (w0 w : World T E) (fArg : CellId) (name : Nat)
    (f : E → Except E (FutureExpr T)) (v : T) (h : Ready w0 w fArg (.value v)) :
    ∃ w3, runWork (n + 1) w (.catchContinuation w0.next name f fArg) = .returned w3 ∧
      Future.get w3 w0.next = some (.ok v) ∧ Future.get w3 fArg = some (.ok v) ∧
      w3.calls = w0.calls := by
  have hcb : (w.cells w0.next).m_callbacks = [] := by rw [h.output]
  refine ⟨w.setVal w0.next (.value v), ?_, ?_, ?_, ?_⟩
  · simp [runWork, PromiseFuturePair.get, h.input, FutureValueType.isCompleted,
      setResult_no_callbacks _ _ _ _ hcb (Nat.succ_pos _), Outcome.ofOption]
  · exact Future_get_value _ _ v (by simp)
  · apply Future_get_value
    rw [setVal_cells_other _ _ _ _ h.distinct, h.input]
  · simp [h.calls_eq]

/-- The chaining step shared by `addAsyncContinuation` and `catchAsync`, with
the output cell `ret` as created: it returns, touches no cell but `ret` and the
new inner cell, invokes no user function itself, and leaves `ret` chained. -/
theorem chainInner_chained (n : Nat) (w : World T E) (ret : CellId)
    (res : Except E (FutureExpr T)) (hret : w.cells ret = {}) (hlt : ret < w.next) :
    ∃ w3, chainInner (n + 2) w ret res = .returned w3 ∧ w3.calls = w.calls ∧
      (∀ x, x ≠ ret → x < w.next → w3.cells x = w.cells x) ∧
      Chained (n + 2) w3 ret w.next res := by
  have hne : ret ≠ w.next := Nat.ne_of_lt hlt
  have hne2 : w.next ≠ ret := fun h => hne h.symm
  have hcb : (w.cells ret).m_callbacks = [] := by rw [hret]
  cases res with
  | error e =>
    refine ⟨w.setVal ret (.exception e), ?_, rfl, ?_, ?_⟩
    · simp [chainInner, setException, setResult_no_callbacks _ _ _ _ hcb (Nat.succ_pos _), Outcome.ofOption]
    · intro x hx _
      exact setVal_cells_other _ _ _ _ hx
    · exact Future_get_exception _ _ e (by simp)
  | ok fe =>
    cases fe with
    | completed r =>
      have hnew : ((makeShared w).2.cells w.next).m_callbacks = [] := by
        rw [makeShared_cells_new]
      have hmk : FutureExpr.make (n + 2) w (.completed r) =
          some (w.next, (makeShared w).2.setVal w.next (.value r)) := by
        have h := setResult_no_callbacks (n + 2) (makeShared w).2 w.next (.value r) hnew
          (by omega)
        simp only [FutureExpr.make, completedFuture, set, makeShared_fst, h]
      have hcb2 : ((((makeShared w).2.setVal w.next (.value r))).cells ret).m_callbacks = [] := by
        rw [setVal_callbacks, makeShared_cells_old w ret hne, hret]
      refine ⟨((makeShared w).2.setVal w.next (.value r)).setVal ret (.value r), ?_, rfl, ?_, ?_⟩
      · simp only [chainInner, hmk, addCallback, setVal_cells_same,
          FutureValueType.isCompleted, if_true, invokeCallback]
        rw [setResult_no_callbacks (n + 2) _ ret _ hcb2 (by omega)]
        rfl
      · intro x hx hx2
        rw [setVal_cells_other _ _ _ _ hx, setVal_cells_other _ _ _ _ (Nat.ne_of_lt hx2),
          makeShared_cells_old w x (Nat.ne_of_lt hx2)]
      · refine ⟨Future_get_value _ _ r ?_, Future_get_value _ _ r (by simp)⟩
        rw [setVal_cells_other _ _ _ _ hne2]
        simp
    | pending =>
      refine ⟨(makeShared w).2.pushCallback w.next (.forward ret), ?_, rfl, ?_, ?_⟩
      · simp [chainInner, FutureExpr.make, addCallback, FutureValueType.isCompleted,
          Outcome.ofOption]
      · intro x _ hx2
        rw [pushCallback_cells_other _ _ _ _ (Nat.ne_of_lt hx2),
          makeShared_cells_old w x (Nat.ne_of_lt hx2)]
      · have hI : ((makeShared w).2.pushCallback w.next (.forward ret)).cells w.next =
            ⟨.notCompleted, [.forward ret]⟩ := by
          rw [pushCallback_cells_same, makeShared_cells_new]
          rfl
        have hR : ((makeShared w).2.pushCallback w.next (.forward ret)).cells ret = {} := by
          rw [pushCallback_cells_other _ _ _ _ hne, makeShared_cells_old w ret hne, hret]
        generalize (makeShared w).2.pushCallback w.next (.forward ret) = w3 at hI hR
        refine ⟨Future_get_pending _ _ (by rw [hI]), Future_get_pending _ _ (by rw [hR]), ?_⟩
        intro s
        refine ⟨((w3.setVal w.next s).setVal ret s).clearCallbacks w.next, ?_, ?_, ?_, rfl⟩
        · exact setResult_forward_only n w3 w.next ret _ s hI (by rw [hR])
        · rw [clearCallbacks_cells_same, setVal_cells_other _ _ _ _ hne2]
          simp
        · rw [clearCallbacks_cells_other _ _ _ hne]
          simp

/-- The work item of `addAsyncContinuation`, run on an input that holds a value. -/
theorem runWork_async_value (n : Nat) (w0 w : World T E) (fArg : CellId) (name : Nat)
    (f : T → Except E (FutureExpr T)) (v : T) (h : Ready w0 w fArg (.value v)) :
    ∃ w3, runWork (n + 2) w (.asyncContinuation w0.next name f fArg) = .returned w3 ∧
      w3.calls = w0.calls ++ [(name, .value v)] ∧ Future.get w3 fArg = some (.ok v) ∧
      Chained (n + 2) w3 w0.next (w0.next + 1) (f v) := by
  obtain ⟨w3, h1, h2, h3, h4⟩ := chainInner_chained n (w.logCall name (.value v)) w0.next (f v)
    (by rw [logCall_cells, h.output]) (by rw [logCall_next, h.next_eq]; exact Nat.lt_succ_self _)
  refine ⟨w3, ?_, ?_, ?_, ?_⟩
  · simp only [runWork, PromiseFuturePair.get, h.input, FutureValueType.isCompleted, if_true]
    exact h1
  · rw [h2, logCall_calls, h.calls_eq]
  · apply Future_get_value
    rw [h3 fArg h.distinct
      (by rw [logCall_next, h.next_eq]; exact Nat.lt_succ_of_lt h.allocated),
      logCall_cells, h.input]
  · rw [logCall_next, h.next_eq] at h4
    exact h4

/-- The work item of `catchAsync`, run on an input that holds an error. -/
theorem runWork_catch_exception (n : Nat) (w0 w : World T E) (fArg : CellId) (name : Nat)
    (f : E → Except E (FutureExpr T)) (e : E) (h : Ready w0 w fArg (.exception e)) :
    ∃ w3, runWork (n + 2) w (.catchContinuation w0.next name f fArg) = .returned w3 ∧
      w3.calls = w0.calls ++ [(name, .exception e)] ∧ Future.get w3 fArg = some (.error e) ∧
      Chained (n + 2) w3 w0.next (w0.next + 1) (f e) := by
  obtain ⟨w3, h1, h2, h3, h4⟩ := chainInner_chained n (w.logCall name (.exception e)) w0.next
    (f e) (by rw [logCall_cells, h.output]) (by rw [logCall_next, h.next_eq]; exact Nat.lt_succ_self _)
  refine ⟨w3, ?_, ?_, ?_, ?_⟩
  · simp only [runWork, PromiseFuturePair.get, h.input, FutureValueType.isCompleted, if_true]
    exact h1
  · rw [h2, logCall_calls, h.calls_eq]
  · apply Future_get_exception
    rw [h3 fArg h.distinct
      (by rw [logCall_next, h.next_eq]; exact Nat.lt_succ_of_lt h.allocated),
      logCall_cells, h.input]
  · rw [logCall_next, h.next_eq] at h4
    exact h4

end Running

/-! ## The combinators `addContinuation`, `addAsyncContinuation`, `catchAsync` -/

section Combinators

variable {T E : Type}

theorem forwardsDescend_of_no_callbacks (rank : CellId → Nat) (w : World T E)
    (h : ∀ c, (w.cells c).m_callbacks = []) : ForwardsDescend rank w := by
  intro c d hm
  rw [h c] at hm
  simp at hm

theorem forwardsAllocated_of_no_callbacks (w : World T E)
    (h : ∀ c, (w.cells c).m_callbacks = []) : ForwardsAllocated w := by
  intro c d hm
  rw [h c] at hm
  simp at hm

theorem oneCell_no_callbacks (c : CellId) : (oneCell.cells c).m_callbacks = [] := by
  by_cases hc : c = 0
  · subst hc; rfl
  · simp [oneCell, makeShared, World.empty, Function.update_noteq hc]

theorem oneCell_setVal_no_callbacks (v : FutureValueType Int Nat) (c : CellId) :
    ((oneCell.setVal 0 v).cells c).m_callbacks = [] := by
  rw [setVal_callbacks]
  exact oneCell_no_callbacks c

theorem addContinuation_pending (fuel : Nat) (w0 : World T E) (name : Nat)
    (f : T → Except E T) (fArg : CellId) (hin : fArg < w0.next)
    (hpend : (w0.cells fArg).m_val = .notCompleted) :
    addContinuation fuel w0 name f fArg = some (w0.next,
      (makeShared w0).2.pushCallback fArg (.enqueue (.continuation w0.next name f fArg))) := by
  show (match addCallback fuel (makeShared w0).2 fArg
      (.enqueue (.continuation w0.next name f fArg)) with
    | none => none
    | some w2 => some (w0.next, w2)) = _
  rw [addCallback_register_pending fuel w0 fArg _ hin hpend]

theorem addContinuation_terminal (fuel : Nat) (w0 : World T E) (name : Nat)
    (f : T → Except E T) (fArg : CellId) (hin : fArg < w0.next)
    (hterm : (w0.cells fArg).m_val.isCompleted = true) :
    addContinuation fuel w0 name f fArg = some (w0.next,
      (makeShared w0).2.enqueue (.continuation w0.next name f fArg)) := by
  show (match addCallback fuel (makeShared w0).2 fArg
      (.enqueue (.continuation w0.next name f fArg)) with
    | none => none
    | some w2 => some (w0.next, w2)) = _
  rw [addCallback_register_terminal fuel w0 fArg _ hin hterm]

theorem addAsyncContinuation_pending (fuel : Nat) (w0 : World T E) (name : Nat)
    (f : T → Except E (FutureExpr T)) (fArg : CellId) (hin : fArg < w0.next)
    (hpend : (w0.cells fArg).m_val = .notCompleted) :
    addAsyncContinuation fuel w0 name f fArg = some (w0.next,
      (makeShared w0).2.pushCallback fArg
        (.enqueue (.asyncContinuation w0.next name f fArg))) := by
  show (match addCallback fuel (makeShared w0).2 fArg
      (.enqueue (.asyncContinuation w0.next name f fArg)) with
    | none => none
    | some w2 => some (w0.next, w2)) = _
  rw [addCallback_register_pending fuel w0 fArg _ hin hpend]

theorem addAsyncContinuation_terminal (fuel : Nat) (w0 : World T E) (name : Nat)
    (f : T → Except E (FutureExpr T)) (fArg : CellId) (hin : fArg < w0.next)
    (hterm : (w0.cells fArg).m_val.isCompleted = true) :
    addAsyncContinuation fuel w0 name f fArg = some (w0.next,
      (makeShared w0).2.enqueue (.asyncContinuation w0.next name f fArg)) := by
  show (match addCallback fuel (makeShared w0).2 fArg
      (.enqueue (.asyncContinuation w0.next name f fArg)) with
    | none => none
    | some w2 => some (w0.next, w2)) = _
  rw [addCallback_register_terminal fuel w0 fArg _ hin hterm]

theorem catchAsync_pending (fuel : Nat) (w0 : World T E) (name : Nat)
    (f : E → Except E (FutureExpr T)) (fArg : CellId) (hin : fArg < w0.next)
    (hpend : (w0.cells fArg).m_val = .notCompleted) :
    catchAsync fuel w0 name f fArg = some (w0.next,
      (makeShared w0).2.pushCallback fArg
        (.enqueue (.catchContinuation w0.next name f fArg))) := by
  show (match addCallback fuel (makeShared w0).2 fArg
      (.enqueue (.catchContinuation w0.next name f fArg)) with
    | none => none
    | some w2 => some (w0.next, w2)) = _
  rw [addCallback_register_pending fuel w0 fArg _ hin hpend]

theorem catchAsync_terminal (fuel : Nat) (w0 : World T E) (name : Nat)
    (f : E → Except E (FutureExpr T)) (fArg : CellId) (hin : fArg < w0.next)
    (hterm : (w0.cells fArg).m_val.isCompleted = true) :
    catchAsync fuel w0 name f fArg = some (w0.next,
      (makeShared w0).2.enqueue (.catchContinuation w0.next name f fArg)) := by
  show (match addCallback fuel (makeShared w0).2 fArg
      (.enqueue (.catchContinuation w0.next name f fArg)) with
    | none => none
    | some w2 => some (w0.next, w2)) = _
  rw [addCallback_register_terminal fuel w0 fArg _ hin hterm]

/-- C6: `addContinuation(executor, f, fArg)` on an input that completes with
the value `v`.  Whether the input completes after the call (first part) or was
complete before it (second part), the continuation is enqueued, and once a
worker has run it the returned future is terminal and `get()` yields `f(v)`:
the value `f` returned, or the exception `f` raised.  `f` has been invoked once,
with `v`.  For `f` the identity, `get()` on the output equals `get()` on the input. -/
theorem addContinuation_result (rank : CellId → Nat) (fuel : Nat) (w0 : World T E)
    (fArg : CellId) (name : Nat) (f : T → Except E T) (v : T)
    (hdesc : ForwardsDescend rank w0) (halloc : ForwardsAllocated w0)
    (hin : fArg < w0.next) (hfuel : rank fArg < fuel) :
    ((w0.cells fArg).m_val = .notCompleted →
      ∃ ret w1 w2 q w3,
        addContinuation fuel w0 name f fArg = some (ret, w1) ∧
        set fuel w1 fArg v = some w2 ∧
        w2.queue = q ++ [.continuation ret name f fArg] ∧
        runWork fuel { w2 with queue := q } (.continuation ret name f fArg) = .returned w3 ∧
        Future.get w3 ret = some (f v) ∧ Future.get w3 fArg = some (.ok v) ∧
        w3.calls = w0.calls ++ [(name, .value v)] ∧
        ((∀ x, f x = .ok x) → Future.get w3 ret = Future.get w3 fArg)) ∧
    ((w0.cells fArg).m_val = .value v →
      ∃ ret w1 w3,
        addContinuation fuel w0 name f fArg = some (ret, w1) ∧
        w1.queue = w0.queue ++ [.continuation ret name f fArg] ∧
        runWork fuel { w1 with queue := w0.queue } (.continuation ret name f fArg)
          = .returned w3 ∧
        Future.get w3 ret = some (f v) ∧ Future.get w3 fArg = some (.ok v) ∧
        w3.calls = w0.calls ++ [(name, .value v)] ∧
        ((∀ x, f x = .ok x) → Future.get w3 ret = Future.get w3 fArg)) := by
  obtain ⟨n, rfl⟩ : ∃ n, fuel = n + 1 := ⟨fuel - 1, by omega⟩
  constructor
  · intro hpend
    obtain ⟨w2, q, h1, h2, _, h4⟩ := complete_registered rank (n + 1) w0 fArg
      (.continuation w0.next name f fArg) (.value v) hdesc halloc hin hfuel rfl
    obtain ⟨w3, h5, h6, h7, h8⟩ := runWork_continuation_value n w0 _ fArg name f v h4
    exact ⟨w0.next, _, w2, q, w3, addContinuation_pending _ w0 name f fArg hin hpend,
      h1, h2, h5, h6, h7, h8, fun hid => by rw [h6, h7, hid]⟩
  · intro hval
    have hterm : (w0.cells fArg).m_val.isCompleted = true := by rw [hval]; rfl
    have hr := ready_of_terminal w0 fArg (.continuation w0.next name f fArg) hin
    rw [hval] at hr
    obtain ⟨w3, h5, h6, h7, h8⟩ := runWork_continuation_value n w0 _ fArg name f v hr
    exact ⟨w0.next, _, w3, addContinuation_terminal _ w0 name f fArg hin hterm,
      rfl, h5, h6, h7, h8, fun hid => by rw [h6, h7, hid]⟩

/-- C6 on the scenario of `testDirect`: the input completes with `40`, the
continuation adds `2`, `get()` yields `42`; also when the input holds `40`
before the continuation is added; and with the identity as continuation the
output yields what the input yields. -/
theorem addContinuation_result_witness :
    (ForwardsDescend (fun _ => 0) oneCell ∧ ForwardsAllocated oneCell ∧
      (0 : Nat) < oneCell.next ∧ (0 : Nat) < 1 ∧ (oneCell.cells 0).m_val = .notCompleted ∧
      (∃ ret w1 w2 q w3,
        addContinuation 1 oneCell 7 (fun a => .ok (a + 2)) 0 = some (ret, w1) ∧
        set 1 w1 0 40 = some w2 ∧
        w2.queue = q ++ [.continuation ret 7 (fun a => .ok (a + 2)) 0] ∧
        runWork 1 { w2 with queue := q } (.continuation ret 7 (fun a => .ok (a + 2)) 0)
          = .returned w3 ∧
        Future.get w3 ret = some (.ok 42) ∧ Future.get w3 0 = some (.ok 40) ∧
        w3.calls = oneCell.calls ++ [(7, .value 40)]) ∧
      (∃ ret w1 w2 q w3,
        addContinuation 1 oneCell 7 (fun a => .ok a) 0 = some (ret, w1) ∧
        set 1 w1 0 40 = some w2 ∧
        w2.queue = q ++ [.continuation ret 7 (fun a => .ok a) 0] ∧
        runWork 1 { w2 with queue := q } (.continuation ret 7 (fun a => .ok a) 0)
          = .returned w3 ∧
        Future.get w3 ret = Future.get w3 0)) ∧
    ((oneCell.setVal 0 (.value 40)).cells 0).m_val = .value 40 ∧
      ∃ ret w1 w3,
        addContinuation 1 (oneCell.setVal 0 (.value 40)) 7 (fun a => .ok (a + 2)) 0
          = some (ret, w1) ∧
        w1.queue = (oneCell.setVal 0 (.value 40)).queue ++
          [.continuation ret 7 (fun a => .ok (a + 2)) 0] ∧
        runWork 1 { w1 with queue := (oneCell.setVal 0 (.value 40)).queue }
          (.continuation ret 7 (fun a => .ok (a + 2)) 0) = .returned w3 ∧
        Future.get w3 ret = some (.ok 42) ∧ Future.get w3 0 = some (.ok 40) ∧
        w3.calls = (oneCell.setVal 0 (.value 40)).calls ++ [(7, .value 40)] := by
  have hd := forwardsDescend_of_no_callbacks (fun _ => 0) _ oneCell_no_callbacks
  have ha := forwardsAllocated_of_no_callbacks _ oneCell_no_callbacks
  have hd2 := forwardsDescend_of_no_callbacks (fun _ => 0) _
    (oneCell_setVal_no_callbacks (.value 40))
  have ha2 := forwardsAllocated_of_no_callbacks _ (oneCell_setVal_no_callbacks (.value 40))
  refine ⟨⟨hd, ha, by decide, by decide, rfl, ?_, ?_⟩, rfl, ?_⟩
  · obtain ⟨ret, w1, w2, q, w3, h1, h2, h3, h4, h5, h6, h7, _⟩ :=
      (addContinuation_result (fun _ => 0) 1 oneCell 0 7 (fun a => .ok (a + 2)) 40 hd ha
        (by decide) (by decide)).1 rfl
    exact ⟨ret, w1, w2, q, w3, h1, h2, h3, h4, h5, h6, h7⟩
  · obtain ⟨ret, w1, w2, q, w3, h1, h2, h3, h4, _, _, _, h8⟩ :=
      (addContinuation_result (fun _ => 0) 1 oneCell 0 7 (fun a => .ok a) 40 hd ha
        (by decide) (by decide)).1 rfl
    exact ⟨ret, w1, w2, q, w3, h1, h2, h3, h4, h8 (fun _ => rfl)⟩
  · obtain ⟨ret, w1, w3, h1, h2, h3, h4, h5, h6, _⟩ :=
      (addContinuation_result (fun _ => 0) 1 (oneCell.setVal 0 (.value 40)) 0 7
        (fun a => .ok (a + 2)) 40 hd2 ha2 (by decide) (by decide)).2 rfl
    exact ⟨ret, w1, w3, h1, h2, h3, h4, h5, h6⟩

/-- C7: when the input of `addContinuation` or of `addAsyncContinuation`
completes with the error `e` (after the call, first part; before it, second
part), the work item stores the same error `e` in the output, whose `get()`
raises `e`, and the user function is never invoked (`calls` is unchanged). -/
theorem continuation_forwards_error (rank : CellId → Nat) (fuel : Nat) (w0 : World T E)
    (fArg : CellId) (name : Nat) (f : T → Except E T) (g : T → Except E (FutureExpr T)) (e : E)
    (hdesc : ForwardsDescend rank w0) (halloc : ForwardsAllocated w0)
    (hin : fArg < w0.next) (hfuel : rank fArg < fuel) :
    ((w0.cells fArg).m_val = .notCompleted →
      (∃ ret w1 w2 q w3,
        addContinuation fuel w0 name f fArg = some (ret, w1) ∧
        setException fuel w1 fArg e = some w2 ∧
        w2.queue = q ++ [.continuation ret name f fArg] ∧
        runWork fuel { w2 with queue := q } (.continuation ret name f fArg) = .returned w3 ∧
        Future.get w3 ret = some (.error e) ∧ Future.get w3 fArg = some (.error e) ∧
        w3.calls = w0.calls) ∧
      (∃ ret w1 w2 q w3,
        addAsyncContinuation fuel w0 name g fArg = some (ret, w1) ∧
        setException fuel w1 fArg e = some w2 ∧
        w2.queue = q ++ [.asyncContinuation ret name g fArg] ∧
        runWork fuel { w2 with queue := q } (.asyncContinuation ret name g fArg)
          = .returned w3 ∧
        Future.get w3 ret = some (.error e) ∧ Future.get w3 fArg = some (.error e) ∧
        w3.calls = w0.calls)) ∧
    ((w0.cells fArg).m_val = .exception e →
      (∃ ret w1 w3,
        addContinuation fuel w0 name f fArg = some (ret, w1) ∧
        w1.queue = w0.queue ++ [.continuation ret name f fArg] ∧
        runWork fuel { w1 with queue := w0.queue } (.continuation ret name f fArg)
          = .returned w3 ∧
        Future.get w3 ret = some (.error e) ∧ Future.get w3 fArg = some (.error e) ∧
        w3.calls = w0.calls) ∧
      (∃ ret w1 w3,
        addAsyncContinuation fuel w0 name g fArg = some (ret, w1) ∧
        w1.queue = w0.queue ++ [.asyncContinuation ret name g fArg] ∧
        runWork fuel { w1 with queue := w0.queue } (.asyncContinuation ret name g fArg)
          = .returned w3 ∧
        Future.get w3 ret = some (.error e) ∧ Future.get w3 fArg = some (.error e) ∧
        w3.calls = w0.calls)) := by
  obtain ⟨n, rfl⟩ : ∃ n, fuel = n + 1 := ⟨fuel - 1, by omega⟩
  constructor
  · intro hpend
    constructor
    · obtain ⟨w2, q, h1, h2, _, h4⟩ := complete_registered rank (n + 1) w0 fArg
        (.continuation w0.next name f fArg) (.exception e) hdesc halloc hin hfuel rfl
      obtain ⟨w3, h5, h6, h7, h8⟩ := runWork_input_exception n w0 _ fArg e h4
        (.continuation w0.next name f fArg) (Or.inl ⟨name, f, rfl⟩)
      exact ⟨w0.next, _, w2, q, w3, addContinuation_pending _ w0 name f fArg hin hpend,
        h1, h2, h5, h6, h7, h8⟩
    · obtain ⟨w2, q, h1, h2, _, h4⟩ := complete_registered rank (n + 1) w0 fArg
        (.asyncContinuation w0.next name g fArg) (.exception e) hdesc halloc hin hfuel rfl
      obtain ⟨w3, h5, h6, h7, h8⟩ := runWork_input_exception n w0 _ fArg e h4
        (.asyncContinuation w0.next name g fArg) (Or.inr ⟨name, g, rfl⟩)
      exact ⟨w0.next, _, w2, q, w3, addAsyncContinuation_pending _ w0 name g fArg hin hpend,
        h1, h2, h5, h6, h7, h8⟩
  · intro hval
    have hterm : (w0.cells fArg).m_val.isCompleted = true := by rw [hval]; rfl
    constructor
    · have hr := ready_of_terminal w0 fArg (.continuation w0.next name f fArg) hin
      rw [hval] at hr
      obtain ⟨w3, h5, h6, h7, h8⟩ := runWork_input_exception n w0 _ fArg e hr
        (.continuation w0.next name f fArg) (Or.inl ⟨name, f, rfl⟩)
      exact ⟨w0.next, _, w3, addContinuation_terminal _ w0 name f fArg hin hterm,
        rfl, h5, h6, h7, h8⟩
    · have hr := ready_of_terminal w0 fArg (.asyncContinuation w0.next name g fArg) hin
      rw [hval] at hr
      obtain ⟨w3, h5, h6, h7, h8⟩ := runWork_input_exception n w0 _ fArg e hr
        (.asyncContinuation w0.next name g fArg) (Or.inr ⟨name, g, rfl⟩)
      exact ⟨w0.next, _, w3, addAsyncContinuation_terminal _ w0 name g fArg hin hterm,
        rfl, h5, h6, h7, h8⟩

/-- C7 on a concrete cell: the input completes with the exception `5`; the
outputs of `addContinuation` and of `addAsyncContinuation` raise `5`, and no
user function has been invoked. -/
theorem continuation_forwards_error_witness :
    ForwardsDescend (fun _ => 0) oneCell ∧ ForwardsAllocated oneCell ∧
      (0 : Nat) < oneCell.next ∧ (0 : Nat) < 1 ∧ (oneCell.cells 0).m_val = .notCompleted ∧
      (∃ ret w1 w2 q w3,
        addContinuation 1 oneCell 7 (fun a => .ok (a + 2)) 0 = some (ret, w1) ∧
        setException 1 w1 0 5 = some w2 ∧
        w2.queue = q ++ [.continuation ret 7 (fun a => .ok (a + 2)) 0] ∧
        runWork 1 { w2 with queue := q } (.continuation ret 7 (fun a => .ok (a + 2)) 0)
          = .returned w3 ∧
        Future.get w3 ret = some (.error 5) ∧ Future.get w3 0 = some (.error 5) ∧
        w3.calls = oneCell.calls) ∧
      (∃ ret w1 w2 q w3,
        addAsyncContinuation 1 oneCell 7 (fun a => .ok (.completed (a + 2))) 0
          = some (ret, w1) ∧
        setException 1 w1 0 5 = some w2 ∧
        w2.queue = q ++ [.asyncContinuation ret 7 (fun a => .ok (.completed (a + 2))) 0] ∧
        runWork 1 { w2 with queue := q }
          (.asyncContinuation ret 7 (fun a => .ok (.completed (a + 2))) 0) = .returned w3 ∧
        Future.get w3 ret = some (.error 5) ∧ Future.get w3 0 = some (.error 5) ∧
        w3.calls = oneCell.calls) :=
  have hd := forwardsDescend_of_no_callbacks (fun _ => 0) _ oneCell_no_callbacks
  have ha := forwardsAllocated_of_no_callbacks _ oneCell_no_callbacks
  ⟨hd, ha, by decide, by decide, rfl,
    (continuation_forwards_error (fun _ => 0) 1 oneCell 0 7 (fun a => .ok (a + 2))
      (fun a => .ok (.completed (a + 2))) 5 hd ha (by decide) (by decide)).1 rfl⟩

/-- C8: `addAsyncContinuation(executor, f, fArg)` on an input that completes
with the value `v` (after the call, first part; before it, second part).  Once
a worker has run the continuation, `f` has been invoked once, with `v`, and the
output is chained to the future `f(v)` (see `Chained`).  That inner future is
the cell allocated while the item runs: the first free cell of the state in
which the item starts (`w2.next`, or `w1.next`), a cell other than the output,
which lies below it.  The output holds the error `e` if `f(v)` raised `e`, it
holds the state of the inner future if that is terminal, and otherwise it takes
the terminal state of the inner future, value or error, as soon as the inner
future is completed. -/
theorem addAsyncContinuation_result (rank : CellId → Nat) (fuel : Nat) (w0 : World T E)
    (fArg : CellId) (name : Nat) (f : T → Except E (FutureExpr T)) (v : T)
    (hdesc : ForwardsDescend rank w0) (halloc : ForwardsAllocated w0)
    (hin : fArg < w0.next) (hfuel : rank fArg + 1 < fuel) :
    ((w0.cells fArg).m_val = .notCompleted →
      ∃ ret w1 w2 q w3,
        addAsyncContinuation fuel w0 name f fArg = some (ret, w1) ∧
        set fuel w1 fArg v = some w2 ∧
        w2.queue = q ++ [.asyncContinuation ret name f fArg] ∧
        runWork fuel { w2 with queue := q } (.asyncContinuation ret name f fArg)
          = .returned w3 ∧
        w3.calls = w0.calls ++ [(name, .value v)] ∧
        ret < w2.next ∧
        Chained fuel w3 ret w2.next (f v)) ∧
    ((w0.cells fArg).m_val = .value v →
      ∃ ret w1 w3,
        addAsyncContinuation fuel w0 name f fArg = some (ret, w1) ∧
        w1.queue = w0.queue ++ [.asyncContinuation ret name f fArg] ∧
        runWork fuel { w1 with queue := w0.queue } (.asyncContinuation ret name f fArg)
          = .returned w3 ∧
        w3.calls = w0.calls ++ [(name, .value v)] ∧
        ret < w1.next ∧
        Chained fuel w3 ret w1.next (f v)) := by
  obtain ⟨n, rfl⟩ : ∃ n, fuel = n + 2 := ⟨fuel - 2, by omega⟩
  constructor
  · intro hpend
    obtain ⟨w2, q, h1, h2, _, h4⟩ := complete_registered rank (n + 2) w0 fArg
      (.asyncContinuation w0.next name f fArg) (.value v) hdesc halloc hin (by omega) rfl
    obtain ⟨w3, h5, h6, _, h8⟩ := runWork_async_value n w0 _ fArg name f v h4
    have hnext : w2.next = w0.next + 1 := h4.next_eq
    refine ⟨w0.next, _, w2, q, w3,
      addAsyncContinuation_pending _ w0 name f fArg hin hpend, h1, h2, h5, h6, ?_, ?_⟩
    · rw [hnext]
      exact Nat.lt_succ_self _
    · rw [hnext]
      exact h8
  · intro hval
    have hterm : (w0.cells fArg).m_val.isCompleted = true := by rw [hval]; rfl
    have hr := ready_of_terminal w0 fArg (.asyncContinuation w0.next name f fArg) hin
    rw [hval] at hr
    obtain ⟨w3, h5, h6, _, h8⟩ := runWork_async_value n w0 _ fArg name f v hr
    exact ⟨w0.next, _, w3,
      addAsyncContinuation_terminal _ w0 name f fArg hin hterm, rfl, h5, h6,
      Nat.lt_succ_self _, h8⟩

/-- C8 on the scenario of `testUnpack`: the input completes with `40`, the
user function returns a pending future, which is the cell `w2.next`, not the
output; when its producer completes it with `40 + 2` the output yields `42`,
and when its producer completes it with the error `9` the output raises `9`.
Likewise when the user function returns `completedFuture(a + 2)`. -/
theorem addAsyncContinuation_result_witness :
    ForwardsDescend (fun _ => 0) oneCell ∧ ForwardsAllocated oneCell ∧
      (0 : Nat) < oneCell.next ∧ (0 + 1 : Nat) < 2 ∧ (oneCell.cells 0).m_val = .notCompleted ∧
      (∃ ret w1 w2 q w3 w4 w5,
        addAsyncContinuation 2 oneCell 7 (fun _ => .ok .pending) 0 = some (ret, w1) ∧
        set 2 w1 0 40 = some w2 ∧
        w2.queue = q ++ [.asyncContinuation ret 7 (fun _ => .ok .pending) 0] ∧
        runWork 2 { w2 with queue := q } (.asyncContinuation ret 7 (fun _ => .ok .pending) 0)
          = .returned w3 ∧
        ret < w2.next ∧
        Future.get w3 w2.next = none ∧ Future.get w3 ret = none ∧
        set 2 w3 w2.next (40 + 2) = some w4 ∧ Future.get w4 ret = some (.ok 42) ∧
        setException 2 w3 w2.next 9 = some w5 ∧ Future.get w5 ret = some (.error 9)) ∧
      (∃ ret w1 w2 q w3,
        addAsyncContinuation 2 oneCell 7 (fun a => .ok (.completed (a + 2))) 0
          = some (ret, w1) ∧
        set 2 w1 0 40 = some w2 ∧
        w2.queue = q ++ [.asyncContinuation ret 7 (fun a => .ok (.completed (a + 2))) 0] ∧
        runWork 2 { w2 with queue := q }
          (.asyncContinuation ret 7 (fun a => .ok (.completed (a + 2))) 0) = .returned w3 ∧
        ret < w2.next ∧
        Future.get w3 w2.next = some (.ok 42) ∧ Future.get w3 ret = some (.ok 42)) := by
  have hd := forwardsDescend_of_no_callbacks (fun _ => 0) _ oneCell_no_callbacks
  have ha := forwardsAllocated_of_no_callbacks _ oneCell_no_callbacks
  refine ⟨hd, ha, by decide, by decide, rfl, ?_, ?_⟩
  · obtain ⟨ret, w1, w2, q, w3, h1, h2, h3, h4, _, hlt, h6⟩ :=
      (addAsyncContinuation_result (fun _ => 0) 2 oneCell 0 7 (fun _ => .ok .pending) 40
        hd ha (by decide) (by decide)).1 rfl
    have h7 : Future.get w3 w2.next = none ∧ Future.get w3 ret = none ∧
        ∀ s : FutureValueType Int Nat, ∃ w4, setResult 2 w3 w2.next s = some w4 ∧
          (w4.cells w2.next).m_val = s ∧ (w4.cells ret).m_val = s ∧ w4.calls = w3.calls := h6
    obtain ⟨w4, h8, _, h9, _⟩ := h7.2.2 (.value (40 + 2))
    obtain ⟨w5, h10, _, h11, _⟩ := h7.2.2 (.exception 9)
    exact ⟨ret, w1, w2, q, w3, w4, w5, h1, h2, h3, h4, hlt, h7.1, h7.2.1, h8,
      Future_get_value _ _ _ h9, h10, Future_get_exception _ _ _ h11⟩
  · obtain ⟨ret, w1, w2, q, w3, h1, h2, h3, h4, _, hlt, h6⟩ :=
      (addAsyncContinuation_result (fun _ => 0) 2 oneCell 0 7
        (fun a => .ok (.completed (a + 2))) 40 hd ha (by decide) (by decide)).1 rfl
    have h7 : Future.get w3 w2.next = some (.ok 42) ∧ Future.get w3 ret = some (.ok 42) := h6
    exact ⟨ret, w1, w2, q, w3, h1, h2, h3, h4, hlt, h7.1, h7.2⟩

/-- C9: `catchAsync(executor, f, fArg)` on an input that completes with the
value `v` (after the call, first part; before it, second part).  Once a worker
has run the continuation the output holds the same value `v`, so `get()` on the
output equals `get()` on the input, and the handler `f` is never invoked
(`calls` is unchanged), whatever `f` is. -/
theorem catchAsync_passes_value (rank : CellId → Nat) (fuel : Nat) (w0 : World T E)
    (fArg : CellId) (name : Nat) (f : E → Except E (FutureExpr T)) (v : T)
    (hdesc : ForwardsDescend rank w0) (halloc : ForwardsAllocated w0)
    (hin : fArg < w0.next) (hfuel : rank fArg < fuel) :
    ((w0.cells fArg).m_val = .notCompleted →
      ∃ ret w1 w2 q w3,
        catchAsync fuel w0 name f fArg = some (ret, w1) ∧
        set fuel w1 fArg v = some w2 ∧
        w2.queue = q ++ [.catchContinuation ret name f fArg] ∧
        runWork fuel { w2 with queue := q } (.catchContinuation ret name f fArg)
          = .returned w3 ∧
        Future.get w3 ret = some (.ok v) ∧ Future.get w3 fArg = some (.ok v) ∧
        Future.get w3 ret = Future.get w3 fArg ∧ w3.calls = w0.calls) ∧
    ((w0.cells fArg).m_val = .value v →
      ∃ ret w1 w3,
        catchAsync fuel w0 name f fArg = some (ret, w1) ∧
        w1.queue = w0.queue ++ [.catchContinuation ret name f fArg] ∧
        runWork fuel { w1 with queue := w0.queue } (.catchContinuation ret name f fArg)
          = .returned w3 ∧
        Future.get w3 ret = some (.ok v) ∧ Future.get w3 fArg = some (.ok v) ∧
        Future.get w3 ret = Future.get w3 fArg ∧ w3.calls = w0.calls) := by
  obtain ⟨n, rfl⟩ : ∃ n, fuel = n + 1 := ⟨fuel - 1, by omega⟩
  constructor
  · intro hpend
    obtain ⟨w2, q, h1, h2, _, h4⟩ := complete_registered rank (n + 1) w0 fArg
      (.catchContinuation w0.next name f fArg) (.value v) hdesc halloc hin hfuel rfl
    obtain ⟨w3, h5, h6, h7, h8⟩ := runWork_catch_value n w0 _ fArg name f v h4
    exact ⟨w0.next, _, w2, q, w3, catchAsync_pending _ w0 name f fArg hin hpend,
      h1, h2, h5, h6, h7, h6.trans h7.symm, h8⟩
  · intro hval
    have hterm : (w0.cells fArg).m_val.isCompleted = true := by rw [hval]; rfl
    have hr := ready_of_terminal w0 fArg (.catchContinuation w0.next name f fArg) hin
    rw [hval] at hr
    obtain ⟨w3, h5, h6, h7, h8⟩ := runWork_catch_value n w0 _ fArg name f v hr
    exact ⟨w0.next, _, w3, catchAsync_terminal _ w0 name f fArg hin hterm,
      rfl, h5, h6, h7, h6.trans h7.symm, h8⟩

/-- C9 on a concrete cell: the input completes with `40`, the handler always
raises; the output yields `40` and the handler has not been invoked. -/
theorem catchAsync_passes_value_witness :
    ForwardsDescend (fun _ => 0) oneCell ∧ ForwardsAllocated oneCell ∧
      (0 : Nat) < oneCell.next ∧ (0 : Nat) < 1 ∧ (oneCell.cells 0).m_val = .notCompleted ∧
      ∃ ret w1 w2 q w3,
        catchAsync 1 oneCell 7 (fun e => .error e) 0 = some (ret, w1) ∧
        set 1 w1 0 40 = some w2 ∧
        w2.queue = q ++ [.catchContinuation ret 7 (fun e => .error e) 0] ∧
        runWork 1 { w2 with queue := q } (.catchContinuation ret 7 (fun e => .error e) 0)
          = .returned w3 ∧
        Future.get w3 ret = some (.ok 40) ∧ Future.get w3 0 = some (.ok 40) ∧
        Future.get w3 ret = Future.get w3 0 ∧ w3.calls = oneCell.calls :=
  have hd := forwardsDescend_of_no_callbacks (fun _ => 0) _ oneCell_no_callbacks
  have ha := forwardsAllocated_of_no_callbacks _ oneCell_no_callbacks
  ⟨hd, ha, by decide, by decide, rfl,
    (catchAsync_passes_value (fun _ => 0) 1 oneCell 0 7 (fun e => .error e) 40 hd ha
      (by decide) (by decide)).1 rfl⟩

/-- C10: `catchAsync(executor, f, fArg)` on an input that completes with the
error `e` (after the call, first part; before it, second part).  Once a worker
has run the continuation, the handler has been invoked exactly once, with `e`,
and the output is chained to the future `f(e)` (see `Chained`).  That future is
the cell allocated while the item runs: the first free cell of the state in
which the item starts (`w2.next`, or `w1.next`), a cell other than the output,
which lies below it.  The output holds the error `e1` if `f(e)` raised `e1`, it
holds the state of the returned future if that is terminal (a value recovers),
and otherwise it takes the terminal state of the returned future, value or
error, as soon as that future is completed. -/
theorem catchAsync_recovers (rank : CellId → Nat) (fuel : Nat) (w0 : World T E)
    (fArg : CellId) (name : Nat) (f : E → Except E (FutureExpr T)) (e : E)
    (hdesc : ForwardsDescend rank w0) (halloc : ForwardsAllocated w0)
    (hin : fArg < w0.next) (hfuel : rank fArg + 1 < fuel) :
    ((w0.cells fArg).m_val = .notCompleted →
      ∃ ret w1 w2 q w3,
        catchAsync fuel w0 name f fArg = some (ret, w1) ∧
        setException fuel w1 fArg e = some w2 ∧
        w2.queue = q ++ [.catchContinuation ret name f fArg] ∧
        runWork fuel { w2 with queue := q } (.catchContinuation ret name f fArg)
          = .returned w3 ∧
        w3.calls = w0.calls ++ [(name, .exception e)] ∧
        ret < w2.next ∧
        Chained fuel w3 ret w2.next (f e)) ∧
    ((w0.cells fArg).m_val = .exception e →
      ∃ ret w1 w3,
        catchAsync fuel w0 name f fArg = some (ret, w1) ∧
        w1.queue = w0.queue ++ [.catchContinuation ret name f fArg] ∧
        runWork fuel { w1 with queue := w0.queue } (.catchContinuation ret name f fArg)
          = .returned w3 ∧
        w3.calls = w0.calls ++ [(name, .exception e)] ∧
        ret < w1.next ∧
        Chained fuel w3 ret w1.next (f e)) := by
  obtain ⟨n, rfl⟩ : ∃ n, fuel = n + 2 := ⟨fuel - 2, by omega⟩
  constructor
  · intro hpend
    obtain ⟨w2, q, h1, h2, _, h4⟩ := complete_registered rank (n + 2) w0 fArg
      (.catchContinuation w0.next name f fArg) (.exception e) hdesc halloc hin (by omega) rfl
    obtain ⟨w3, h5, h6, _, h8⟩ := runWork_catch_exception n w0 _ fArg name f e h4
    have hnext : w2.next = w0.next + 1 := h4.next_eq
    refine ⟨w0.next, _, w2, q, w3,
      catchAsync_pending _ w0 name f fArg hin hpend, h1, h2, h5, h6, ?_, ?_⟩
    · rw [hnext]
      exact Nat.lt_succ_self _
    · rw [hnext]
      exact h8
  · intro hval
    have hterm : (w0.cells fArg).m_val.isCompleted = true := by rw [hval]; rfl
    have hr := ready_of_terminal w0 fArg (.catchContinuation w0.next name f fArg) hin
    rw [hval] at hr
    obtain ⟨w3, h5, h6, _, h8⟩ := runWork_catch_exception n w0 _ fArg name f e hr
    exact ⟨w0.next, _, w3,
      catchAsync_terminal _ w0 name f fArg hin hterm, rfl, h5, h6,
      Nat.lt_succ_self _, h8⟩

/-- C10 on concrete cells: the input completes with the exception `5`.  A
handler that returns `completedFuture(0)` makes the result `0`; a handler that
raises `e + 1` makes the output raise `6`; a handler that returns a pending
future (the cell `w2.next`, not the output) makes the output raise `9` when
that future is completed with the exception `9`, and yield `3` when it is
completed with `3`.  Each handler has been invoked once, with `5`. -/
theorem catchAsync_recovers_witness :
    ForwardsDescend (fun _ => 0) oneCell ∧ ForwardsAllocated oneCell ∧
      (0 : Nat) < oneCell.next ∧ (0 + 1 : Nat) < 2 ∧ (oneCell.cells 0).m_val = .notCompleted ∧
      (∃ ret w1 w2 q w3,
        catchAsync 2 oneCell 7 (fun _ => .ok (.completed 0)) 0 = some (ret, w1) ∧
        setException 2 w1 0 5 = some w2 ∧
        w2.queue = q ++ [.catchContinuation ret 7 (fun _ => .ok (.completed 0)) 0] ∧
        runWork 2 { w2 with queue := q }
          (.catchContinuation ret 7 (fun _ => .ok (.completed 0)) 0) = .returned w3 ∧
        w3.calls = oneCell.calls ++ [(7, .exception 5)] ∧
        Future.get w3 ret = some (.ok 0)) ∧
      (∃ ret w1 w2 q w3,
        catchAsync 2 oneCell 7 (fun e => .error (e + 1)) 0 = some (ret, w1) ∧
        setException 2 w1 0 5 = some w2 ∧
        w2.queue = q ++ [.catchContinuation ret 7 (fun e => .error (e + 1)) 0] ∧
        runWork 2 { w2 with queue := q }
          (.catchContinuation ret 7 (fun e => .error (e + 1)) 0) = .returned w3 ∧
        w3.calls = oneCell.calls ++ [(7, .exception 5)] ∧
        Future.get w3 ret = some (.error 6)) ∧
      (∃ ret w1 w2 q w3 w4 w5,
        catchAsync 2 oneCell 7 (fun _ => .ok .pending) 0 = some (ret, w1) ∧
        setException 2 w1 0 5 = some w2 ∧
        w2.queue = q ++ [.catchContinuation ret 7 (fun _ => .ok .pending) 0] ∧
        runWork 2 { w2 with queue := q }
          (.catchContinuation ret 7 (fun _ => .ok .pending) 0) = .returned w3 ∧
        w3.calls = oneCell.calls ++ [(7, .exception 5)] ∧
        ret < w2.next ∧
        Future.get w3 w2.next = none ∧ Future.get w3 ret = none ∧
        setException 2 w3 w2.next 9 = some w4 ∧ Future.get w4 ret = some (.error 9) ∧
        w4.calls = oneCell.calls ++ [(7, .exception 5)] ∧
        set 2 w3 w2.next 3 = some w5 ∧ Future.get w5 ret = some (.ok 3)) := by
  have hd := forwardsDescend_of_no_callbacks (fun _ => 0) _ oneCell_no_callbacks
  have ha := forwardsAllocated_of_no_callbacks _ oneCell_no_callbacks
  refine ⟨hd, ha, by decide, by decide, rfl, ?_, ?_, ?_⟩
  · obtain ⟨ret, w1, w2, q, w3, h1, h2, h3, h4, h5, _, h6⟩ :=
      (catchAsync_recovers (fun _ => 0) 2 oneCell 0 7 (fun _ => .ok (.completed 0)) 5
        hd ha (by decide) (by decide)).1 rfl
    have h7 : Future.get w3 w2.next = some (.ok 0) ∧ Future.get w3 ret = some (.ok 0) := h6
    exact ⟨ret, w1, w2, q, w3, h1, h2, h3, h4, h5, h7.2⟩
  · obtain ⟨ret, w1, w2, q, w3, h1, h2, h3, h4, h5, _, h6⟩ :=
      (catchAsync_recovers (fun _ => 0) 2 oneCell 0 7 (fun e => .error (e + 1)) 5
        hd ha (by decide) (by decide)).1 rfl
    have h7 : Future.get w3 ret = some (.error 6) := h6
    exact ⟨ret, w1, w2, q, w3, h1, h2, h3, h4, h5, h7⟩
  · obtain ⟨ret, w1, w2, q, w3, h1, h2, h3, h4, h5, hlt, h6⟩ :=
      (catchAsync_recovers (fun _ => 0) 2 oneCell 0 7 (fun _ => .ok .pending) 5
        hd ha (by decide) (by decide)).1 rfl
    have h7 : Future.get w3 w2.next = none ∧ Future.get w3 ret = none ∧
        ∀ s : FutureValueType Int Nat, ∃ w4, setResult 2 w3 w2.next s = some w4 ∧
          (w4.cells w2.next).m_val = s ∧ (w4.cells ret).m_val = s ∧ w4.calls = w3.calls := h6
    obtain ⟨w4, h8, _, h9, h10⟩ := h7.2.2 (.exception 9)
    obtain ⟨w5, h11, _, h12, _⟩ := h7.2.2 (.value 3)
    exact ⟨ret, w1, w2, q, w3, w4, w5, h1, h2, h3, h4, h5, hlt, h7.1, h7.2.1, h8,
      Future_get_exception _ _ _ h9, h10.trans h5, h11, Future_get_value _ _ _ h12⟩

end Combinators

/-! ## The asynchronous loop: `auxLoop`, `executeAsyncLoop` -/

section Loop

variable {T E : Type}

/-- A callback invocation never calls a user function and allocates no cell,
given that completion with the fuel left does not. -/
theorem invokeCallback_calls_eq
    (sr : World T E → CellId → FutureValueType T E → Option (World T E))
    (hsr : ∀ w c v w1, sr w c v = some w1 → w1.calls = w.calls ∧ w1.next = w.next)
    (w w1 : World T E) (cb : Callback T E) (val : FutureValueType T E)
    (h : invokeCallback sr w cb val = some w1) : w1.calls = w.calls ∧ w1.next = w.next := by
  cases cb with
  | user tag => simp only [invokeCallback, Option.some.injEq] at h; subst h; exact ⟨rfl, rfl⟩
  | common tag =>
    cases ha : commonArgs val with
    | none => simp [invokeCallback, ha] at h
    | some args =>
      simp only [invokeCallback, ha, Option.some.injEq] at h
      subst h
      exact ⟨rfl, rfl⟩
  | enqueue work => simp only [invokeCallback, Option.some.injEq] at h; subst h; exact ⟨rfl, rfl⟩
  | forward d => exact hsr w d val w1 h

theorem runCallbacks_calls_eq
    (sr : World T E → CellId → FutureValueType T E → Option (World T E))
    (hsr : ∀ w c v w1, sr w c v = some w1 → w1.calls = w.calls ∧ w1.next = w.next)
    (c : CellId) (l : List (Callback T E)) :
    ∀ w w1 : World T E, runCallbacks sr w c l = some w1 →
      w1.calls = w.calls ∧ w1.next = w.next := by
  induction l with
  | nil =>
    intro w w1 h
    simp only [runCallbacks, Option.some.injEq] at h
    subst h
    exact ⟨rfl, rfl⟩
  | cons cb rest ih =>
    intro w w1 h
    simp only [runCallbacks] at h
    cases hi : invokeCallback sr w cb (w.cells c).m_val with
    | none => rw [hi] at h; simp at h
    | some w2 =>
      rw [hi] at h
      have h1 := invokeCallback_calls_eq sr hsr w w2 cb _ hi
      have h2 := ih w2 w1 h
      exact ⟨h2.1.trans h1.1, h2.2.trans h1.2⟩

/-- Completion never calls a user function and allocates no cell. -/
theorem setResult_calls_eq :
    ∀ (fuel : Nat) (w : World T E) (c : CellId) (v : FutureValueType T E) (w1 : World T E),
      setResult fuel w c v = some w1 → w1.calls = w.calls ∧ w1.next = w.next := by
  intro fuel
  induction fuel with
  | zero => intro w c v w1 h; simp [setResult] at h
  | succ n ih =>
    intro w c v w1 h
    simp only [setResult] at h
    split at h
    · simp only [Option.some.injEq] at h
      subst h
      exact ⟨rfl, rfl⟩
    · cases hr : runCallbacks (setResult n) (w.setVal c v) c
          ((w.setVal c v).cells c).m_callbacks with
      | none => rw [hr] at h; simp at h
      | some w2 =>
        rw [hr] at h
        simp only [Option.some.injEq] at h
        subst h
        have := runCallbacks_calls_eq (setResult n) ih c _ _ _ hr
        exact ⟨this.1, this.2⟩

theorem addCallback_calls_eq (fuel : Nat) (w w1 : World T E) (c : CellId) (cb : Callback T E)
    (h : addCallback fuel w c cb = some w1) : w1.calls = w.calls ∧ w1.next = w.next := by
  simp only [addCallback] at h
  split at h
  · exact invokeCallback_calls_eq _ (setResult_calls_eq fuel) w w1 cb _ h
  · simp only [Option.some.injEq] at h
    subst h
    exact ⟨rfl, rfl⟩

theorem make_calls_eq (fuel : Nat) (w w1 : World T E) (fe : FutureExpr T) (c : CellId)
    (h : fe.make fuel w = some (c, w1)) : w1.calls = w.calls := by
  cases fe with
  | completed v =>
    simp only [FutureExpr.make, completedFuture, set] at h
    cases hs : setResult fuel (makeShared w).2 (makeShared w).1 (.value v) with
    | none => rw [hs] at h; simp at h
    | some w2 =>
      rw [hs] at h
      simp only [Option.some.injEq, Prod.mk.injEq] at h
      rw [← h.2]
      exact (setResult_calls_eq fuel _ _ _ _ hs).1
  | pending =>
    simp only [FutureExpr.make, Option.some.injEq] at h
    have h2 : (makeShared w).2 = w1 := by rw [h]
    rw [← h2]
    rfl

/-- The step of a loop whose predicate says stop. -/
theorem auxLoop_stop (fuel : Nat) (w : World T E) (pname : Nat) (pred : T → Except E Bool)
    (lname : Nat) (loopFunc : T → Except E (FutureExpr T)) (x : T) (ret : CellId)
    (hfuel : 0 < fuel) (hret : (w.cells ret).m_callbacks = []) (hpred : pred x = .ok false) :
    auxLoop fuel w pname pred lname loopFunc x ret =
      .returned ((w.logCall pname (.value x)).setVal ret (.value x)) := by
  have hcb : ((w.logCall pname (.value x)).cells ret).m_callbacks = [] := by
    rw [logCall_cells, hret]
  simp [auxLoop, hpred, set, setResult_no_callbacks fuel _ ret _ hcb hfuel, Outcome.ofOption]

/-- The step of a loop whose predicate raises: the exception leaves `auxLoop`. -/
theorem auxLoop_pred_raise (fuel : Nat) (w : World T E) (pname : Nat)
    (pred : T → Except E Bool) (lname : Nat) (loopFunc : T → Except E (FutureExpr T))
    (x : T) (ret : CellId) (e : E) (hpred : pred x = .error e) :
    auxLoop fuel w pname pred lname loopFunc x ret = .threw e (w.logCall pname (.value x)) := by
  simp [auxLoop, hpred]

/-- The step of a loop whose body raises. -/
theorem auxLoop_body_raise (fuel : Nat) (w : World T E) (pname : Nat)
    (pred : T → Except E Bool) (lname : Nat) (loopFunc : T → Except E (FutureExpr T))
    (x : T) (ret : CellId) (e : E) (hfuel : 0 < fuel)
    (hret : (w.cells ret).m_callbacks = []) (hpred : pred x = .ok true)
    (hbody : loopFunc x = .error e) :
    auxLoop fuel w pname pred lname loopFunc x ret =
      .returned (((w.logCall pname (.value x)).logCall lname (.value x)).setVal ret
        (.exception e)) := by
  have hcb : (((w.logCall pname (.value x)).logCall lname (.value x)).cells ret).m_callbacks
      = [] := by
    rw [logCall_cells, logCall_cells, hret]
  simp [auxLoop, hpred, hbody, setException, setResult_no_callbacks fuel _ ret _ hcb hfuel,
    Outcome.ofOption]

/-- The step of a loop whose body returns `completedFuture(v)`: the next step is enqueued. -/
theorem auxLoop_completed (fuel : Nat) (w : World T E) (pname : Nat)
    (pred : T → Except E Bool) (lname : Nat) (loopFunc : T → Except E (FutureExpr T))
    (x v : T) (ret : CellId) (hfuel : 0 < fuel) (hpred : pred x = .ok true)
    (hbody : loopFunc x = .ok (.completed v)) :
    auxLoop fuel w pname pred lname loopFunc x ret =
      .returned (((makeShared ((w.logCall pname (.value x)).logCall lname (.value x))).2.setVal
        w.next (.value v)).enqueue (.loopStep pname pred lname loopFunc w.next ret)) := by
  have hnew : ((makeShared ((w.logCall pname (.value x)).logCall lname (.value x))).2.cells
      w.next).m_callbacks = [] := by
    have := makeShared_cells_new ((w.logCall pname (.value x)).logCall lname (.value x))
    rw [logCall_next, logCall_next] at this
    rw [this]
  have h := setResult_no_callbacks fuel
    (makeShared ((w.logCall pname (.value x)).logCall lname (.value x))).2 w.next (.value v)
    hnew hfuel
  have hmk : FutureExpr.make fuel ((w.logCall pname (.value x)).logCall lname (.value x))
      (.completed v) = some (w.next,
        (makeShared ((w.logCall pname (.value x)).logCall lname (.value x))).2.setVal w.next
          (.value v)) := by
    simp only [FutureExpr.make, completedFuture, set, makeShared_fst, logCall_next, h]
  simp only [auxLoop, hpred, hbody, hmk, addCallback, setVal_cells_same,
    FutureValueType.isCompleted, if_true, invokeCallback, Outcome.ofOption]

/-- The step of a loop whose body returns a pending future: the callback that
enqueues the next step is registered on it. -/
theorem auxLoop_pending (fuel : Nat) (w : World T E) (pname : Nat)
    (pred : T → Except E Bool) (lname : Nat) (loopFunc : T → Except E (FutureExpr T))
    (x : T) (ret : CellId) (hpred : pred x = .ok true)
    (hbody : loopFunc x = .ok .pending) :
    auxLoop fuel w pname pred lname loopFunc x ret =
      .returned ((makeShared ((w.logCall pname (.value x)).logCall lname (.value x))).2.pushCallback
        w.next (.enqueue (.loopStep pname pred lname loopFunc w.next ret))) := by
  have hnew := makeShared_cells_new ((w.logCall pname (.value x)).logCall lname (.value x))
  rw [logCall_next, logCall_next] at hnew
  simp only [auxLoop, hpred, hbody, FutureExpr.make, addCallback, makeShared_fst, logCall_next,
    hnew, FutureValueType.isCompleted, Outcome.ofOption]
  rfl

/-- A loop step taken off the queue calls `auxLoop` on the value of the body future. -/
theorem runWork_loopStep_value (fuel : Nat) (w : World T E) (pname : Nat)
    (pred : T → Except E Bool) (lname : Nat) (loopFunc : T → Except E (FutureExpr T))
    (tmp ret : CellId) (a : T) (h : (w.cells tmp).m_val = .value a) :
    runWork fuel w (.loopStep pname pred lname loopFunc tmp ret) =
      auxLoop fuel w pname pred lname loopFunc a ret := by
  simp [runWork, PromiseFuturePair.get, h, FutureValueType.isCompleted]

/-- Completing a cell whose only callback enqueues a work item. -/
theorem setResult_enqueue_only (fuel : Nat) (w : World T E) (c : CellId)
    (v s : FutureValueType T E) (work : Work T E) (hfuel : 0 < fuel)
    (hc : w.cells c = ⟨v, [.enqueue work]⟩) :
    setResult fuel w c s = some (((w.setVal c s).enqueue work).clearCallbacks c) := by
  obtain ⟨n, rfl⟩ : ∃ n, fuel = n + 1 := ⟨fuel - 1, by omega⟩
  simp [setResult, hc, runCallbacks, invokeCallback]

/-- A round in which the body future is already terminal: the worker runs the front item. -/
theorem loopRound_terminal (fuel : Nat) (w : World T E) (v : FutureValueType T E)
    (func : Work T E) (rest : List (Work T E))
    (htmp : (w.cells (w.next - 1)).m_val.isCompleted = true) (hq : w.queue = func :: rest) :
    loopRound fuel w v = runWork fuel { w with queue := rest } func := by
  simp only [loopRound, htmp, if_true, hq]

/-- A round in which the body future is pending: its producer completes it,
then the worker runs the front item. -/
theorem loopRound_pending (fuel : Nat) (w w1 : World T E) (v : FutureValueType T E)
    (func : Work T E) (rest : List (Work T E))
    (htmp : (w.cells (w.next - 1)).m_val.isCompleted = false)
    (hset : setResult fuel w (w.next - 1) v = some w1) (hq : w1.queue = func :: rest) :
    loopRound fuel w v = runWork fuel { w1 with queue := rest } func := by
  simp [loopRound, htmp, hset, hq]

/-- A loop runs to its end: from the step for the accumulator `x`, taken in a
world where the output cell is as created and the queue is empty, `n` rounds
lead to the world in which the output holds the `n`-th accumulator. -/
theorem loop_runs (fuel : Nat) (pname : Nat) (pred : T → Except E Bool) (lname : Nat)
    (loopFunc : T → Except E (FutureExpr T)) (produce : T → T) (ret : CellId)
    (hfuel : 0 < fuel) :
    ∀ (n : Nat) (x : T) (w : World T E),
      w.cells ret = {} → ret < w.next → w.queue = [] →
      (∀ i, i < n → pred ((nextAcc loopFunc produce)^[i] x) = .ok true ∧
        ∃ fe, loopFunc ((nextAcc loopFunc produce)^[i] x) = .ok fe) →
      pred ((nextAcc loopFunc produce)^[n] x) = .ok false →
      ∃ w1 w2, auxLoop fuel w pname pred lname loopFunc x ret = .returned w1 ∧
        loopRounds fuel loopFunc produce n x w1 = .returned w2 ∧
        w2.cells ret = ⟨.value ((nextAcc loopFunc produce)^[n] x), []⟩ ∧
        w2.queue = [] ∧
        w2.calls = w.calls ++ loopCalls pname lname (nextAcc loopFunc produce) n x := by
  intro n
  induction n with
  | zero =>
    intro x w hret _ hq _ hstop
    have hcb : (w.cells ret).m_callbacks = [] := by rw [hret]
    refine ⟨_, _, auxLoop_stop fuel w pname pred lname loopFunc x ret hfuel hcb hstop, rfl,
      ?_, ?_, ?_⟩
    · rw [setVal_cells_same, logCall_cells, hret]
      rfl
    · rw [setVal_queue, logCall_queue, hq]
    · rfl
  | succ k ih =>
    intro x w hret hlt hq hcont hstop
    have hne : ret ≠ w.next := Nat.ne_of_lt hlt
    obtain ⟨hp, fe, hb⟩ := hcont 0 (Nat.succ_pos k)
    simp only [Function.iterate_zero, id_eq] at hp hb
    have hcont2 : ∀ i, i < k →
        pred ((nextAcc loopFunc produce)^[i] (nextAcc loopFunc produce x)) = .ok true ∧
        ∃ fe, loopFunc ((nextAcc loopFunc produce)^[i] (nextAcc loopFunc produce x)) = .ok fe := by
      intro i hi
      have := hcont (i + 1) (Nat.succ_lt_succ hi)
      simpa only [Function.iterate_succ_apply] using this
    have hstop2 : pred ((nextAcc loopFunc produce)^[k] (nextAcc loopFunc produce x))
        = .ok false := by
      simpa only [Function.iterate_succ_apply] using hstop
    have hlt2 : ret < w.next + 1 := Nat.lt_succ_of_lt hlt
    cases fe with
    | completed v =>
      have hnext : nextAcc loopFunc produce x = v := by simp [nextAcc, hb]
      have haux := auxLoop_completed fuel w pname pred lname loopFunc x v ret hfuel hp hb
      generalize hw1 : ((makeShared ((w.logCall pname (.value x)).logCall lname
        (.value x))).2.setVal w.next (.value v)) = wa at haux
      have hwa_next : wa.next = w.next + 1 := by rw [← hw1]; rfl
      have hwa_queue : wa.queue = [] := by rw [← hw1]; exact hq
      have hwa_calls : wa.calls = w.calls ++ [(pname, .value x), (lname, .value x)] := by
        rw [← hw1]
        simp
      have hwa_tmp : wa.cells w.next = ⟨.value v, []⟩ := by
        rw [← hw1, setVal_cells_same]
        have := makeShared_cells_new ((w.logCall pname (.value x)).logCall lname (.value x))
        rw [logCall_next, logCall_next] at this
        rw [this]
      have hwa_ret : wa.cells ret = {} := by
        rw [← hw1, setVal_cells_other _ _ _ _ hne]
        have := makeShared_cells_old ((w.logCall pname (.value x)).logCall lname (.value x))
          ret hne
        rw [this, logCall_cells, logCall_cells, hret]
      obtain ⟨wA, wB, h1, h2, h3, h4, h5⟩ := ih v { wa with queue := [] }
        hwa_ret (by rw [hwa_next]; exact hlt2) rfl
        (by rw [← hnext]; exact hcont2) (by rw [← hnext]; exact hstop2)
      have hn : (wa.enqueue (.loopStep pname pred lname loopFunc w.next ret)).next - 1
          = w.next := by
        show wa.next - 1 = w.next
        rw [hwa_next]
        rfl
      have htmp : ((wa.enqueue (.loopStep pname pred lname loopFunc w.next ret)).cells
          ((wa.enqueue (.loopStep pname pred lname loopFunc w.next ret)).next - 1)).m_val.isCompleted
          = true := by
        rw [hn, enqueue_cells, hwa_tmp]
        rfl
      have hqq : (wa.enqueue (.loopStep pname pred lname loopFunc w.next ret)).queue =
          [.loopStep pname pred lname loopFunc w.next ret] := by
        rw [enqueue_queue, hwa_queue]
        rfl
      have hval : (wa.cells w.next).m_val = .value v := by rw [hwa_tmp]
      have hround : loopRound fuel (wa.enqueue (.loopStep pname pred lname loopFunc w.next ret))
          (.value (produce x)) = .returned wA :=
        (loopRound_terminal fuel _ _ _ _ htmp hqq).trans
          ((runWork_loopStep_value fuel { wa with queue := [] } pname pred lname loopFunc
            w.next ret v hval).trans h1)
      refine ⟨_, wB, haux, ?_, ?_, h4, ?_⟩
      · simp only [loopRounds, hround, hnext]
        exact h2
      · rw [h3, Function.iterate_succ_apply, hnext]
      · rw [h5]
        show wa.calls ++ _ = _
        rw [hwa_calls]
        simp [loopCalls, hnext]
    | pending =>
      have hnext : nextAcc loopFunc produce x = produce x := by simp [nextAcc, hb]
      have haux := auxLoop_pending fuel w pname pred lname loopFunc x ret hp hb
      generalize hw1 : ((makeShared ((w.logCall pname (.value x)).logCall lname
        (.value x))).2.pushCallback w.next
          (.enqueue (.loopStep pname pred lname loopFunc w.next ret))) = wa at haux
      have hwa_next : wa.next = w.next + 1 := by rw [← hw1]; rfl
      have hwa_queue : wa.queue = [] := by rw [← hw1]; exact hq
      have hwa_calls : wa.calls = w.calls ++ [(pname, .value x), (lname, .value x)] := by
        rw [← hw1]
        simp
      have hwa_tmp : wa.cells w.next =
          ⟨.notCompleted, [.enqueue (.loopStep pname pred lname loopFunc w.next ret)]⟩ := by
        rw [← hw1, pushCallback_cells_same]
        have := makeShared_cells_new ((w.logCall pname (.value x)).logCall lname (.value x))
        rw [logCall_next, logCall_next] at this
        rw [this]
        rfl
      have hwa_ret : wa.cells ret = {} := by
        rw [← hw1, pushCallback_cells_other _ _ _ _ hne]
        have := makeShared_cells_old ((w.logCall pname (.value x)).logCall lname (.value x))
          ret hne
        rw [this, logCall_cells, logCall_cells, hret]
      have hset := setResult_enqueue_only fuel wa w.next _ (.value (produce x))
        (.loopStep pname pred lname loopFunc w.next ret) hfuel hwa_tmp
      generalize hw2 : ((wa.setVal w.next (.value (produce x))).enqueue
        (.loopStep pname pred lname loopFunc w.next ret)).clearCallbacks w.next = wb at hset
      have hwb_next : wb.next = w.next + 1 := by rw [← hw2]; exact hwa_next
      have hwb_queue : wb.queue = [.loopStep pname pred lname loopFunc w.next ret] := by
        rw [← hw2]
        show wa.queue ++ _ = _
        rw [hwa_queue]
        rfl
      have hwb_calls : wb.calls = w.calls ++ [(pname, .value x), (lname, .value x)] := by
        rw [← hw2]; exact hwa_calls
      have hwb_tmp : (wb.cells w.next).m_val = .value (produce x) := by
        rw [← hw2, clearCallbacks_cells_same]
        show (((wa.setVal w.next (.value (produce x))).cells w.next)).m_val = _
        rw [setVal_cells_same]
      have hwb_ret : wb.cells ret = {} := by
        rw [← hw2, clearCallbacks_cells_other _ _ _ hne]
        show (wa.setVal w.next (.value (produce x))).cells ret = _
        rw [setVal_cells_other _ _ _ _ hne, hwa_ret]
      obtain ⟨wA, wB, h1, h2, h3, h4, h5⟩ := ih (produce x) { wb with queue := [] }
        hwb_ret (by rw [hwb_next]; exact hlt2) rfl
        (by rw [← hnext]; exact hcont2) (by rw [← hnext]; exact hstop2)
      have hn : wa.next - 1 = w.next := by rw [hwa_next]; rfl
      have htmp : (wa.cells (wa.next - 1)).m_val.isCompleted = false := by
        rw [hn, hwa_tmp]
        rfl
      have hround : loopRound fuel wa (.value (produce x)) = .returned wA :=
        (loopRound_pending fuel wa wb _ _ [] htmp (by rw [hn]; exact hset) hwb_queue).trans
          ((runWork_loopStep_value fuel { wb with queue := [] } pname pred lname loopFunc
            w.next ret (produce x) hwb_tmp).trans h1)
      refine ⟨wa, wB, haux, ?_, ?_, h4, ?_⟩
      · simp only [loopRounds, hround, hnext]
        exact h2
      · rw [h3, Function.iterate_succ_apply, hnext]
      · rw [h5]
        show wb.calls ++ _ = _
        rw [hwb_calls]
        simp [loopCalls, hnext]

/-- The body is called once per round: `n` times in a loop of `n` rounds. -/
theorem loopCalls_body_count (pname lname : Nat) (step : T → T) (hne : pname ≠ lname) :
    ∀ (n : Nat) (x : T),
      ((loopCalls pname lname step n x : List (Nat × CallArg T E)).filter
        (fun c => c.1 == lname)).length = n := by
  intro n
  induction n with
  | zero => intro x; simp [loopCalls, hne]
  | succ k ih =>
    intro x
    simp only [loopCalls, List.filter_cons, beq_self_eq_true, if_true, List.length_cons,
      beq_iff_eq, hne, if_false]
    rw [ih]

/-- C11, as stated, fails on its first example: with seed `0`, predicate
`v < 42` and a body whose future yields `v + 7` (a timer, as in `testAsyncLoop`),
the loop yields `42`, not `49`, after `6` invocations of the body, not `7`; no
step is left in the queue. -/
theorem loop_example_yields_42 :
    ∃ w1 w2,
      executeAsyncLoop 1 (World.empty : World Int Nat) 1 (fun v => .ok (decide (v < 42))) 2
        (fun _ => .ok .pending) 0 = (0, .returned w1) ∧
      loopRounds 1 (fun _ => .ok .pending) (fun v => v + 7) 6 0 w1 = .returned w2 ∧
      Future.get w2 0 = some (.ok 42) ∧ Future.get w2 0 ≠ some (.ok 49) ∧
      w2.queue = [] ∧ (w2.calls.filter (fun c => c.1 == 2)).length = 6 := by
  refine ⟨_, _, rfl, rfl, rfl, ?_, rfl, rfl⟩
  show some (Except.ok (42 : Int)) ≠ some (Except.ok 49)
  intro h
  injection h with h
  injection h with h
  exact absurd h (by decide)

/-- C11, amended.  Let `x0 = s` and `x(i+1)` be the value of the body future
of `xi` (`nextAcc`), let the predicate hold and the body return a future on
`x0 .. x(n-1)`, and let the predicate fail on `xn`.  Then `executeAsyncLoop`
on an idle executor returns a future which, once the body futures are
completed and the worker has run the enqueued steps (`n` rounds), is terminal
with the value `xn`; the queue is empty; the user functions called are the
predicate and the body on `x0 .. x(n-1)`, then the predicate on `xn`: the body
is invoked exactly `n` times.  (For `s = 0`, `v < 42`, `v + 7` this is `42`
after `6` rounds; for `v < 1000000`, `v + 1` it is `1000000`.) -/
theorem executeAsyncLoop_result (fuel : Nat) (w0 : World T E) (pname : Nat)
    (pred : T → Except E Bool) (lname : Nat) (loopFunc : T → Except E (FutureExpr T))
    (produce : T → T) (s : T) (n : Nat)
    (hfuel : 0 < fuel) (hq : w0.queue = []) (hne : pname ≠ lname)
    (hcont : ∀ i, i < n → pred ((nextAcc loopFunc produce)^[i] s) = .ok true ∧
      ∃ fe, loopFunc ((nextAcc loopFunc produce)^[i] s) = .ok fe)
    (hstop : pred ((nextAcc loopFunc produce)^[n] s) = .ok false) :
    ∃ ret w1 w2,
      executeAsyncLoop fuel w0 pname pred lname loopFunc s = (ret, .returned w1) ∧
      loopRounds fuel loopFunc produce n s w1 = .returned w2 ∧
      Future.get w2 ret = some (.ok ((nextAcc loopFunc produce)^[n] s)) ∧
      w2.queue = [] ∧
      w2.calls = w0.calls ++ loopCalls pname lname (nextAcc loopFunc produce) n s ∧
      ((loopCalls pname lname (nextAcc loopFunc produce) n s : List (Nat × CallArg T E)).filter
        (fun c => c.1 == lname)).length = n := by
  obtain ⟨w1, w2, h1, h2, h3, h4, h5⟩ := loop_runs fuel pname pred lname loopFunc produce
    w0.next hfuel n s (makeShared w0).2 (makeShared_cells_new w0) (Nat.lt_succ_self _) hq
    hcont hstop
  exact ⟨w0.next, w1, w2, by rw [← h1]; rfl, h2, Future_get_value _ _ _ (by rw [h3]), h4, h5,
    loopCalls_body_count pname lname _ hne n s⟩

/-- The accumulators of the loop `v < 1000000`, `completedFuture(v + 1)` from `0`. -/
theorem nextAcc_succ_iterate (i : Nat) :
    (nextAcc (fun v : Int => (Except.ok (FutureExpr.completed (v + 1)) :
      Except Nat (FutureExpr Int))) (fun v => v))^[i] 0 = (i : Int) := by
  induction i with
  | zero => rfl
  | succ k ih =>
    rw [Function.iterate_succ_apply', ih]
    simp [nextAcc]

/-- The amended C11 on the two examples: seed `0`, `v < 42`, a timer yielding
`v + 7`: the result is `42` after `6` rounds; seed `0`, `v < 1000000`,
`completedFuture(v + 1)`: the result is `1000000` after `1000000` rounds. -/
theorem executeAsyncLoop_result_witness :
    ((0 : Nat) < 1 ∧ (World.empty : World Int Nat).queue = [] ∧ (1 : Nat) ≠ 2 ∧
      ∃ ret w1 w2,
        executeAsyncLoop 1 (World.empty : World Int Nat) 1 (fun v => .ok (decide (v < 42))) 2
          (fun _ => .ok .pending) 0 = (ret, .returned w1) ∧
        loopRounds 1 (fun _ => .ok .pending) (fun v => v + 7) 6 0 w1 = .returned w2 ∧
        Future.get w2 ret = some (.ok 42) ∧ w2.queue = []) ∧
    (∃ ret w1 w2,
        executeAsyncLoop 1 (World.empty : World Int Nat) 1
          (fun v => .ok (decide (v < 1000000))) 2 (fun v => .ok (.completed (v + 1))) 0
          = (ret, .returned w1) ∧
        loopRounds 1 (fun v => .ok (.completed (v + 1))) (fun v => v) 1000000 0 w1
          = .returned w2 ∧
        Future.get w2 ret = some (.ok 1000000) ∧ w2.queue = []) := by
  constructor
  · obtain ⟨ret, w1, w2, h1, h2, h3, h4, _⟩ :=
      executeAsyncLoop_result 1 (World.empty : World Int Nat) 1 (fun v => .ok (decide (v < 42)))
        2 (fun _ => .ok .pending) (fun v => v + 7) 0 6 (by decide) rfl (by decide)
        (by intro i hi; interval_cases i <;> exact ⟨by simp [nextAcc], _, rfl⟩)
        (by simp [nextAcc])
    exact ⟨by decide, rfl, by decide, ret, w1, w2, h1, h2, h3, h4⟩
  · obtain ⟨ret, w1, w2, h1, h2, h3, h4, _⟩ :=
      executeAsyncLoop_result 1 (World.empty : World Int Nat) 1
        (fun v => .ok (decide (v < 1000000))) 2 (fun v => .ok (.completed (v + 1)))
        (fun v => v) 0 1000000 (by decide) rfl (by decide)
        (by
          intro i hi
          rw [nextAcc_succ_iterate]
          refine ⟨?_, _, rfl⟩
          have : (i : Int) < 1000000 := by exact_mod_cast hi
          simp [this])
        (by
          rw [nextAcc_succ_iterate]
          simp)
    rw [nextAcc_succ_iterate] at h3
    exact ⟨ret, w1, w2, h1, h2, h3, h4⟩

/-- The error paths of one loop step, taken in a world where the output cell
is as created.  A body that raises `e` completes the output with `e` at once.
A body that returns a pending future leaves the output pending; when that
future is completed with the error `e` the step it enqueues completes the
output with `e`.  In both cases predicate and body have been called once on
`x`, and nothing of the loop is left in the queue or on the body future. -/
theorem auxLoop_error_paths (fuel : Nat) (w : World T E) (pname : Nat)
    (pred : T → Except E Bool) (lname : Nat) (loopFunc : T → Except E (FutureExpr T))
    (x : T) (ret : CellId) (e : E) (hfuel : 0 < fuel) (hret : w.cells ret = {})
    (hlt : ret < w.next) (hpred : pred x = .ok true) :
    (loopFunc x = .error e →
      ∃ w1, auxLoop fuel w pname pred lname loopFunc x ret = .returned w1 ∧
        Future.get w1 ret = some (.error e) ∧
        w1.calls = w.calls ++ [(pname, .value x), (lname, .value x)] ∧
        w1.queue = w.queue) ∧
    (loopFunc x = .ok .pending →
      ∃ w1 w2 w3, auxLoop fuel w pname pred lname loopFunc x ret = .returned w1 ∧
        Future.get w1 ret = none ∧
        setException fuel w1 w.next e = some w2 ∧
        w2.queue = w.queue ++ [.loopStep pname pred lname loopFunc w.next ret] ∧
        runWork fuel { w2 with queue := w.queue }
          (.loopStep pname pred lname loopFunc w.next ret) = .returned w3 ∧
        Future.get w3 ret = some (.error e) ∧
        w3.calls = w.calls ++ [(pname, .value x), (lname, .value x)] ∧
        w3.queue = w.queue ∧ (w3.cells w.next).m_callbacks = []) := by
  have hne : ret ≠ w.next := Nat.ne_of_lt hlt
  have hcb : (w.cells ret).m_callbacks = [] := by rw [hret]
  constructor
  · intro hb
    refine ⟨_, auxLoop_body_raise fuel w pname pred lname loopFunc x ret e hfuel hcb hpred hb,
      Future_get_exception _ _ e (by simp), by simp, rfl⟩
  · intro hb
    have haux := auxLoop_pending fuel w pname pred lname loopFunc x ret hpred hb
    generalize hw1 : ((makeShared ((w.logCall pname (.value x)).logCall lname
      (.value x))).2.pushCallback w.next
        (.enqueue (.loopStep pname pred lname loopFunc w.next ret))) = wa at haux
    have hwa_queue : wa.queue = w.queue := by rw [← hw1]; rfl
    have hwa_calls : wa.calls = w.calls ++ [(pname, .value x), (lname, .value x)] := by
      rw [← hw1]
      simp
    have hwa_tmp : wa.cells w.next =
        ⟨.notCompleted, [.enqueue (.loopStep pname pred lname loopFunc w.next ret)]⟩ := by
      rw [← hw1, pushCallback_cells_same]
      have := makeShared_cells_new ((w.logCall pname (.value x)).logCall lname (.value x))
      rw [logCall_next, logCall_next] at this
      rw [this]
      rfl
    have hwa_ret : wa.cells ret = {} := by
      rw [← hw1, pushCallback_cells_other _ _ _ _ hne]
      have := makeShared_cells_old ((w.logCall pname (.value x)).logCall lname (.value x))
        ret hne
      rw [this, logCall_cells, logCall_cells, hret]
    have hset := setResult_enqueue_only fuel wa w.next _ (.exception e)
      (.loopStep pname pred lname loopFunc w.next ret) hfuel hwa_tmp
    generalize hw2 : ((wa.setVal w.next (.exception e)).enqueue
      (.loopStep pname pred lname loopFunc w.next ret)).clearCallbacks w.next = wb at hset
    have hwb_queue : wb.queue = w.queue ++ [.loopStep pname pred lname loopFunc w.next ret] := by
      rw [← hw2]
      show wa.queue ++ _ = _
      rw [hwa_queue]
    have hwb_calls : wb.calls = w.calls ++ [(pname, .value x), (lname, .value x)] := by
      rw [← hw2]; exact hwa_calls
    have hwb_tmp : wb.cells w.next = ⟨.exception e, []⟩ := by
      rw [← hw2, clearCallbacks_cells_same]
      show (⟨((wa.setVal w.next (.exception e)).cells w.next).m_val, []⟩ :
        PromiseFuturePair T E) = _
      rw [setVal_cells_same]
    have hwb_ret : wb.cells ret = {} := by
      rw [← hw2, clearCallbacks_cells_other _ _ _ hne]
      show (wa.setVal w.next (.exception e)).cells ret = _
      rw [setVal_cells_other _ _ _ _ hne, hwa_ret]
    have hwc_tmp : (({ wb with queue := w.queue } : World T E).cells w.next) =
        ⟨.exception e, []⟩ := hwb_tmp
    have hwc_ret : (({ wb with queue := w.queue } : World T E).cells ret) = {} := hwb_ret
    have hwc_calls : ({ wb with queue := w.queue } : World T E).calls =
        w.calls ++ [(pname, .value x), (lname, .value x)] := hwb_calls
    have hwc_queue : ({ wb with queue := w.queue } : World T E).queue = w.queue := rfl
    refine ⟨wa, wb, ({ wb with queue := w.queue } : World T E).setVal ret (.exception e),
      haux, Future_get_pending _ _ (by rw [hwa_ret]), hset, hwb_queue, ?_⟩
    generalize ({ wb with queue := w.queue } : World T E) = wc
      at hwc_tmp hwc_ret hwc_calls hwc_queue
    have hcb2 : (wc.cells ret).m_callbacks = [] := by rw [hwc_ret]
    have hm : (wc.cells w.next).m_val = .exception e := by rw [hwc_tmp]
    have hrun : runWork fuel wc (.loopStep pname pred lname loopFunc w.next ret) =
        .returned (wc.setVal ret (.exception e)) := by
      simp only [runWork, PromiseFuturePair.get, hm, FutureValueType.isCompleted, if_true,
        setException, setResult_no_callbacks fuel _ ret _ hcb2 hfuel, Outcome.ofOption]
    refine ⟨hrun, Future_get_exception _ _ e (by simp), ?_, ?_, ?_⟩
    · rw [setVal_calls, hwc_calls]
    · rw [setVal_queue, hwc_queue]
    · rw [setVal_callbacks, hwc_tmp]

/-- C12: the loop short-circuits on an error of the body.  In its first
iteration (entered from `executeAsyncLoop`, first two parts) and in a later
one (entered from the work item of the previous body future, last two parts,
for an output to which nothing else is attached): if the body raises `e`, or
returns a future that then completes with the error `e`, the future of the
loop completes with the error `e`; predicate and body have been called on that
accumulator and are not called again: no step is enqueued and no callback is
left on the body future. -/
theorem loop_body_error (fuel : Nat) (pname : Nat) (pred : T → Except E Bool) (lname : Nat)
    (loopFunc : T → Except E (FutureExpr T)) (x : T) (e : E)
    (hfuel : 0 < fuel) (hpred : pred x = .ok true) :
    (∀ w0 : World T E, loopFunc x = .error e →
      ∃ ret w1, executeAsyncLoop fuel w0 pname pred lname loopFunc x = (ret, .returned w1) ∧
        Future.get w1 ret = some (.error e) ∧
        w1.calls = w0.calls ++ [(pname, .value x), (lname, .value x)] ∧
        w1.queue = w0.queue) ∧
    (∀ w0 : World T E, loopFunc x = .ok .pending →
      ∃ ret tmp w1 w2 w3,
        executeAsyncLoop fuel w0 pname pred lname loopFunc x = (ret, .returned w1) ∧
        Future.get w1 ret = none ∧
        setException fuel w1 tmp e = some w2 ∧
        w2.queue = w0.queue ++ [.loopStep pname pred lname loopFunc tmp ret] ∧
        runWork fuel { w2 with queue := w0.queue }
          (.loopStep pname pred lname loopFunc tmp ret) = .returned w3 ∧
        Future.get w3 ret = some (.error e) ∧
        w3.calls = w0.calls ++ [(pname, .value x), (lname, .value x)] ∧
        w3.queue = w0.queue ∧ (w3.cells tmp).m_callbacks = []) ∧
    (∀ (w : World T E) (prev ret : CellId), (w.cells prev).m_val = .value x →
      w.cells ret = {} → ret < w.next → loopFunc x = .error e →
      ∃ w1, runWork fuel w (.loopStep pname pred lname loopFunc prev ret) = .returned w1 ∧
        Future.get w1 ret = some (.error e) ∧
        w1.calls = w.calls ++ [(pname, .value x), (lname, .value x)] ∧
        w1.queue = w.queue) ∧
    (∀ (w : World T E) (prev ret : CellId), (w.cells prev).m_val = .value x →
      w.cells ret = {} → ret < w.next → loopFunc x = .ok .pending →
      ∃ tmp w1 w2 w3,
        runWork fuel w (.loopStep pname pred lname loopFunc prev ret) = .returned w1 ∧
        Future.get w1 ret = none ∧
        setException fuel w1 tmp e = some w2 ∧
        w2.queue = w.queue ++ [.loopStep pname pred lname loopFunc tmp ret] ∧
        runWork fuel { w2 with queue := w.queue }
          (.loopStep pname pred lname loopFunc tmp ret) = .returned w3 ∧
        Future.get w3 ret = some (.error e) ∧
        w3.calls = w.calls ++ [(pname, .value x), (lname, .value x)] ∧
        w3.queue = w.queue ∧ (w3.cells tmp).m_callbacks = []) := by
  refine ⟨?_, ?_, ?_, ?_⟩
  · intro w0 hb
    obtain ⟨w1, h1, h2, h3, h4⟩ := (auxLoop_error_paths fuel (makeShared w0).2 pname pred lname
      loopFunc x w0.next e hfuel (makeShared_cells_new w0) (Nat.lt_succ_self _) hpred).1 hb
    exact ⟨w0.next, w1, by rw [← h1]; rfl, h2, h3, h4⟩
  · intro w0 hb
    obtain ⟨w1, w2, w3, h1, h2, h3, h4, h5, h6, h7, h8, h9⟩ :=
      (auxLoop_error_paths fuel (makeShared w0).2 pname pred lname
        loopFunc x w0.next e hfuel (makeShared_cells_new w0) (Nat.lt_succ_self _) hpred).2 hb
    exact ⟨w0.next, w0.next + 1, w1, w2, w3, by rw [← h1]; rfl, h2, h3, h4, h5, h6, h7, h8, h9⟩
  · intro w prev ret hprev hret hlt hb
    obtain ⟨w1, h1, h2, h3, h4⟩ := (auxLoop_error_paths fuel w pname pred lname
      loopFunc x ret e hfuel hret hlt hpred).1 hb
    exact ⟨w1, (runWork_loopStep_value fuel w pname pred lname loopFunc prev ret x hprev).trans
      h1, h2, h3, h4⟩
  · intro w prev ret hprev hret hlt hb
    obtain ⟨w1, w2, w3, h1, h2, h3, h4, h5, h6, h7, h8, h9⟩ :=
      (auxLoop_error_paths fuel w pname pred lname loopFunc x ret e hfuel hret hlt hpred).2 hb
    exact ⟨w.next, w1, w2, w3,
      (runWork_loopStep_value fuel w pname pred lname loopFunc prev ret x hprev).trans h1,
      h2, h3, h4, h5, h6, h7, h8, h9⟩

/-- C12 on concrete loops over `World.empty`: a body that raises `5` on the
seed, and a body whose future (cell `1`) is completed with the error `5`, both
make `get()` on the loop's future raise `5`, with one call of the predicate and
one of the body. -/
theorem loop_body_error_witness :
    (0 : Nat) < 1 ∧
    (fun _ : Int => (Except.ok true : Except Nat Bool)) 0 = .ok true ∧
    (∃ ret w1,
      executeAsyncLoop 1 (World.empty : World Int Nat) 1 (fun _ => .ok true) 2
        (fun _ => .error 5) 0 = (ret, .returned w1) ∧
      Future.get w1 ret = some (.error 5) ∧
      w1.calls = [(1, .value 0), (2, .value 0)] ∧ w1.queue = []) ∧
    (∃ ret tmp w1 w2 w3,
      executeAsyncLoop 1 (World.empty : World Int Nat) 1 (fun _ => .ok true) 2
        (fun _ => .ok .pending) 0 = (ret, .returned w1) ∧
      Future.get w1 ret = none ∧
      setException 1 w1 tmp 5 = some w2 ∧
      runWork 1 { w2 with queue := [] }
        (.loopStep 1 (fun _ => .ok true) 2 (fun _ => .ok .pending) tmp ret) = .returned w3 ∧
      Future.get w3 ret = some (.error 5) ∧
      w3.calls = [(1, .value 0), (2, .value 0)] ∧ w3.queue = []) := by
  refine ⟨by decide, rfl, ?_, ?_⟩
  · obtain ⟨ret, w1, h1, h2, h3, h4⟩ :=
      (loop_body_error 1 1 (fun _ : Int => (Except.ok true : Except Nat Bool)) 2
        (fun _ => .error 5) 0 5 (by decide) rfl).1 World.empty rfl
    exact ⟨ret, w1, h1, h2, h3, h4⟩
  · obtain ⟨ret, tmp, w1, w2, w3, h1, h2, h3, _, h5, h6, h7, h8, _⟩ :=
      (loop_body_error 1 1 (fun _ : Int => (Except.ok true : Except Nat Bool)) 2
        (fun _ => .ok .pending) 0 5 (by decide) rfl).2.1 World.empty rfl
    exact ⟨ret, tmp, w1, w2, w3, h1, h2, h3, h5, h6, h7, h8⟩

/-- C13 fails on the code: the predicate is called outside the `try` of
`auxLoop`.  When it raises `e` on the seed, the exception leaves
`executeAsyncLoop` (no future is returned, the cell stays pending).  When it
raises `e` on a later accumulator, the exception leaves the work item, hence
`workerFunction`, and the future of the loop stays pending: nothing completes
it, no step is enqueued. -/
theorem loop_predicate_raise_escapes (fuel : Nat) (pname : Nat) (pred : T → Except E Bool)
    (lname : Nat) (loopFunc : T → Except E (FutureExpr T)) (x : T) (e : E)
    (hpred : pred x = .error e) :
    (∀ w0 : World T E, ∃ w1,
      executeAsyncLoop fuel w0 pname pred lname loopFunc x = (w0.next, .threw e w1) ∧
      Future.get w1 w0.next = none ∧ w1.queue = w0.queue ∧
      w1.calls = w0.calls ++ [(pname, .value x)]) ∧
    (∀ (w : World T E) (prev ret : CellId) (rest : List (Work T E)) (closing : Bool)
      (steps : Nat),
      (w.cells prev).m_val = .value x → (w.cells ret).m_val = .notCompleted →
      w.queue = .loopStep pname pred lname loopFunc prev ret :: rest →
      ∃ w1, runWork fuel { w with queue := rest }
          (.loopStep pname pred lname loopFunc prev ret) = .threw e w1 ∧
        workerFunction fuel closing (steps + 1) w = .threw e w1 ∧
        Future.get w1 ret = none ∧ w1.queue = rest ∧
        w1.calls = w.calls ++ [(pname, .value x)]) := by
  constructor
  · intro w0
    refine ⟨(makeShared w0).2.logCall pname (.value x), ?_, ?_, rfl, rfl⟩
    · show (w0.next, auxLoop fuel (makeShared w0).2 pname pred lname loopFunc x w0.next) = _
      rw [auxLoop_pred_raise fuel _ pname pred lname loopFunc x w0.next e hpred]
    · apply Future_get_pending
      rw [logCall_cells, makeShared_cells_new]
  · intro w prev ret rest closing steps hprev hret hq
    have hrun : runWork fuel { w with queue := rest }
        (.loopStep pname pred lname loopFunc prev ret) =
        .threw e (({ w with queue := rest } : World T E).logCall pname (.value x)) :=
      (runWork_loopStep_value fuel { w with queue := rest } pname pred lname loopFunc prev ret
        x hprev).trans (auxLoop_pred_raise fuel _ pname pred lname loopFunc x ret e hpred)
    refine ⟨_, hrun, ?_, Future_get_pending _ _ hret, rfl, rfl⟩
    simp only [workerFunction, hq, hrun]

/-- C13 on a concrete loop: the predicate accepts `0` and raises `3` on `7`,
the body returns `completedFuture(v + 7)`.  The first step returns; the worker
that runs the second step sees the exception `3` leave `workerFunction`, and
the future of the loop is still pending. -/
theorem loop_predicate_raise_escapes_witness :
    (fun v : Int => if v < 7 then (Except.ok true : Except Nat Bool) else .error 3) 7
      = .error 3 ∧
    ∃ w1,
      executeAsyncLoop 1 (World.empty : World Int Nat) 1
        (fun v => if v < 7 then .ok true else .error 3) 2
        (fun v => .ok (.completed (v + 7))) 0 = (0, .returned w1) ∧
      ∃ w2, workerFunction 1 false (0 + 1) w1 = .threw 3 w2 ∧
        Future.get w2 0 = none ∧ w2.queue = [] := by
  have h := (loop_predicate_raise_escapes 1 1
      (fun v : Int => if v < 7 then (Except.ok true : Except Nat Bool) else .error 3) 2
      (fun v => .ok (.completed (v + 7))) 7 3 rfl).2
  refine ⟨rfl, _, rfl, ?_⟩
  refine Exists.imp (fun w2 hw => ⟨hw.2.1, hw.2.2.1, hw.2.2.2.1⟩) (h _ 1 0 [] false 0 ?_ ?_ ?_)
  · rfl
  · rfl
  · rfl

/-- C14 holds for a function that returns and fails on the code for a function
that raises: `launchAsync` calls the function outside any `try`.  When the
function returns `r`, the work item stores `r` in the returned future.  When it
raises `e`, the exception leaves the work item, hence `workerFunction`, and the
returned future stays pending. -/
theorem launchAsync_raise_escapes (fuel : Nat) (w : World T E) (name : Nat) :
    (∀ r : T, ∃ ret w1 w2,
      launchAsync w name (fun _ => .ok r) = (ret, w1) ∧
      w1.queue = w.queue ++ [.launch ret name (fun _ => .ok r)] ∧
      runWork (fuel + 1) { w1 with queue := w.queue } (.launch ret name (fun _ => .ok r))
        = .returned w2 ∧
      Future.get w2 ret = some (.ok r) ∧ w2.calls = w.calls ++ [(name, .unit)]) ∧
    (∀ e : E, ∃ ret w1 w2,
      launchAsync w name (fun _ => .error e) = (ret, w1) ∧
      w1.queue = w.queue ++ [.launch ret name (fun _ => .error e)] ∧
      runWork fuel { w1 with queue := w.queue } (.launch ret name (fun _ => .error e))
        = .threw e w2 ∧
      (∀ closing steps, workerFunction fuel closing (steps + 1)
        { w1 with queue := [.launch ret name (fun _ => .error e)] } = .threw e
          { w2 with queue := [] }) ∧
      Future.get w2 ret = none ∧ w2.calls = w.calls ++ [(name, .unit)]) := by
  constructor
  · intro r
    have hcb : (((makeShared w).2.logCall name .unit).cells w.next).m_callbacks = [] := by
      rw [logCall_cells, makeShared_cells_new]
    refine ⟨w.next, (makeShared w).2.enqueue (.launch w.next name (fun _ => .ok r)),
      ((makeShared w).2.logCall name .unit).setVal w.next (.value r), rfl, rfl, ?_,
      Future_get_value _ _ r (by simp), rfl⟩
    show runWork (fuel + 1) (makeShared w).2 (.launch w.next name (fun _ => .ok r)) = _
    simp only [runWork, set, setResult_no_callbacks (fuel + 1) _ w.next _ hcb (Nat.succ_pos _),
      Outcome.ofOption]
  · intro e
    refine ⟨w.next, _, _, rfl, rfl, rfl, ?_, ?_, rfl⟩
    · intro closing steps
      rfl
    · apply Future_get_pending
      show ((makeShared w).2.cells w.next).m_val = .notCompleted
      rw [makeShared_cells_new]

/-- One activation of `auxLoop`, however it ends, calls the predicate once and
the body at most once. -/
theorem auxLoop_calls (fuel : Nat) (w w1 : World T E) (pname : Nat)
    (pred : T → Except E Bool) (lname : Nat) (loopFunc : T → Except E (FutureExpr T))
    (x : T) (ret : CellId)
    (h : auxLoop fuel w pname pred lname loopFunc x ret = .returned w1 ∨
      ∃ e, auxLoop fuel w pname pred lname loopFunc x ret = .threw e w1) :
    w1.calls = w.calls ++ [(pname, .value x)] ∨
    w1.calls = w.calls ++ [(pname, .value x), (lname, .value x)] := by
  have hopt : ∀ (o : Option (World T E)) (w2 : World T E),
      (∀ w3, o = some w3 → w3.calls = w2.calls) →
      (Outcome.ofOption o = .returned w1 ∨ ∃ e, Outcome.ofOption o = .threw e w1) →
      w1.calls = w2.calls := by
    intro o w2 ho hh
    cases o with
    | none => rcases hh with hh | ⟨e, hh⟩ <;> simp [Outcome.ofOption] at hh
    | some w3 =>
      rcases hh with hh | ⟨e, hh⟩
      · simp only [Outcome.ofOption, Outcome.returned.injEq] at hh
        rw [← hh]
        exact ho w3 rfl
      · simp [Outcome.ofOption] at hh
  simp only [auxLoop] at h
  cases hp : pred x with
  | error e =>
    rw [hp] at h
    left
    rcases h with h | ⟨e1, h⟩
    · simp at h
    · simp only [Outcome.threw.injEq] at h
      rw [← h.2]
      rfl
  | ok b =>
    rw [hp] at h
    cases b with
    | false =>
      left
      have := hopt _ (w.logCall pname (.value x))
        (fun w3 h3 => (setResult_calls_eq fuel _ _ _ _ h3).1) h
      rw [this]
      rfl
    | true =>
      right
      simp only at h
      cases hb : loopFunc x with
      | error e =>
        rw [hb] at h
        have := hopt _ ((w.logCall pname (.value x)).logCall lname (.value x))
          (fun w3 h3 => (setResult_calls_eq fuel _ _ _ _ h3).1) h
        rw [this]
        simp
      | ok fe =>
        rw [hb] at h
        simp only at h
        cases hm : fe.make fuel ((w.logCall pname (.value x)).logCall lname (.value x)) with
        | none =>
          rw [hm] at h
          rcases h with h | ⟨e, h⟩ <;> simp at h
        | some p =>
          obtain ⟨tmp, w3⟩ := p
          rw [hm] at h
          simp only at h
          have h3 := make_calls_eq fuel _ w3 fe tmp hm
          have := hopt _ w3 (fun w4 h4 => (addCallback_calls_eq fuel _ _ _ _ h4).1) h
          rw [this, h3]
          simp

/-- C19: the loop does not recurse.
* The callback attached to a body future only enqueues one work item: no
  cell, no log changes, whatever the completion that invokes it.
* One activation of `auxLoop` calls the predicate once and the body at most
  once, and so does one work item of the loop, which is one activation.
* Hence `k` iterations are `k` work items run one after the other by the
  worker, and the nesting bound `1` on completion calls suffices for every
  `k`, also when the body returns completed futures: from an idle executor the
  loop with predicate `p` and body `completedFuture(b v)` ends with `b^[n] s`
  after `n` rounds, for the first `n` with `p (b^[n] s)` false. -/
theorem loop_does_not_recurse (pname : Nat) (pred : T → Except E Bool) (lname : Nat)
    (loopFunc : T → Except E (FutureExpr T)) :
    (∀ (sr : World T E → CellId → FutureValueType T E → Option (World T E)) (w : World T E)
      (tmp ret : CellId) (val : FutureValueType T E),
      invokeCallback sr w (.enqueue (.loopStep pname pred lname loopFunc tmp ret)) val =
        some (w.enqueue (.loopStep pname pred lname loopFunc tmp ret)) ∧
      (w.enqueue (.loopStep pname pred lname loopFunc tmp ret)).cells = w.cells ∧
      (w.enqueue (.loopStep pname pred lname loopFunc tmp ret)).calls = w.calls ∧
      (w.enqueue (.loopStep pname pred lname loopFunc tmp ret)).queue =
        w.queue ++ [.loopStep pname pred lname loopFunc tmp ret]) ∧
    (∀ (fuel : Nat) (w w1 : World T E) (x : T) (ret : CellId),
      (auxLoop fuel w pname pred lname loopFunc x ret = .returned w1 ∨
        ∃ e, auxLoop fuel w pname pred lname loopFunc x ret = .threw e w1) →
      w1.calls = w.calls ++ [(pname, .value x)] ∨
      w1.calls = w.calls ++ [(pname, .value x), (lname, .value x)]) ∧
    (∀ (fuel : Nat) (w w1 : World T E) (tmp ret : CellId),
      (runWork fuel w (.loopStep pname pred lname loopFunc tmp ret) = .returned w1 ∨
        ∃ e, runWork fuel w (.loopStep pname pred lname loopFunc tmp ret) = .threw e w1) →
      w1.calls = w.calls ∨
      ∃ x, w1.calls = w.calls ++ [(pname, .value x)] ∨
        w1.calls = w.calls ++ [(pname, .value x), (lname, .value x)]) ∧
    (∀ (w0 : World T E) (p : T → Bool) (b : T → T) (s : T) (n : Nat),
      w0.queue = [] → (∀ i, i < n → p (b^[i] s) = true) → p (b^[n] s) = false →
      ∃ ret w1 w2,
        executeAsyncLoop 1 w0 pname (fun v => .ok (p v)) lname
          (fun v => .ok (.completed (b v))) s = (ret, .returned w1) ∧
        loopRounds 1 (fun v => (.ok (.completed (b v)) : Except E (FutureExpr T)))
          (fun v => v) n s w1 = .returned w2 ∧
        Future.get w2 ret = some (.ok (b^[n] s)) ∧ w2.queue = []) := by
  refine ⟨fun sr w tmp ret val => ⟨rfl, rfl, rfl, rfl⟩,
    fun fuel w w1 x ret h => auxLoop_calls fuel w w1 pname pred lname loopFunc x ret h, ?_, ?_⟩
  · intro fuel w w1 tmp ret h
    cases hv : (w.cells tmp).m_val with
    | notCompleted =>
      rcases h with h | ⟨e, h⟩ <;>
        simp [runWork, PromiseFuturePair.get, hv, FutureValueType.isCompleted] at h
    | value a =>
      rw [runWork_loopStep_value fuel w pname pred lname loopFunc tmp ret a hv] at h
      exact Or.inr ⟨a, auxLoop_calls fuel w w1 pname pred lname loopFunc a ret h⟩
    | exception e =>
      left
      rcases h with h | ⟨e1, h⟩
      · simp only [runWork, PromiseFuturePair.get, hv, FutureValueType.isCompleted, if_true,
          setException] at h
        cases hs : setResult fuel w ret (.exception e) with
        | none => rw [hs] at h; simp [Outcome.ofOption] at h
        | some w3 =>
          rw [hs] at h
          simp only [Outcome.ofOption, Outcome.returned.injEq] at h
          rw [← h]
          exact (setResult_calls_eq fuel _ _ _ _ hs).1
      · simp only [runWork, PromiseFuturePair.get, hv, FutureValueType.isCompleted, if_true,
          setException] at h
        cases hs : setResult fuel w ret (.exception e) with
        | none => rw [hs] at h; simp [Outcome.ofOption] at h
        | some w3 => rw [hs] at h; simp [Outcome.ofOption] at h
  · intro w0 p b s n hq hcont hstop
    have hnext : nextAcc (fun v => (.ok (.completed (b v)) : Except E (FutureExpr T)))
        (fun v => v) = b := by
      funext v
      rfl
    obtain ⟨w1, w2, h1, h2, h3, h4, _⟩ := loop_runs 1 pname (fun v => .ok (p v)) lname
      (fun v => (.ok (.completed (b v)) : Except E (FutureExpr T))) (fun v => v)
      w0.next (Nat.succ_pos 0) n s (makeShared w0).2 (makeShared_cells_new w0)
      (Nat.lt_succ_self _) hq
      (by intro i hi; rw [hnext]; exact ⟨congrArg Except.ok (hcont i hi), _, rfl⟩)
      (by rw [hnext]; exact congrArg Except.ok hstop)
    rw [hnext] at h3
    exact ⟨w0.next, w1, w2, by rw [← h1]; rfl, h2, Future_get_value _ _ _ (by rw [h3]), h4⟩

/-- C19 on the stack-safety scenario: predicate `v < 1000000`, body
`completedFuture(v + 1)`, seed `0`.  The loop ends with `1000000` after
`1000000` rounds, each one work item, with the nesting bound `1`. -/
theorem loop_does_not_recurse_witness :
    (World.empty : World Int Nat).queue = [] ∧
    ∃ ret w1 w2,
      executeAsyncLoop 1 (World.empty : World Int Nat) 1
        (fun v => .ok (decide (v < 1000000))) 2 (fun v => .ok (.completed (v + 1))) 0
        = (ret, .returned w1) ∧
      loopRounds 1 (fun v => (.ok (.completed (v + 1)) : Except Nat (FutureExpr Int)))
        (fun v => v) 1000000 0 w1 = .returned w2 ∧
      Future.get w2 ret = some (.ok 1000000) ∧ w2.queue = [] := by
  have hit : ∀ i : Nat, (fun v : Int => v + 1)^[i] 0 = (i : Int) := by
    intro i
    induction i with
    | zero => rfl
    | succ k ih =>
      rw [Function.iterate_succ_apply', ih]
      push_cast
      rfl
  obtain ⟨ret, w1, w2, h1, h2, h3, h4⟩ :=
    (loop_does_not_recurse (T := Int) (E := Nat) 1 (fun v => .ok (decide (v < 1000000))) 2
      (fun v => .ok (.completed (v + 1)))).2.2.2 World.empty (fun v => decide (v < 1000000))
      (fun v => v + 1) 0 1000000 rfl
      (by
        intro i hi
        rw [hit]
        have : (i : Int) < 1000000 := by exact_mod_cast hi
        simp [this])
      (by rw [hit]; simp)
  rw [hit] at h3
  exact ⟨rfl, ret, w1, w2, h1, h2, h3, h4⟩

end Loop

/-! ## The worker of `ThreadPool` -/

section Worker

variable {T E : Type}

/-- A worker that finds work items of `launchAsync` at the front of the queue,
for functions that return, runs them in order, whatever `m_closing` is: each
function is called, each future completed, and the worker goes on with the
rest of the queue. -/
theorem workerFunction_launch_front (fuel : Nat) (closing : Bool) (k : Nat) (hfuel : 0 < fuel)
    (pre : List (CellId × Nat × T)) :
    ∀ (w : World T E) (rest : List (Work T E)),
      w.queue = pre.map launchOk ++ rest →
      (∀ p, p ∈ pre → (w.cells p.1).m_callbacks = []) →
      ∃ w1, workerFunction fuel closing (pre.length + k) w = workerFunction fuel closing k w1 ∧
        w1.queue = rest ∧
        w1.calls = w.calls ++ pre.map (fun p => (p.2.1, CallArg.unit)) ∧
        (∀ c, (w1.cells c).m_callbacks = (w.cells c).m_callbacks) ∧
        (∀ c, (w.cells c).isReady = true → (w1.cells c).isReady = true) ∧
        (∀ p, p ∈ pre → (w1.cells p.1).isReady = true) := by
  induction pre with
  | nil =>
    intro w rest hq _
    refine ⟨w, ?_, by simpa using hq, by simp, fun _ => rfl, fun _ h => h, ?_⟩
    · simp
    · intro p hp
      simp at hp
  | cons p ps ih =>
    intro w rest hq hcb
    have hq2 : w.queue = launchOk p :: (ps.map launchOk ++ rest) := by simpa using hq
    have hcbp : ((({ w with queue := ps.map launchOk ++ rest } : World T E).logCall p.2.1
        .unit).cells p.1).m_callbacks = [] := hcb p (List.mem_cons_self _ _)
    have hrun : runWork fuel { w with queue := ps.map launchOk ++ rest } (launchOk p) =
        .returned ((({ w with queue := ps.map launchOk ++ rest } : World T E).logCall p.2.1
          .unit).setVal p.1 (.value p.2.2)) := by
      simp only [launchOk, runWork, set, setResult_no_callbacks fuel _ p.1 _ hcbp hfuel,
        Outcome.ofOption]
    obtain ⟨w1, h1, h2, h3, h4, h5, h6⟩ := ih
      ((({ w with queue := ps.map launchOk ++ rest } : World T E).logCall p.2.1
          .unit).setVal p.1 (.value p.2.2)) rest rfl
      (by
        intro q hqm
        rw [setVal_callbacks]
        exact hcb q (List.mem_cons_of_mem _ hqm))
    have hready : ∀ c, (w.cells c).isReady = true →
        ((((({ w with queue := ps.map launchOk ++ rest } : World T E).logCall p.2.1
          .unit).setVal p.1 (.value p.2.2))).cells c).isReady = true := by
      intro c hc
      by_cases hcp : c = p.1
      · subst hcp
        rw [setVal_cells_same]
        rfl
      · rw [setVal_cells_other _ _ _ _ hcp]
        exact hc
    refine ⟨w1, ?_, h2, ?_, ?_, ?_, ?_⟩
    · have hlen : (p :: ps).length + k = (ps.length + k) + 1 := by
        simp only [List.length_cons]
        omega
      rw [hlen]
      simp only [workerFunction, hq2, hrun]
      exact h1
    · rw [h3]
      simp
    · intro c
      rw [h4 c, setVal_callbacks]
      rfl
    · intro c hc
      exact h5 c (hready c hc)
    · intro q hqm
      rcases List.mem_cons.mp hqm with hq1 | hq1
      · subst hq1
        apply h5
        rw [setVal_cells_same]
        rfl
      · exact h6 q hq1

/-- C15, as stated, fails: `workerFunction` has no exception containment.  On
the queue of `twoLaunches` (a function that raises `5`, then a function that
returns `9`) the exception `5` leaves `workerFunction`; the second item is
still in the queue, its function has not been called and its future is pending. -/
theorem workerFunction_exception_not_contained :
    ∃ w1, workerFunction 1 false 5 twoLaunches = .threw 5 w1 ∧
      w1.queue = [.launch 1 2 (fun _ => .ok 9)] ∧
      w1.calls = [(1, .unit)] ∧ Future.get w1 1 = none :=
  ⟨_, rfl, rfl, rfl, rfl⟩

/-- C15, amended: an exception raised by a work item is not contained by the
worker loop.  For a queue of `launchAsync` items whose functions return
(`pre`), followed by an item whose function raises `e`, followed by `post`: the
worker runs the items of `pre` in order, then the exception `e` leaves
`workerFunction`; the items of `post` are left in the queue, not dequeued and
not run by this worker. -/
theorem workerFunction_exception_escapes (fuel steps : Nat) (closing : Bool) (w : World T E)
    (pre : List (CellId × Nat × T)) (bad : CellId) (name : Nat) (e : E)
    (post : List (Work T E))
    (hfuel : 0 < fuel) (hsteps : pre.length < steps)
    (hq : w.queue = pre.map launchOk ++ .launch bad name (fun _ => .error e) :: post)
    (hcb : ∀ p, p ∈ pre → (w.cells p.1).m_callbacks = []) :
    ∃ w1, workerFunction fuel closing steps w = .threw e w1 ∧
      w1.queue = post ∧
      w1.calls = w.calls ++ pre.map (fun p => (p.2.1, CallArg.unit)) ++ [(name, .unit)] ∧
      (∀ p, p ∈ pre → (w1.cells p.1).isReady = true) ∧
      (w1.cells bad).m_callbacks = (w.cells bad).m_callbacks := by
  obtain ⟨k, rfl⟩ : ∃ k, steps = pre.length + (k + 1) := ⟨steps - pre.length - 1, by omega⟩
  obtain ⟨w1, h1, h2, h3, h4, _, h6⟩ := workerFunction_launch_front fuel closing (k + 1) hfuel
    pre w _ hq hcb
  refine ⟨({ w1 with queue := post } : World T E).logCall name .unit, ?_, rfl, ?_, h6, h4 bad⟩
  · rw [h1]
    simp only [workerFunction, h2, runWork]
  · show w1.calls ++ _ = _
    rw [h3]

/-- The amended C15 on `twoLaunches` behind one more item that returns. -/
theorem workerFunction_exception_escapes_witness :
    (0 : Nat) < 1 ∧ ([] : List (CellId × Nat × Int)).length < 5 ∧
    twoLaunches.queue = ([] : List (CellId × Nat × Int)).map launchOk ++
      .launch 0 1 (fun _ => .error 5) :: [.launch 1 2 (fun _ => .ok 9)] ∧
    ∃ w1, workerFunction 1 true 5 twoLaunches = .threw 5 w1 ∧
      w1.queue = [.launch 1 2 (fun _ => .ok 9)] ∧
      w1.calls = twoLaunches.calls ++ [(1, .unit)] := by
  obtain ⟨w1, h1, h2, h3, _⟩ := workerFunction_exception_escapes 1 5 true twoLaunches
    [] 0 1 5 [.launch 1 2 (fun _ => .ok 9)] (by decide) (by decide) rfl
    (by intro p hp; simp at hp)
  exact ⟨by decide, by decide, rfl, w1, h1, h2, h3⟩

/-- C16, as stated, fails: a worker that finds `m_closing` set and the queue
of `oneLaunch` not empty dequeues the item and runs it (the function is
called, the future holds `9`), and only then exits. -/
theorem workerFunction_runs_queued_item_when_closing :
    ∃ w1, workerFunction 1 true 2 oneLaunch = .returned w1 ∧
      w1.queue = [] ∧ w1.calls = [(1, .unit)] ∧ Future.get w1 0 = some (.ok 9) :=
  ⟨_, rfl, rfl, rfl, rfl⟩

/-- A worker that has found `m_closing` set returns only with the queue empty. -/
theorem workerFunction_returns_empty (fuel : Nat) (steps : Nat) :
    ∀ (w w1 : World T E), workerFunction fuel true steps w = .returned w1 → w1.queue = [] := by
  induction steps with
  | zero =>
    intro w w1 h
    simp [workerFunction] at h
  | succ n ih =>
    intro w w1 h
    cases hq : w.queue with
    | nil =>
      simp only [workerFunction, hq, if_true, Outcome.returned.injEq] at h
      rw [← h]
      exact hq
    | cons func rest =>
      simp only [workerFunction, hq] at h
      cases hr : runWork fuel { w with queue := rest } func with
      | returned w2 =>
        rw [hr] at h
        exact ih w2 w1 h
      | threw e w2 =>
        rw [hr] at h
        cases h
      | stuck =>
        rw [hr] at h
        cases h

/-- C16, amended: work items that are still queued when `m_closing` is set are
not discarded, in any state.
* The flag is not read while the queue holds an item: the worker dequeues the
  item at the front and runs it with the rest as the queue.  When the item
  returns, the worker goes on from the state it left; when it raises `e`, the
  exception `e` leaves the worker in the state the item left (the later items
  are then still queued); when it does not return, neither does the worker.
* The worker exits only with the queue empty.
* A queue of `launchAsync` items whose functions return is run to its end: the
  worker dequeues and runs every one of them, in order, and exits. -/
theorem workerFunction_drains_when_closing (fuel : Nat) :
    (∀ (steps : Nat) (w : World T E) (item : Work T E) (rest : List (Work T E)),
      w.queue = item :: rest →
      (∀ w1, runWork fuel { w with queue := rest } item = .returned w1 →
        workerFunction fuel true (steps + 1) w = workerFunction fuel true steps w1) ∧
      (∀ e w1, runWork fuel { w with queue := rest } item = .threw e w1 →
        workerFunction fuel true (steps + 1) w = .threw e w1) ∧
      (runWork fuel { w with queue := rest } item = .stuck →
        workerFunction fuel true (steps + 1) w = .stuck)) ∧
    (∀ (steps : Nat) (w w1 : World T E),
      workerFunction fuel true steps w = .returned w1 → w1.queue = []) ∧
    (∀ (steps : Nat) (w : World T E) (items : List (CellId × Nat × T)),
      0 < fuel → items.length < steps → w.queue = items.map launchOk →
      (∀ p, p ∈ items → (w.cells p.1).m_callbacks = []) →
      ∃ w1, workerFunction fuel true steps w = .returned w1 ∧
        w1.queue = [] ∧
        w1.calls = w.calls ++ items.map (fun p => (p.2.1, CallArg.unit)) ∧
        (∀ p, p ∈ items → (w1.cells p.1).isReady = true)) := by
  refine ⟨?_, workerFunction_returns_empty fuel, ?_⟩
  · intro steps w item rest hq
    refine ⟨?_, ?_, ?_⟩
    · intro w1 hr
      simp only [workerFunction, hq, hr]
    · intro e w1 hr
      simp only [workerFunction, hq, hr]
    · intro hr
      simp only [workerFunction, hq, hr]
  · intro steps w items hfuel hsteps hq hcb
    obtain ⟨k, rfl⟩ : ∃ k, steps = items.length + (k + 1) :=
      ⟨steps - items.length - 1, by omega⟩
    obtain ⟨w1, h1, h2, h3, _, _, h6⟩ := workerFunction_launch_front fuel true (k + 1) hfuel
      items w [] (by simpa using hq) hcb
    refine ⟨w1, ?_, h2, h3, h6⟩
    rw [h1]
    simp only [workerFunction, h2, if_true]

/-- The amended C16 on concrete queues, the flag being set.  On `oneLaunch` the
worker runs the queued item and exits with the queue empty.  On `twoLaunches`,
whose first item raises `5`, the worker dequeues and runs that item, the
exception leaves the worker, and the second item is still queued. -/
theorem workerFunction_drains_when_closing_witness :
    ((0 : Nat) < 1 ∧ [((0 : CellId), (1 : Nat), (9 : Int))].length < 2 ∧
      oneLaunch.queue = [((0 : CellId), (1 : Nat), (9 : Int))].map launchOk ∧
      ∃ w1, workerFunction 1 true 2 oneLaunch = .returned w1 ∧
        w1.queue = [] ∧ w1.calls = oneLaunch.calls ++ [(1, .unit)]) ∧
    (twoLaunches.queue = [.launch 0 1 (fun _ => .error 5), .launch 1 2 (fun _ => .ok 9)] ∧
      ∃ w1 : World Int Nat,
        runWork 1 { twoLaunches with queue := [.launch 1 2 (fun _ => .ok 9)] }
          (.launch 0 1 (fun _ => .error 5)) = .threw 5 w1 ∧
        workerFunction 1 true 5 twoLaunches = .threw 5 w1 ∧
        w1.queue = [.launch 1 2 (fun _ => .ok 9)] ∧ w1.calls = [(1, .unit)]) := by
  constructor
  · obtain ⟨w1, h1, h2, h3, _⟩ :=
      (workerFunction_drains_when_closing (T := Int) (E := Nat) 1).2.2 2 oneLaunch
        [((0 : CellId), (1 : Nat), (9 : Int))] (by decide) (by decide) rfl
        (by
          intro p hp
          simp only [List.mem_singleton] at hp
          subst hp
          rfl)
    exact ⟨by decide, by decide, rfl, w1, h1, h2, h3⟩
  · exact ⟨rfl, _, rfl,
      ((workerFunction_drains_when_closing (T := Int) (E := Nat) 1).1 4 twoLaunches
        (.launch 0 1 (fun _ => .error 5)) [.launch 1 2 (fun _ => .ok 9)] rfl).2.1 5 _ rfl,
      rfl, rfl⟩

end Worker

/-! ## The timer scheduler -/

section Timers

variable {T E : Type}

/-- A second `emplace` with the same key inserts nothing. -/
theorem mapEmplace_twice {A : Type} (key : Nat) (a b : A) :
    ∀ m : List (Nat × A), mapEmplace (mapEmplace m key a) key b = mapEmplace m key a := by
  intro m
  induction m with
  | nil => simp [mapEmplace]
  | cons p rest ih =>
    obtain ⟨k1, a1⟩ := p
    by_cases h1 : key < k1
    · simp [mapEmplace, h1]
    · by_cases h2 : key = k1
      · subst h2
        simp [mapEmplace]
      · simp [mapEmplace, h1, h2, ih]

/-- C17 fails on the code: `m_timers` is a `std::map`, and `emplace` inserts
nothing when the deadline is present.  A second `setTimer` for the same instant
leaves the timers as they were, so its action is never fired.  With
`setTimer(when)` called twice for the same instant on a fresh `AlarmClock`, the
map holds one entry, for the first future; after the thread has fired every
timer and returned, the first future is completed and the second one is still
pending, with no timer left that could complete it. -/
theorem setTimer_same_deadline_dropped (fuel steps : Nat)
    (w : World VoidFutureCompletedTag E) (closing : Bool) (when : Nat) :
    (∀ (ac : AlarmClock T) (a b : TimerAction T),
      (ac.setTimer when a).setTimer when b = ac.setTimer when a) ∧
    (∃ f1 ac1 w1 f2 ac2 w2 ac3 w3,
      AlarmClock.setTimerVoid ⟨[], closing, []⟩ w when = (f1, ac1, w1) ∧
      AlarmClock.setTimerVoid ac1 w1 when = (f2, ac2, w2) ∧ f1 ≠ f2 ∧
      ac2.m_timers = [(when, .set f1 ())] ∧
      AlarmClock.threadFunc (fuel + 1) (steps + 2) { ac2 with m_closing := true } w2
        = some (ac3, w3) ∧
      ac3.m_timers = [] ∧
      Future.get w3 f1 = some (.ok ()) ∧ Future.get w3 f2 = none) := by
  constructor
  · intro ac a b
    simp only [AlarmClock.setTimer, mapEmplace_twice]
  · have hne : w.next ≠ w.next + 1 := Nat.ne_of_lt (Nat.lt_succ_self _)
    have hcb : (((makeShared (makeShared w).2).2).cells w.next).m_callbacks = [] := by
      rw [makeShared_cells_old _ _ (by rw [makeShared_next]; exact hne), makeShared_cells_new]
    have hset : set (fuel + 1) (makeShared (makeShared w).2).2 w.next () =
        some ((makeShared (makeShared w).2).2.setVal w.next (.value ())) :=
      setResult_no_callbacks (fuel + 1) _ w.next _ hcb (Nat.succ_pos _)
    refine ⟨w.next, _, _, w.next + 1, _, _,
      ⟨[], true, []⟩, (makeShared (makeShared w).2).2.setVal w.next (.value ()),
      rfl, rfl, hne, ?_, ?_, rfl, ?_, ?_⟩
    · simp [AlarmClock.setTimer, mapEmplace]
    · have hm : (({ ((({ m_timers := [], m_closing := closing, fired := [] } :
          AlarmClock VoidFutureCompletedTag).setTimer when (.set w.next ())).setTimer when
            (.set (w.next + 1) ())) with m_closing := true } :
          AlarmClock VoidFutureCompletedTag)) =
          ⟨[(when, .set w.next ())], true, []⟩ := by
        simp [AlarmClock.setTimer, mapEmplace]
      show AlarmClock.threadFunc (fuel + 1) (steps + 2) _ (makeShared (makeShared w).2).2 = _
      rw [hm]
      simp only [AlarmClock.threadFunc, hset, if_true]
    · exact Future_get_value _ _ () (by simp)
    · apply Future_get_pending
      rw [setVal_cells_other _ _ _ _ hne.symm]
      have := makeShared_cells_new (makeShared w).2
      rw [makeShared_next] at this
      rw [this]

end Timers

/-! ## The waiter set -/

section Waiter

variable {T E : Type}

theorem freeIndex_le (l : List (Option CellId × Bool)) : freeIndex l ≤ l.length := by
  induction l with
  | nil => simp [freeIndex]
  | cons p rest ih =>
    obtain ⟨x, b⟩ := p
    cases b <;> simp [freeIndex]
    omega

theorem freeIndex_inactive (l : List (Option CellId × Bool)) (h : freeIndex l < l.length) :
    ∃ x, l[freeIndex l]? = some (x, false) := by
  induction l with
  | nil => simp at h
  | cons p rest ih =>
    obtain ⟨x, b⟩ := p
    cases b with
    | false => exact ⟨x, by simp [freeIndex]⟩
    | true =>
      have h2 : freeIndex rest < rest.length := by simpa [freeIndex] using h
      obtain ⟨y, hy⟩ := ih h2
      exact ⟨y, by simpa [freeIndex] using hy⟩

theorem activeCount_append (l : List (Option CellId × Bool)) (x : Option CellId) (b : Bool) :
    activeCount (l ++ [(x, b)]) = activeCount l + (if b then 1 else 0) := by
  induction l with
  | nil => simp [activeCount]
  | cons p rest ih =>
    obtain ⟨y, c⟩ := p
    rw [List.cons_append]
    simp only [activeCount]
    rw [ih]
    omega

theorem activeCount_set (l : List (Option CellId × Bool)) :
    ∀ (i : Nat) (x y : Option CellId) (b c : Bool), l[i]? = some (y, c) →
      activeCount (l.set i (x, b)) + (if c then 1 else 0) =
        activeCount l + (if b then 1 else 0) := by
  induction l with
  | nil => intro i x y b c h; simp at h
  | cons p rest ih =>
    intro i x y b c h
    obtain ⟨z, d⟩ := p
    cases i with
    | zero =>
      simp only [List.getElem?_cons_zero, Option.some.injEq, Prod.mk.injEq] at h
      obtain ⟨_, rfl⟩ := h
      simp only [List.set_cons_zero, activeCount]
      omega
    | succ j =>
      simp only [List.getElem?_cons_succ] at h
      have := ih j x y b c h
      simp only [List.set_cons_succ, activeCount]
      omega

theorem activeCount_pos (l : List (Option CellId × Bool)) :
    ∀ (i : Nat) (y : Option CellId), l[i]? = some (y, true) → 0 < activeCount l := by
  induction l with
  | nil => intro i y h; simp at h
  | cons p rest ih =>
    intro i y h
    obtain ⟨z, d⟩ := p
    cases i with
    | zero =>
      simp only [List.getElem?_cons_zero, Option.some.injEq, Prod.mk.injEq] at h
      obtain ⟨_, rfl⟩ := h
      simp [activeCount]
    | succ j =>
      simp only [List.getElem?_cons_succ] at h
      have := ih j y h
      simp only [activeCount]
      omega

/-- Claiming a slot keeps the counter and the slots in agreement. -/
theorem claim_inv (fw : FutureWaiter) (f : CellId) (h : WaiterInv fw) :
    WaiterInv (fw.claim f).2 := by
  by_cases hge : freeIndex fw.m_waitList ≥ fw.m_waitList.length
  · refine ⟨?_, ?_⟩
    · simp only [FutureWaiter.claim, hge, if_true, activeCount_append, h.count]
    · intro x b hm hb
      simp only [FutureWaiter.claim, hge, if_true, List.mem_append, List.mem_singleton,
        Prod.mk.injEq] at hm
      rcases hm with hm | ⟨_, hm⟩
      · exact h.null x b hm hb
      · rw [hm] at hb
        exact absurd hb (by decide)
  · obtain ⟨y, hy⟩ := freeIndex_inactive fw.m_waitList (Nat.lt_of_not_ge hge)
    refine ⟨?_, ?_⟩
    · have := activeCount_set fw.m_waitList (freeIndex fw.m_waitList) (some f) y true false hy
      simp only [FutureWaiter.claim, hge, if_false, h.count]
      simpa using this.symm
    · intro x b hm hb
      simp only [FutureWaiter.claim, hge, if_false] at hm
      rcases List.mem_or_eq_of_mem_set hm with hm | hm
      · exact h.null x b hm hb
      · simp only [Prod.mk.injEq] at hm
        rw [hm.2] at hb
        exact absurd hb (by decide)

/-- The callback of a slot keeps the counter and the slots in agreement. -/
theorem callback_inv (fw : FutureWaiter) (index : Nat) (h : WaiterInv fw) :
    WaiterInv (fw.callback index) := by
  cases hs : fw.m_waitList[index]? with
  | none => simpa [FutureWaiter.callback, hs] using h
  | some p =>
    obtain ⟨y, b⟩ := p
    cases b with
    | false => simpa [FutureWaiter.callback, hs] using h
    | true =>
      have hpos := activeCount_pos fw.m_waitList index y hs
      have hset := activeCount_set fw.m_waitList index none y false true hs
      refine ⟨?_, ?_⟩
      · have hset2 : activeCount (fw.m_waitList.set index (none, false)) + 1 =
            activeCount fw.m_waitList := by simpa using hset
        have hne : activeCount fw.m_waitList ≠ 0 := by omega
        simp only [FutureWaiter.callback, List.get?_eq_getElem?, hs, decrement, h.count, hne,
          if_false]
        omega
      · intro x b hm hb
        simp only [FutureWaiter.callback, List.get?_eq_getElem?, hs] at hm
        rcases List.mem_or_eq_of_mem_set hm with hm | hm
        · exact h.null x b hm hb
        · simp only [Prod.mk.injEq] at hm
          exact hm.1

theorem deliver_inv (invoked : List (Nat × FutureCompletionState × Option E)) :
    ∀ fw : FutureWaiter, WaiterInv fw → WaiterInv (fw.deliver invoked) := by
  induction invoked with
  | nil => intro fw h; exact h
  | cons entry rest ih =>
    intro fw h
    exact ih (fw.callback entry.1) (callback_inv fw entry.1 h)

theorem mem_commonTags (l : List (Callback T E)) (i : Nat) :
    i ∈ commonTags l ↔ Callback.common i ∈ l := by
  induction l with
  | nil => simp [commonTags]
  | cons cb rest ih =>
    cases cb with
    | user tag => simp [commonTags, ih]
    | common tag =>
      simp only [commonTags, List.mem_cons, ih, Callback.common.injEq]
    | enqueue work => simp [commonTags, ih]
    | forward d => simp [commonTags, ih]

/-- A loop over callbacks none of which forwards, on a slot whose state the
wrapper of a common callback passes on as `args`: no cell changes, and the
common callbacks are recorded in order. -/
theorem runCallbacks_plain
    (sr : World T E → CellId → FutureValueType T E → Option (World T E)) (c : CellId)
    (args : FutureCompletionState × Option E)
    (l : List (Callback T E)) (hl : ∀ d, Callback.forward d ∉ l) :
    ∀ w : World T E, commonArgs (w.cells c).m_val = some args →
      ∃ w1, runCallbacks sr w c l = some w1 ∧ w1.cells = w.cells ∧
        w1.commonTrace = w.commonTrace ++ (commonTags l).map (fun i => (i, args)) := by
  induction l with
  | nil => intro w _; exact ⟨w, rfl, rfl, by simp [commonTags]⟩
  | cons cb rest ih =>
    intro w ha
    have hrest : ∀ d, Callback.forward d ∉ rest :=
      fun d hd => hl d (List.mem_cons_of_mem _ hd)
    cases cb with
    | user tag =>
      obtain ⟨w1, h1, h2, h3⟩ := ih hrest
        { w with trace := w.trace ++ [(tag, (w.cells c).m_val)] } ha
      exact ⟨w1, by simpa [runCallbacks, invokeCallback] using h1, h2,
        by simpa [commonTags] using h3⟩
    | common tag =>
      obtain ⟨w1, h1, h2, h3⟩ := ih hrest
        { w with commonTrace := w.commonTrace ++ [(tag, args)] } ha
      exact ⟨w1, by simpa [runCallbacks, invokeCallback, ha] using h1, h2,
        by simpa [commonTags] using h3⟩
    | enqueue work =>
      obtain ⟨w1, h1, h2, h3⟩ := ih hrest (w.enqueue work) ha
      exact ⟨w1, by simpa [runCallbacks, invokeCallback] using h1, h2,
        by simpa [commonTags] using h3⟩
    | forward d => exact absurd (List.mem_cons_self _ _) (hl d)

/-- Completion, with a completed state, of a cell none of whose callbacks
forwards: the cell holds the new state and no callback, no other cell changes,
and the common callbacks of the cell are the ones invoked. -/
theorem setResult_plain (fuel : Nat) (w : World T E) (c : CellId) (v : FutureValueType T E)
    (args : FutureCompletionState × Option E) (ha : commonArgs v = some args)
    (hfuel : 0 < fuel) (hl : ∀ d, Callback.forward d ∉ (w.cells c).m_callbacks) :
    ∃ w1, setResult fuel w c v = some w1 ∧ w1.cells c = ⟨v, []⟩ ∧
      (∀ x, x ≠ c → w1.cells x = w.cells x) ∧
      w1.commonTrace.drop w.commonTrace.length =
        (commonTags (w.cells c).m_callbacks).map (fun i => (i, args)) := by
  obtain ⟨n, rfl⟩ : ∃ n, fuel = n + 1 := ⟨fuel - 1, by omega⟩
  by_cases hemp : (w.cells c).m_callbacks = []
  · refine ⟨w.setVal c v, setResult_no_callbacks _ _ _ _ hemp (Nat.succ_pos n), ?_,
      fun x hx => setVal_cells_other _ _ _ _ hx, ?_⟩
    · rw [setVal_cells_same, hemp]
    · show w.commonTrace.drop w.commonTrace.length = _
      simp [hemp, commonTags]
  · obtain ⟨w1, h1, h2, h3⟩ := runCallbacks_plain (setResult n) c args
      (w.cells c).m_callbacks hl (w.setVal c v) (by rw [setVal_cells_same]; exact ha)
    have hne : ((w.setVal c v).cells c).m_callbacks.isEmpty = false := by
      rw [setVal_callbacks]
      cases hcb : (w.cells c).m_callbacks with
      | nil => exact absurd hcb hemp
      | cons _ _ => rfl
    have h1b : runCallbacks (setResult n) (w.setVal c v) c
        ((w.setVal c v).cells c).m_callbacks = some w1 := by
      rw [setVal_callbacks]
      exact h1
    refine ⟨w1.clearCallbacks c, ?_, ?_, ?_, ?_⟩
    · show (if ((w.setVal c v).cells c).m_callbacks.isEmpty then some (w.setVal c v)
        else
          match runCallbacks (setResult n) (w.setVal c v) c
            ((w.setVal c v).cells c).m_callbacks with
          | none => none
          | some w2 => some (w2.clearCallbacks c)) = _
      rw [hne, h1b]
      rfl
    · rw [clearCallbacks_cells_same, h2, setVal_cells_same]
    · intro x hx
      rw [clearCallbacks_cells_other _ _ _ hx, h2, setVal_cells_other _ _ _ _ hx]
    · show w1.commonTrace.drop w.commonTrace.length = _
      rw [h3]
      show (w.commonTrace ++ _).drop w.commonTrace.length = _
      rw [List.drop_left]

/-- The slots after a slot was claimed. -/
theorem claim_getElem? (fw : FutureWaiter) (f : CellId) (j : Nat) :
    (fw.claim f).2.m_waitList[j]? =
      if j = freeIndex fw.m_waitList then some (some f, true) else fw.m_waitList[j]? := by
  have hle := freeIndex_le fw.m_waitList
  by_cases hge : freeIndex fw.m_waitList ≥ fw.m_waitList.length
  · have heq : freeIndex fw.m_waitList = fw.m_waitList.length := Nat.le_antisymm hle hge
    have hl : (fw.claim f).2.m_waitList = fw.m_waitList ++ [(some f, true)] := by
      simp only [FutureWaiter.claim, if_pos hge]
    rw [hl, heq]
    by_cases hj : j < fw.m_waitList.length
    · rw [List.getElem?_append_left hj, if_neg (Nat.ne_of_lt hj)]
    · by_cases hj2 : j = fw.m_waitList.length
      · subst hj2
        simp
      · rw [if_neg hj2, List.getElem?_eq_none (by simp; omega),
          List.getElem?_eq_none (by omega)]
  · have hl : (fw.claim f).2.m_waitList =
        fw.m_waitList.set (freeIndex fw.m_waitList) (some f, true) := by
      simp only [FutureWaiter.claim, if_neg hge]
    rw [hl, List.getElem?_set]
    by_cases hj : freeIndex fw.m_waitList = j
    · subst hj
      simp [Nat.lt_of_not_ge hge]
    · rw [if_neg hj, if_neg (fun h => hj h.symm)]

/-- The slot that is claimed was not active. -/
theorem freeIndex_not_active (l : List (Option CellId × Bool)) (y : Option CellId) :
    l[freeIndex l]? ≠ some (y, true) := by
  intro h
  by_cases hlt : freeIndex l < l.length
  · obtain ⟨x, hx⟩ := freeIndex_inactive l hlt
    rw [hx] at h
    simp at h
  · rw [List.getElem?_eq_none (by omega)] at h
    simp at h

/-- The callback of a slot that is not active changes nothing. -/
theorem callback_not_active (fw : FutureWaiter) (i : Nat)
    (h : ∀ y, fw.m_waitList[i]? ≠ some (y, true)) : fw.callback i = fw := by
  cases hs : fw.m_waitList[i]? with
  | none => simp [FutureWaiter.callback, hs]
  | some p =>
    obtain ⟨y, b⟩ := p
    cases b with
    | false => simp [FutureWaiter.callback, hs]
    | true => exact absurd hs (h y)

/-- The slots after the callback of an active slot `i`. -/
theorem callback_active (fw : FutureWaiter) (i j : Nat) (y : Option CellId)
    (hs : fw.m_waitList[i]? = some (y, true)) :
    (fw.callback i).m_waitList[j]? =
      if j = i then some (none, false) else fw.m_waitList[j]? := by
  have hlt : i < fw.m_waitList.length := by
    by_contra hn
    rw [List.getElem?_eq_none (by omega)] at hs
    simp at hs
  simp only [FutureWaiter.callback, List.get?_eq_getElem?, hs, List.getElem?_set, hlt,
    if_true]
  by_cases hj : i = j
  · subst hj
    simp
  · rw [if_neg hj, if_neg (fun h => hj h.symm)]

/-- The slots after the callbacks of the slots in `invoked`: a slot that was
active and is among them is free, every other slot is as before. -/
theorem deliver_getElem? (invoked : List (Nat × FutureCompletionState × Option E)) :
    ∀ (fw : FutureWaiter) (j : Nat),
      ((j ∈ invoked.map (fun entry => entry.1) ∧ ∃ y, fw.m_waitList[j]? = some (y, true)) →
        (fw.deliver invoked).m_waitList[j]? = some (none, false)) ∧
      (¬ (j ∈ invoked.map (fun entry => entry.1) ∧ ∃ y, fw.m_waitList[j]? = some (y, true)) →
        (fw.deliver invoked).m_waitList[j]? = fw.m_waitList[j]?) := by
  induction invoked with
  | nil =>
    intro fw j
    exact ⟨fun h => by simp at h, fun _ => rfl⟩
  | cons entry rest ih =>
    intro fw j
    have hstep : (fw.deliver (entry :: rest)) = (fw.callback entry.1).deliver rest := rfl
    rw [hstep]
    obtain ⟨ih1, ih2⟩ := ih (fw.callback entry.1) j
    by_cases hact : ∃ y, fw.m_waitList[entry.1]? = some (y, true)
    · obtain ⟨y0, hy0⟩ := hact
      have hcb := callback_active fw entry.1 j y0 hy0
      by_cases hj : j = entry.1
      · have hfree : (fw.callback entry.1).m_waitList[j]? = some (none, false) := by
          rw [hcb, if_pos hj]
        have hno : ¬ (j ∈ rest.map (fun entry => entry.1) ∧
            ∃ y, (fw.callback entry.1).m_waitList[j]? = some (y, true)) := by
          rintro ⟨_, y, hy⟩
          rw [hfree] at hy
          simp at hy
        constructor
        · intro _
          rw [ih2 hno, hfree]
        · intro hn
          exact absurd ⟨by simp [hj], ⟨y0, by rw [hj]; exact hy0⟩⟩ hn
      · have hsame : (fw.callback entry.1).m_waitList[j]? = fw.m_waitList[j]? := by
          rw [hcb, if_neg hj]
        constructor
        · rintro ⟨hm, y, hy⟩
          have hm2 : j ∈ rest.map (fun entry => entry.1) := by
            simp only [List.map_cons, List.mem_cons] at hm
            rcases hm with hm | hm
            · exact absurd hm hj
            · exact hm
          exact ih1 ⟨hm2, y, by rw [hsame]; exact hy⟩
        · intro hn
          rw [ih2, hsame]
          rintro ⟨hm, y, hy⟩
          exact hn ⟨by simp only [List.map_cons, List.mem_cons]; exact Or.inr hm,
            y, by rw [← hsame]; exact hy⟩
    · have hnoop : fw.callback entry.1 = fw :=
        callback_not_active fw entry.1 (fun y hy => hact ⟨y, hy⟩)
      rw [hnoop] at ih1 ih2 ⊢
      constructor
      · rintro ⟨hm, y, hy⟩
        have hm2 : j ∈ rest.map (fun entry => entry.1) := by
          simp only [List.map_cons, List.mem_cons] at hm
          rcases hm with hm | hm
          · exact absurd ⟨y, by rw [← hm]; exact hy⟩ hact
          · exact hm
        exact ih1 ⟨hm2, y, hy⟩
      · intro hn
        apply ih2
        rintro ⟨hm, y, hy⟩
        exact hn ⟨by simp only [List.map_cons, List.mem_cons]; exact Or.inr hm, y, hy⟩

theorem terminalState_isCompleted (r : Except E T) :
    (terminalState r : FutureValueType T E).isCompleted = true := by
  cases r <;> rfl

/-- Completion of a cell keeps the waiter and the heap fitted together. -/
theorem completeFuture_link (fuel : Nat) (hfuel : 0 < fuel) (fw : FutureWaiter)
    (w : World T E) (added : List CellId) (c : CellId) (r : Except E T)
    (h : WaiterLink fw w added) :
    ∃ fw1 w1, completeFuture fuel fw w c r = some (fw1, w1) ∧ WaiterLink fw1 w1 added := by
  have hterm := terminalState_isCompleted (T := T) (E := E) r
  obtain ⟨args, hargs⟩ := commonArgs_completed (terminalState r : FutureValueType T E) hterm
  obtain ⟨w1, h1, h2, h3, h4⟩ := setResult_plain fuel w c (terminalState r) args hargs hfuel
    (h.no_forward c)
  have hcomp : completeFuture fuel fw w c r =
      some (fw.deliver (w1.commonTrace.drop w.commonTrace.length), w1) := by
    simp only [completeFuture, h1]
  refine ⟨_, w1, hcomp, ?_⟩
  rw [h4]
  -- the slots that are called back are those registered on `c`
  have htags : ∀ j : Nat,
      j ∈ ((commonTags (w.cells c).m_callbacks).map
        (fun i => (i, args))).map
          (fun entry => entry.1) ↔ Callback.common j ∈ (w.cells c).m_callbacks := by
    intro j
    rw [List.map_map, ← mem_commonTags]
    simp
  generalize hinv : (commonTags (w.cells c).m_callbacks).map
    (fun i => (i, args)) = invoked at htags
  have hkeep : ∀ j : Nat, Callback.common j ∉ (w.cells c).m_callbacks →
      (fw.deliver invoked).m_waitList[j]? = fw.m_waitList[j]? := by
    intro j hj
    exact (deliver_getElem? invoked fw j).2 (fun hh => hj ((htags j).mp hh.1))
  have hfree : ∀ j : Nat, Callback.common j ∈ (w.cells c).m_callbacks →
      (fw.deliver invoked).m_waitList[j]? = some (none, false) := by
    intro j hj
    exact (deliver_getElem? invoked fw j).1 ⟨(htags j).mpr hj, _, h.registered c j hj⟩
  have hcbs : ∀ x cb, cb ∈ (w1.cells x).m_callbacks → x ≠ c ∧ cb ∈ (w.cells x).m_callbacks := by
    intro x cb hm
    by_cases hx : x = c
    · subst hx
      rw [h2] at hm
      simp at hm
    · rw [h3 x hx] at hm
      exact ⟨hx, hm⟩
  refine ⟨deliver_inv invoked fw h.inv, ?_, ?_, ?_, ?_⟩
  · intro i x hi
    by_cases hreg : Callback.common i ∈ (w.cells c).m_callbacks
    · rw [hfree i hreg] at hi
      simp at hi
    · rw [hkeep i hreg] at hi
      obtain ⟨c1, hx, hadd, hpend, hcb⟩ := h.active i x hi
      have hne : c1 ≠ c := fun heq => hreg (heq ▸ hcb)
      exact ⟨c1, hx, hadd, by rw [h3 c1 hne]; exact hpend, by rw [h3 c1 hne]; exact hcb⟩
  · intro c1 i hm
    obtain ⟨hne, hm2⟩ := hcbs c1 _ hm
    have hslot := h.registered c1 i hm2
    have hreg : Callback.common i ∉ (w.cells c).m_callbacks := by
      intro hc
      have := h.registered c i hc
      rw [hslot] at this
      simp only [Option.some.injEq, Prod.mk.injEq, and_true] at this
      exact hne this
    rw [hkeep i hreg]
    exact hslot
  · intro f hf
    rcases h.settled f hf with hdone | ⟨i, hi⟩
    · left
      by_cases hfc : f = c
      · subst hfc
        rw [h2]
        exact hterm
      · rw [h3 f hfc]
        exact hdone
    · by_cases hreg : Callback.common i ∈ (w.cells c).m_callbacks
      · left
        have := h.registered c i hreg
        rw [hi] at this
        simp only [Option.some.injEq, Prod.mk.injEq, and_true] at this
        subst this
        rw [h2]
        exact hterm
      · right
        exact ⟨i, by rw [hkeep i hreg]; exact hi⟩
  · intro c1 d hm
    exact h.no_forward c1 d (hcbs c1 _ hm).2

/-- Adding a future keeps the waiter and the heap fitted together. -/
theorem addToWaitList_link (fuel : Nat) (fw : FutureWaiter) (w : World T E)
    (added : List CellId) (f : CellId) (h : WaiterLink fw w added) :
    ∃ fw1 w1, addToWaitList fuel fw w f = some (fw1, w1) ∧
      WaiterLink fw1 w1 (added ++ [f]) := by
  have hidx : ∀ (i : Nat) (y : Option CellId), fw.m_waitList[i]? = some (y, true) →
      i ≠ freeIndex fw.m_waitList := by
    intro i y hi heq
    rw [heq] at hi
    exact freeIndex_not_active _ y hi
  have hold : ∀ (i : Nat) (y : Option CellId), fw.m_waitList[i]? = some (y, true) →
      (fw.claim f).2.m_waitList[i]? = some (y, true) := by
    intro i y hi
    rw [claim_getElem?, if_neg (hidx i y hi)]
    exact hi
  have hnew : (fw.claim f).2.m_waitList[freeIndex fw.m_waitList]? = some (some f, true) := by
    rw [claim_getElem?, if_pos rfl]
  by_cases hterm : (w.cells f).m_val.isCompleted = true
  · -- the future is terminal: the callback runs at once and frees the slot
    obtain ⟨args, hargs⟩ := commonArgs_completed (w.cells f).m_val hterm
    have hadd : addToWaitList fuel fw w f =
        some (((fw.claim f).2.callback (freeIndex fw.m_waitList)),
          { w with commonTrace := w.commonTrace ++ [(freeIndex fw.m_waitList, args)] }) := by
      show (match addCommonCallback fuel w f (freeIndex fw.m_waitList) with
        | none => none
        | some w1 => some ((fw.claim f).2.deliver
            (w1.commonTrace.drop w.commonTrace.length), w1)) = _
      simp only [addCommonCallback, addCallback, hterm, if_true, invokeCallback, hargs,
        List.drop_left]
      rfl
    have hslots : ∀ j : Nat, ((fw.claim f).2.callback (freeIndex fw.m_waitList)).m_waitList[j]?
        = if j = freeIndex fw.m_waitList then some (none, false) else fw.m_waitList[j]? := by
      intro j
      rw [callback_active _ _ j _ hnew]
      by_cases hj : j = freeIndex fw.m_waitList
      · rw [if_pos hj, if_pos hj]
      · rw [if_neg hj, if_neg hj, claim_getElem?, if_neg hj]
    refine ⟨_, _, hadd, callback_inv _ _ (claim_inv fw f h.inv), ?_, ?_, ?_, ?_⟩
    · intro i x hi
      rw [hslots i] at hi
      by_cases hj : i = freeIndex fw.m_waitList
      · rw [if_pos hj] at hi
        simp at hi
      · rw [if_neg hj] at hi
        obtain ⟨c1, hx, hadd1, hpend, hcb⟩ := h.active i x hi
        exact ⟨c1, hx, List.mem_append_left _ hadd1, hpend, hcb⟩
    · intro c1 i hm
      have hslot := h.registered c1 i hm
      rw [hslots i, if_neg (hidx i _ hslot)]
      exact hslot
    · intro g hg
      rcases List.mem_append.mp hg with hg | hg
      · rcases h.settled g hg with hdone | ⟨i, hi⟩
        · exact Or.inl hdone
        · exact Or.inr ⟨i, by rw [hslots i, if_neg (hidx i _ hi)]; exact hi⟩
      · simp only [List.mem_singleton] at hg
        subst hg
        exact Or.inl hterm
    · exact h.no_forward
  · -- the future is pending: the callback is registered on it
    have hpend : (w.cells f).m_val = .notCompleted := by
      cases hv : (w.cells f).m_val with
      | notCompleted => rfl
      | value v => rw [hv] at hterm; exact absurd rfl hterm
      | exception e => rw [hv] at hterm; exact absurd rfl hterm
    have hadd : addToWaitList fuel fw w f =
        some ((fw.claim f).2, w.pushCallback f (.common (freeIndex fw.m_waitList))) := by
      show (match addCommonCallback fuel w f (freeIndex fw.m_waitList) with
        | none => none
        | some w1 => some ((fw.claim f).2.deliver
            (w1.commonTrace.drop w.commonTrace.length), w1)) = _
      simp only [addCommonCallback, addCallback, hterm]
      show some ((fw.claim f).2.deliver (w.commonTrace.drop w.commonTrace.length), _) = _
      rw [List.drop_length]
      rfl
    have hcells : ∀ x, ((w.pushCallback f (.common (freeIndex fw.m_waitList))).cells x).m_val
        = (w.cells x).m_val := by
      intro x
      by_cases hx : x = f
      · subst hx
        rw [pushCallback_cells_same]
      · rw [pushCallback_cells_other _ _ _ _ hx]
    have hcbs : ∀ x cb, cb ∈ ((w.pushCallback f (.common (freeIndex fw.m_waitList))).cells
        x).m_callbacks ↔ cb ∈ (w.cells x).m_callbacks ∨
          (x = f ∧ cb = .common (freeIndex fw.m_waitList)) := by
      intro x cb
      by_cases hx : x = f
      · subst hx
        rw [pushCallback_cells_same]
        simp
      · rw [pushCallback_cells_other _ _ _ _ hx]
        simp [hx]
    refine ⟨_, _, hadd, claim_inv fw f h.inv, ?_, ?_, ?_, ?_⟩
    · intro i x hi
      rw [claim_getElem?] at hi
      by_cases hj : i = freeIndex fw.m_waitList
      · rw [if_pos hj] at hi
        simp only [Option.some.injEq, Prod.mk.injEq, and_true] at hi
        refine ⟨f, hi.symm, List.mem_append_right _ (List.mem_singleton.mpr rfl), ?_, ?_⟩
        · rw [hcells]
          exact hpend
        · rw [hcbs]
          exact Or.inr ⟨rfl, by rw [hj]⟩
      · rw [if_neg hj] at hi
        obtain ⟨c1, hx, hadd1, hp, hcb⟩ := h.active i x hi
        refine ⟨c1, hx, List.mem_append_left _ hadd1, ?_, ?_⟩
        · rw [hcells]
          exact hp
        · rw [hcbs]
          exact Or.inl hcb
    · intro c1 i hm
      rw [hcbs] at hm
      rcases hm with hm | ⟨hc, hcb⟩
      · exact hold i _ (h.registered c1 i hm)
      · simp only [Callback.common.injEq] at hcb
        rw [hc, hcb]
        exact hnew
    · intro g hg
      rcases List.mem_append.mp hg with hg | hg
      · rcases h.settled g hg with hdone | ⟨i, hi⟩
        · left
          rw [hcells]
          exact hdone
        · exact Or.inr ⟨i, hold i _ hi⟩
      · simp only [List.mem_singleton] at hg
        subst hg
        exact Or.inr ⟨_, hnew⟩
    · intro c1 d hm
      rw [hcbs] at hm
      rcases hm with hm | ⟨_, hcb⟩
      · exact h.no_forward c1 d hm
      · simp at hcb

/-- A waiter that has seen nothing fits every plain heap. -/
theorem link_initial (w : World T E) (hw : PlainHeap w) :
    WaiterLink ⟨[], 0⟩ w [] := by
  refine ⟨⟨rfl, ?_⟩, ?_, ?_, ?_, ?_⟩
  · intro x b hm
    simp at hm
  · intro i x hi
    simp at hi
  · intro c i hm
    rcases hw c _ hm with ⟨tag, ht⟩ | ⟨work, ht⟩ <;> simp at ht
  · intro f hf
    simp at hf
  · intro c d hm
    rcases hw c _ hm with ⟨tag, ht⟩ | ⟨work, ht⟩ <;> simp at ht

/-- Every sequence of events returns and keeps the waiter and the heap fitted together. -/
theorem runWaiter_link (fuel : Nat) (hfuel : 0 < fuel) (events : List (WaiterEvent T E)) :
    ∀ (fw : FutureWaiter) (w : World T E) (added : List CellId), WaiterLink fw w added →
      ∃ fw1 w1, runWaiter fuel events fw w = some (fw1, w1) ∧
        WaiterLink fw1 w1 (added ++ addedFutures events) := by
  induction events with
  | nil =>
    intro fw w added h
    exact ⟨fw, w, rfl, by simpa [addedFutures] using h⟩
  | cons ev rest ih =>
    intro fw w added h
    cases ev with
    | add f =>
      obtain ⟨fw1, w1, h1, h2⟩ := addToWaitList_link fuel fw w added f h
      obtain ⟨fw2, w2, h3, h4⟩ := ih fw1 w1 _ h2
      refine ⟨fw2, w2, ?_, ?_⟩
      · simp only [runWaiter, h1]
        exact h3
      · simpa [addedFutures] using h4
    | complete c r =>
      obtain ⟨fw1, w1, h1, h2⟩ := completeFuture_link fuel hfuel fw w added c r h
      obtain ⟨fw2, w2, h3, h4⟩ := ih fw1 w1 _ h2
      refine ⟨fw2, w2, ?_, ?_⟩
      · simp only [runWaiter, h1]
        exact h3
      · simpa [addedFutures] using h4

/-- A counter that agrees with the slots is zero exactly when no slot is active. -/
theorem activeCount_eq_zero (l : List (Option CellId × Bool)) :
    activeCount l = 0 ↔ ∀ (i : Nat) (x : Option CellId), l[i]? ≠ some (x, true) := by
  constructor
  · intro h i x hi
    have := activeCount_pos l i x hi
    omega
  · intro h
    induction l with
    | nil => rfl
    | cons p rest ih =>
      obtain ⟨y, b⟩ := p
      cases b with
      | true => exact absurd (by simp) (h 0 y)
      | false =>
        simp only [activeCount, Bool.false_eq_true, if_false, Nat.zero_add]
        apply ih
        intro i x hi
        exact h (i + 1) x (by simpa using hi)

/-- The heap of three pending cells has no callback registered at all. -/
theorem threeCells_plain : PlainHeap threeCells := by
  intro c cb hm
  have hnil : (threeCells.cells c).m_callbacks = [] := by
    simp only [threeCells, makeShared, World.empty, Function.update_apply]
    split_ifs <;> rfl
  rw [hnil] at hm
  simp at hm

/-- From a state that fits, the counter is zero exactly when every added future is
terminal. -/
theorem link_quiescent (fw : FutureWaiter) (w : World T E) (added : List CellId)
    (h : WaiterLink fw w added) :
    fw.m_nrActive = 0 ↔ ∀ f, f ∈ added → (w.cells f).m_val.isCompleted = true := by
  rw [h.inv.count, activeCount_eq_zero]
  constructor
  · intro hnone f hf
    rcases h.settled f hf with hdone | ⟨i, hi⟩
    · exact hdone
    · exact absurd hi (hnone i _)
  · intro hall i x hi
    obtain ⟨c, _, hc, hpend, _⟩ := h.active i x hi
    have := hall c hc
    rw [hpend] at this
    exact Bool.false_ne_true this

/-- Claim C18. Every sequence of `addToWaitList` calls and completions, from a fresh
`FutureWaiter` and a heap on which no waiter or combinator has registered a callback
yet, returns; and in the state it reaches the condition on which `waitForAll` returns
(the active counter is zero) holds if and only if every future added so far is
terminal. -/
theorem waitForAll_iff_all_completed (fuel : Nat) (hfuel : 0 < fuel) (w0 : World T E)
    (hw : PlainHeap w0) (events : List (WaiterEvent T E)) :
    ∃ fw w, runWaiter fuel events ⟨[], 0⟩ w0 = some (fw, w) ∧
      (fw.m_nrActive = 0 ↔
        ∀ f, f ∈ addedFutures events → (w.cells f).m_val.isCompleted = true) ∧
      (fw.waitForAll = some () ↔
        ∀ f, f ∈ addedFutures events → (w.cells f).m_val.isCompleted = true) := by
  obtain ⟨fw, w, hrun, hlink⟩ :=
    runWaiter_link fuel hfuel events ⟨[], 0⟩ w0 [] (link_initial w0 hw)
  rw [List.nil_append] at hlink
  have hq := link_quiescent fw w _ hlink
  refine ⟨fw, w, hrun, hq, ?_⟩
  rw [← hq]
  by_cases hz : fw.m_nrActive = 0
  · simp [FutureWaiter.waitForAll, hz]
  · simp [FutureWaiter.waitForAll, hz]

/-- Three futures are added and two of them complete, one with an error: the counter
is 1 and `waitForAll` does not return; once the third completes the counter is 0 and
`waitForAll` returns. -/
theorem waitForAll_iff_all_completed_witness :
    (0 < 1 ∧ PlainHeap threeCells ∧
      ∃ fw w, runWaiter 1 [.add 0, .add 1, .complete 1 (.error 3), .add 2,
          .complete 0 (.ok 5), .complete 2 (.ok 6)] ⟨[], 0⟩ threeCells = some (fw, w) ∧
        (fw.m_nrActive = 0 ↔ ∀ f, f ∈ addedFutures ([.add 0, .add 1,
          .complete 1 (.error 3), .add 2, .complete 0 (.ok 5), .complete 2 (.ok 6)] :
            List (WaiterEvent Int Nat)) → (w.cells f).m_val.isCompleted = true) ∧
        (fw.waitForAll = some () ↔ ∀ f, f ∈ addedFutures ([.add 0, .add 1,
          .complete 1 (.error 3), .add 2, .complete 0 (.ok 5), .complete 2 (.ok 6)] :
            List (WaiterEvent Int Nat)) → (w.cells f).m_val.isCompleted = true)) ∧
    (runWaiter 1 [.add 0, .add 1, .complete 1 (.error 3), .add 2, .complete 0 (.ok 5)]
        ⟨[], 0⟩ threeCells).map (fun p => (p.1.m_nrActive, p.1.waitForAll,
          (p.2.cells 2).m_val.isCompleted)) = some (1, none, false) ∧
    (runWaiter 1 [.add 0, .add 1, .complete 1 (.error 3), .add 2, .complete 0 (.ok 5),
        .complete 2 (.ok 6)] ⟨[], 0⟩ threeCells).map (fun p => (p.1.m_nrActive,
          p.1.waitForAll, (p.2.cells 2).m_val.isCompleted)) = some (0, some (), true) :=
  ⟨⟨Nat.one_pos, threeCells_plain,
    waitForAll_iff_all_completed 1 Nat.one_pos threeCells threeCells_plain _⟩, rfl, rfl⟩

/-- The state of a `FutureWaiter` alone keeps its counter and its slots in agreement
under every sequence of slot claims and callbacks. -/
theorem apply_inv (ops : List WaiterOp) :
    ∀ fw : FutureWaiter, WaiterInv fw → WaiterInv (ops.foldl FutureWaiter.apply fw) := by
  induction ops with
  | nil => intro fw h; exact h
  | cons op rest ih =>
    intro fw h
    rw [List.foldl_cons]
    apply ih
    cases op with
    | claim f => exact claim_inv fw f h
    | callback index => exact callback_inv fw index h

/-- Claim C20. In every state of a `FutureWaiter` reached by slot claims and callbacks
the counter `m_nrActive` equals the number of slots whose active bit is set and every
slot that is not active holds a null handle; and in every state reached by
`addToWaitList` calls and completions, from a heap on which no callback is registered
yet, each slot is either inactive with a null handle or active with the handle of an
added future that is still pending, so that no slot holds a future that has completed. -/
theorem waiter_counter_matches_slots :
    (∀ ops : List WaiterOp,
      (ops.foldl FutureWaiter.apply ⟨[], 0⟩).m_nrActive =
          activeCount (ops.foldl FutureWaiter.apply ⟨[], 0⟩).m_waitList ∧
        ∀ x b, (x, b) ∈ (ops.foldl FutureWaiter.apply ⟨[], 0⟩).m_waitList →
          b = false → x = none) ∧
    (∀ (fuel : Nat) (w0 : World T E) (events : List (WaiterEvent T E)),
      0 < fuel → PlainHeap w0 →
      ∃ fw w, runWaiter fuel events ⟨[], 0⟩ w0 = some (fw, w) ∧
        fw.m_nrActive = activeCount fw.m_waitList ∧
        ∀ (i : Nat) (x : Option CellId) (b : Bool), fw.m_waitList[i]? = some (x, b) →
          (b = false ∧ x = none) ∨
          (b = true ∧ ∃ c, x = some c ∧ c ∈ addedFutures events ∧
            (w.cells c).m_val = .notCompleted)) := by
  constructor
  · intro ops
    have h := apply_inv ops ⟨[], 0⟩ ⟨rfl, by intro x b hm; simp at hm⟩
    exact ⟨h.count, h.null⟩
  · intro fuel w0 events hfuel hw
    obtain ⟨fw, w, hrun, hlink⟩ :=
      runWaiter_link fuel hfuel events ⟨[], 0⟩ w0 [] (link_initial w0 hw)
    rw [List.nil_append] at hlink
    refine ⟨fw, w, hrun, hlink.inv.count, ?_⟩
    intro i x b hi
    cases b with
    | false =>
      exact Or.inl ⟨rfl, hlink.inv.null x false (List.getElem?_mem hi) rfl⟩
    | true =>
      obtain ⟨c, hx, hc, hpend, _⟩ := hlink.active i x hi
      exact Or.inr ⟨rfl, c, hx, hc, hpend⟩

/-- A future that is already terminal is added, and a freed slot is used again: future
0 takes slot 0, future 1 slot 1; future 0 completes and frees slot 0; future 2 takes
slot 0 again; future 0, terminal by now, is added once more and leaves slot 2 free at
once. -/
theorem waiter_counter_matches_slots_witness :
    (0 < 1 ∧ PlainHeap threeCells ∧
      ∃ fw w, runWaiter 1 [.add 0, .add 1, .complete 0 (.ok 5), .add 2, .add 0]
          ⟨[], 0⟩ threeCells = some (fw, w) ∧
        fw.m_nrActive = activeCount fw.m_waitList ∧
        ∀ (i : Nat) (x : Option CellId) (b : Bool), fw.m_waitList[i]? = some (x, b) →
          (b = false ∧ x = none) ∨
          (b = true ∧ ∃ c, x = some c ∧ c ∈ addedFutures ([.add 0, .add 1,
            .complete 0 (.ok 5), .add 2, .add 0] : List (WaiterEvent Int Nat)) ∧
            (w.cells c).m_val = .notCompleted)) ∧
    (runWaiter 1 [.add 0, .add 1, .complete 0 (.ok 5), .add 2, .add 0]
        ⟨[], 0⟩ threeCells).map (fun p => (p.1.m_waitList, p.1.m_nrActive)) =
      some ([(some 2, true), (some 1, true), (none, false)], 2) ∧
    (runWaiter 1 [.add 0, .add 1, .complete 0 (.ok 5)]
        ⟨[], 0⟩ threeCells).map (fun p => (p.1.m_waitList, p.1.m_nrActive)) =
      some ([(none, false), (some 1, true)], 1) :=
  ⟨⟨Nat.one_pos, threeCells_plain,
    (waiter_counter_matches_slots (T := Int) (E := Nat)).2 1 threeCells _ Nat.one_pos
      threeCells_plain⟩, rfl, rfl⟩

end Waiter

/-! ## The callback of a combinator only posts its work item -/

section Posting

variable {T E : Type}

/-- Completion of an input on which a combinator has registered its callback,
step by step: the callbacks registered before it run and reach the state `wm`,
then the callback of the combinator turns `wm` into `wm.enqueue work`, then the
list is cleared.  In `wm` no user function has been invoked since the call of
the combinator and the output cell is as created. -/
theorem complete_registered_frame (rank : CellId → Nat) (n : Nat) (w0 : World T E)
    (fArg : CellId) (work : Work T E) (val : FutureValueType T E)
    (hdesc : ForwardsDescend rank w0) (halloc : ForwardsAllocated w0)
    (hin : fArg < w0.next) (hfuel : rank fArg < n + 1) (hval : val.isCompleted = true) :
    ∃ wm, runCallbacks (setResult n)
          (((makeShared w0).2.pushCallback fArg (.enqueue work)).setVal fArg val) fArg
          (w0.cells fArg).m_callbacks = some wm ∧
      setResult (n + 1) ((makeShared w0).2.pushCallback fArg (.enqueue work)) fArg val
        = some ((wm.enqueue work).clearCallbacks fArg) ∧
      wm.calls = w0.calls ∧ wm.next = w0.next + 1 ∧ wm.cells w0.next = {} ∧
      wm.cells fArg = ⟨val, (w0.cells fArg).m_callbacks ++ [.enqueue work]⟩ := by
  have hne : fArg ≠ w0.next := Nat.ne_of_lt hin
  have hne2 : w0.next ≠ fArg := fun h => hne h.symm
  have hF : (((makeShared w0).2.pushCallback fArg (.enqueue work)).setVal fArg val).cells fArg =
      ⟨val, (w0.cells fArg).m_callbacks ++ [.enqueue work]⟩ := by
    simp [makeShared_cells_old w0 fArg hne]
  have hR : (((makeShared w0).2.pushCallback fArg (.enqueue work)).setVal fArg val).cells
      w0.next = {} := by
    rw [setVal_cells_other _ _ _ _ hne2, pushCallback_cells_other _ _ _ _ hne2]
    exact makeShared_cells_new w0
  have hO : ∀ x, x ≠ fArg → x ≠ w0.next →
      (((makeShared w0).2.pushCallback fArg (.enqueue work)).setVal fArg val).cells x =
        w0.cells x := by
    intro x hx1 hx2
    rw [setVal_cells_other _ _ _ _ hx1, pushCallback_cells_other _ _ _ _ hx1]
    exact makeShared_cells_old w0 x hx2
  have hwa_calls : (((makeShared w0).2.pushCallback fArg (.enqueue work)).setVal fArg
      val).calls = w0.calls := rfl
  have hwa_next : (((makeShared w0).2.pushCallback fArg (.enqueue work)).setVal fArg
      val).next = w0.next + 1 := rfl
  generalize hwa : ((makeShared w0).2.pushCallback fArg (.enqueue work)).setVal fArg val = wa
    at hF hR hO hwa_calls hwa_next ⊢
  -- the ranking, with the new cell placed beside the input
  have hrF : Function.update rank w0.next (rank fArg) fArg = rank fArg := by
    rw [Function.update_noteq hne]
  have hrR : Function.update rank w0.next (rank fArg) w0.next = rank fArg := by
    rw [Function.update_same]
  have hold : ∀ c d, Callback.forward d ∈ (w0.cells c).m_callbacks →
      Function.update rank w0.next (rank fArg) d < rank c := by
    intro c d hm
    have hd : d ≠ w0.next := Nat.ne_of_lt (halloc c d hm)
    rw [Function.update_noteq hd]
    exact hdesc c d hm
  have hdesc1 : ForwardsDescend (Function.update rank w0.next (rank fArg)) wa := by
    intro c d hm
    by_cases hc1 : c = fArg
    · subst hc1
      rw [hF] at hm
      have hm2 : Callback.forward d ∈ (w0.cells c).m_callbacks := by simpa using hm
      rw [hrF]
      exact hold c d hm2
    · by_cases hc2 : c = w0.next
      · subst hc2
        rw [hR] at hm
        simp at hm
      · rw [hO c hc1 hc2] at hm
        rw [Function.update_noteq hc2]
        exact hold c d hm
  have hl : ∀ d, Callback.forward d ∈ (w0.cells fArg).m_callbacks →
      Function.update rank w0.next (rank fArg) d <
        Function.update rank w0.next (rank fArg) fArg := by
    intro d hm
    rw [hrF]
    exact hold fArg d hm
  have hk : Function.update rank w0.next (rank fArg) fArg ≤ n := by
    rw [hrF]; omega
  obtain ⟨wm, h1, h2, h3⟩ := runCallbacks_descend (Function.update rank w0.next (rank fArg))
    (Function.update rank w0.next (rank fArg) fArg) (setResult n)
    (fun w d v hw hd hv => setResult_below _ n _ hk w d v hw hd hv)
    fArg le_rfl (w0.cells fArg).m_callbacks wa hdesc1 (by rw [hF]; exact hval) hl
  refine ⟨wm, h1, ?_, ?_, ?_, ?_, ?_⟩
  · have hne3 : ((w0.cells fArg).m_callbacks ++ [Callback.enqueue work]).isEmpty = false := by
      cases (w0.cells fArg).m_callbacks <;> rfl
    simp only [setResult, hwa, hF, hne3]
    rw [runCallbacks_append, h1]
    simp [runCallbacks, invokeCallback]
  · rw [h3.calls_eq, hwa_calls]
  · rw [h3.next_eq, hwa_next]
  · rw [h2 w0.next (by rw [hrF, hrR]), hR]
  · rw [h2 fArg le_rfl, hF]

/-- Claim C21. Let `call` be a call of `addContinuation`, `addAsyncContinuation`
or `catchAsync` on the input `fArg` in the state `w0`, and `work` the work item
it builds for its output cell `w0.next`.
* The callback it registers, invoked in any state with any value, only posts
  `work`: the queue grows by that one item, and the cells, the log of user
  function calls and the allocation mark are unchanged.
* Input terminal at the call: the callback fires inside the call.  The state
  returned is the state after allocation with `work` posted: one item more in
  the queue, no user function invoked, the output cell as created, all other
  cells as before.
* Input pending at the call: nothing is posted and no user function is invoked
  by the call.  When the input is completed with any state `val`, value or
  error, the callbacks registered before reach a state `wm`, the callback turns
  it into `wm.enqueue work`, and the list is cleared: one item more in the
  queue, still no user function invoked, the output cell as created, and the
  callback gone from the input, so that it does not fire again.
* The user function is invoked by the work item: run in the state the callback
  left, the item of `addContinuation` invokes `f` once on the value of the
  input and stores the result in the output; the item of
  `addAsyncContinuation` invokes `f` once on the value and chains the output
  to the future it returns; the item of `catchAsync` does so with the error of
  the input; on the other terminal state of the input the item completes the
  output with that state and invokes nothing. -/
theorem continuation_callback_only_enqueues (rank : CellId → Nat) (fuel : Nat)
    (w0 : World T E) (fArg : CellId) (work : Work T E) (call : Option (CellId × World T E))
    (hdesc : ForwardsDescend rank w0) (halloc : ForwardsAllocated w0)
    (hin : fArg < w0.next) (hfuel : rank fArg + 1 < fuel)
    (hcall : (∃ name f, work = .continuation w0.next name f fArg ∧
        call = addContinuation fuel w0 name f fArg) ∨
      (∃ name f, work = .asyncContinuation w0.next name f fArg ∧
        call = addAsyncContinuation fuel w0 name f fArg) ∨
      (∃ name f, work = .catchContinuation w0.next name f fArg ∧
        call = catchAsync fuel w0 name f fArg)) :
    (∀ (sr : World T E → CellId → FutureValueType T E → Option (World T E)) (w : World T E)
      (val : FutureValueType T E),
      invokeCallback sr w (.enqueue work) val = some (w.enqueue work) ∧
      (w.enqueue work).queue = w.queue ++ [work] ∧
      (w.enqueue work).cells = w.cells ∧ (w.enqueue work).calls = w.calls ∧
      (w.enqueue work).next = w.next) ∧
    ((w0.cells fArg).m_val.isCompleted = true →
      ∃ w1, call = some (w0.next, w1) ∧ w1 = (makeShared w0).2.enqueue work ∧
        w1.queue = w0.queue ++ [work] ∧ w1.calls = w0.calls ∧
        w1.cells w0.next = {} ∧ (∀ x, x ≠ w0.next → w1.cells x = w0.cells x) ∧
        Ready w0 { w1 with queue := w0.queue } fArg (w0.cells fArg).m_val) ∧
    ((w0.cells fArg).m_val = .notCompleted →
      ∃ w1, call = some (w0.next, w1) ∧
        w1.queue = w0.queue ∧ w1.calls = w0.calls ∧ w1.cells w0.next = {} ∧
        w1.cells fArg = ⟨.notCompleted, (w0.cells fArg).m_callbacks ++ [.enqueue work]⟩ ∧
        (∀ x, x ≠ w0.next → x ≠ fArg → w1.cells x = w0.cells x) ∧
        ∀ val : FutureValueType T E, val.isCompleted = true → ∃ wm w2,
          runCallbacks (setResult (fuel - 1)) (w1.setVal fArg val) fArg
            (w0.cells fArg).m_callbacks = some wm ∧
          setResult fuel w1 fArg val = some w2 ∧
          w2 = (wm.enqueue work).clearCallbacks fArg ∧
          w2.queue = wm.queue ++ [work] ∧
          wm.calls = w0.calls ∧ w2.calls = w0.calls ∧
          wm.cells w0.next = {} ∧ w2.cells w0.next = {} ∧
          w2.cells fArg = ⟨val, []⟩ ∧
          Ready w0 { w2 with queue := wm.queue } fArg val) ∧
    (∀ (w : World T E) name f v, work = .continuation w0.next name f fArg →
      Ready w0 w fArg (.value v) →
      ∃ w3, runWork fuel w work = .returned w3 ∧
        w3.calls = w0.calls ++ [(name, .value v)] ∧ Future.get w3 w0.next = some (f v)) ∧
    (∀ (w : World T E) name f v, work = .asyncContinuation w0.next name f fArg →
      Ready w0 w fArg (.value v) →
      ∃ w3, runWork fuel w work = .returned w3 ∧
        w3.calls = w0.calls ++ [(name, .value v)] ∧
        Chained fuel w3 w0.next (w0.next + 1) (f v)) ∧
    (∀ (w : World T E) name f e, work = .catchContinuation w0.next name f fArg →
      Ready w0 w fArg (.exception e) →
      ∃ w3, runWork fuel w work = .returned w3 ∧
        w3.calls = w0.calls ++ [(name, .exception e)] ∧
        Chained fuel w3 w0.next (w0.next + 1) (f e)) ∧
    (∀ (w : World T E) e,
      ((∃ name f, work = .continuation w0.next name f fArg) ∨
        (∃ name f, work = .asyncContinuation w0.next name f fArg)) →
      Ready w0 w fArg (.exception e) →
      ∃ w3, runWork fuel w work = .returned w3 ∧
        w3.calls = w0.calls ∧ Future.get w3 w0.next = some (.error e)) ∧
    (∀ (w : World T E) name f v, work = .catchContinuation w0.next name f fArg →
      Ready w0 w fArg (.value v) →
      ∃ w3, runWork fuel w work = .returned w3 ∧
        w3.calls = w0.calls ∧ Future.get w3 w0.next = some (.ok v)) := by
  obtain ⟨n, rfl⟩ : ∃ n, fuel = n + 2 := ⟨fuel - 2, by omega⟩
  have hne : fArg ≠ w0.next := Nat.ne_of_lt hin
  have hne2 : w0.next ≠ fArg := fun h => hne h.symm
  have hsync : (w0.cells fArg).m_val.isCompleted = true →
      call = some (w0.next, (makeShared w0).2.enqueue work) := by
    intro hterm
    rcases hcall with ⟨name, f, rfl, rfl⟩ | ⟨name, f, rfl, rfl⟩ | ⟨name, f, rfl, rfl⟩
    · exact addContinuation_terminal _ w0 name f fArg hin hterm
    · exact addAsyncContinuation_terminal _ w0 name f fArg hin hterm
    · exact catchAsync_terminal _ w0 name f fArg hin hterm
  have hlater : (w0.cells fArg).m_val = .notCompleted →
      call = some (w0.next, (makeShared w0).2.pushCallback fArg (.enqueue work)) := by
    intro hpend
    rcases hcall with ⟨name, f, rfl, rfl⟩ | ⟨name, f, rfl, rfl⟩ | ⟨name, f, rfl, rfl⟩
    · exact addContinuation_pending _ w0 name f fArg hin hpend
    · exact addAsyncContinuation_pending _ w0 name f fArg hin hpend
    · exact catchAsync_pending _ w0 name f fArg hin hpend
  refine ⟨fun sr w val => ⟨rfl, rfl, rfl, rfl, rfl⟩, ?_, ?_, ?_, ?_, ?_, ?_, ?_⟩
  · intro hterm
    refine ⟨_, hsync hterm, rfl, rfl, rfl, makeShared_cells_new w0, ?_,
      ready_of_terminal w0 fArg work hin⟩
    intro x hx
    exact makeShared_cells_old w0 x hx
  · intro hpend
    refine ⟨_, hlater hpend, rfl, rfl, ?_, ?_, ?_, ?_⟩
    · rw [pushCallback_cells_other _ _ _ _ hne2]
      exact makeShared_cells_new w0
    · rw [pushCallback_cells_same, makeShared_cells_old w0 fArg hne, hpend]
    · intro x hx1 hx2
      rw [pushCallback_cells_other _ _ _ _ hx2]
      exact makeShared_cells_old w0 x hx1
    · intro val hval
      obtain ⟨wm, h1, h2, h3, h4, h5, h6⟩ := complete_registered_frame rank (n + 1) w0 fArg
        work val hdesc halloc hin (by omega) hval
      refine ⟨wm, _, h1, h2, rfl, rfl, h3, h3, h5, ?_, ?_, ?_, ?_, hin, h3, h4⟩
      · rw [clearCallbacks_cells_other _ _ _ hne2]
        exact h5
      · rw [clearCallbacks_cells_same]
        show ({ (wm.cells fArg) with m_callbacks := [] } : PromiseFuturePair T E) = _
        rw [h6]
      · show (((wm.enqueue work).clearCallbacks fArg).cells fArg).m_val = val
        rw [clearCallbacks_cells_same]
        show (wm.cells fArg).m_val = val
        rw [h6]
      · show ((wm.enqueue work).clearCallbacks fArg).cells w0.next = {}
        rw [clearCallbacks_cells_other _ _ _ hne2]
        exact h5
  · intro w name f v hw hr
    subst hw
    obtain ⟨w3, h5, h6, _, h8⟩ := runWork_continuation_value (n + 1) w0 w fArg name f v hr
    exact ⟨w3, h5, h8, h6⟩
  · intro w name f v hw hr
    subst hw
    obtain ⟨w3, h5, h6, _, h8⟩ := runWork_async_value n w0 w fArg name f v hr
    exact ⟨w3, h5, h6, h8⟩
  · intro w name f e hw hr
    subst hw
    obtain ⟨w3, h5, h6, _, h8⟩ := runWork_catch_exception n w0 w fArg name f e hr
    exact ⟨w3, h5, h6, h8⟩
  · intro w e hw hr
    obtain ⟨w3, h5, h6, _, h8⟩ := runWork_input_exception (n + 1) w0 w fArg e hr work hw
    exact ⟨w3, h5, h8, h6⟩
  · intro w name f v hw hr
    subst hw
    obtain ⟨w3, h5, h6, _, h8⟩ := runWork_catch_value (n + 1) w0 w fArg name f v hr
    exact ⟨w3, h5, h8, h6⟩

/-- The frame on concrete cells.
* `addContinuation` with `a + 2` on a pending input: the call posts nothing;
  completing the input with `40` posts the one item, with no user function
  invoked and the output pending; the item, run by a worker, invokes the
  function on `40` and the output yields `42`.
* `addAsyncContinuation` on an input that holds `40` already: the call itself
  posts the one item, invokes nothing and leaves the output pending; the item
  invokes the function on `40`.
* `catchAsync` on a pending input completed with the error `5`: the item, not
  the callback, invokes the handler on `5`. -/
theorem continuation_callback_only_enqueues_witness :
    (ForwardsDescend (fun _ => 0) oneCell ∧ ForwardsAllocated oneCell ∧
      (0 : Nat) < oneCell.next ∧ (0 + 1 : Nat) < 2 ∧ (oneCell.cells 0).m_val = .notCompleted ∧
      (∃ w1 wm w2 w3 : World Int Nat,
        addContinuation 2 oneCell 7 (fun a => .ok (a + 2)) 0 = some (1, w1) ∧
        w1.queue = [] ∧ w1.calls = [] ∧ Future.get w1 1 = none ∧
        setResult 2 w1 0 (.value 40) = some w2 ∧
        w2 = (wm.enqueue (.continuation 1 7 (fun a => .ok (a + 2)) 0)).clearCallbacks 0 ∧
        w2.queue = wm.queue ++ [.continuation 1 7 (fun a => .ok (a + 2)) 0] ∧
        w2.calls = [] ∧ Future.get w2 1 = none ∧
        runWork 2 { w2 with queue := wm.queue } (.continuation 1 7 (fun a => .ok (a + 2)) 0)
          = .returned w3 ∧
        w3.calls = [(7, .value 40)] ∧ Future.get w3 1 = some (.ok 42)) ∧
      (∃ w1 wm w2 w3 : World Int Nat,
        catchAsync 2 oneCell 7 (fun _ => .ok (.completed 0)) 0 = some (1, w1) ∧
        w1.queue = [] ∧ w1.calls = [] ∧
        setResult 2 w1 0 (.exception 5) = some w2 ∧
        w2.queue = wm.queue ++ [.catchContinuation 1 7 (fun _ => .ok (.completed 0)) 0] ∧
        w2.calls = [] ∧ Future.get w2 1 = none ∧
        runWork 2 { w2 with queue := wm.queue }
          (.catchContinuation 1 7 (fun _ => .ok (.completed 0)) 0) = .returned w3 ∧
        w3.calls = [(7, .exception 5)])) ∧
    (ForwardsDescend (fun _ => 0) (oneCell.setVal 0 (.value 40)) ∧
      ForwardsAllocated (oneCell.setVal 0 (.value 40)) ∧
      ((oneCell.setVal 0 (.value 40)).cells 0).m_val.isCompleted = true ∧
      ∃ w1 w3 : World Int Nat,
        addAsyncContinuation 2 (oneCell.setVal 0 (.value 40)) 7 (fun _ => .ok .pending) 0
          = some (1, w1) ∧
        w1.queue = [.asyncContinuation 1 7 (fun _ => .ok .pending) 0] ∧
        w1.calls = [] ∧ Future.get w1 1 = none ∧
        runWork 2 { w1 with queue := [] } (.asyncContinuation 1 7 (fun _ => .ok .pending) 0)
          = .returned w3 ∧
        w3.calls = [(7, .value 40)]) ∧
    ((addContinuation 2 oneCell 7 (fun a => .ok (a + 2)) 0).bind
        (fun p => setResult 2 p.2 0 (.value 40))).map
      (fun w => (w.queue.length, w.calls, (w.cells 1).m_val, (w.cells 0).m_callbacks.length))
      = some (1, [], .notCompleted, 0) := by
  have hd := forwardsDescend_of_no_callbacks (fun _ => 0) _ oneCell_no_callbacks
  have ha := forwardsAllocated_of_no_callbacks _ oneCell_no_callbacks
  have hd2 := forwardsDescend_of_no_callbacks (fun _ => 0) _
    (oneCell_setVal_no_callbacks (.value 40))
  have ha2 := forwardsAllocated_of_no_callbacks _ (oneCell_setVal_no_callbacks (.value 40))
  refine ⟨⟨hd, ha, by decide, by decide, rfl, ?_, ?_⟩, ⟨hd2, ha2, rfl, ?_⟩, rfl⟩
  · have H := continuation_callback_only_enqueues (fun _ => 0) 2 oneCell 0
      (.continuation 1 7 (fun a => .ok (a + 2)) 0)
      (addContinuation 2 oneCell 7 (fun a => .ok (a + 2)) 0) hd ha (by decide) (by decide)
      (Or.inl ⟨7, _, rfl, rfl⟩)
    obtain ⟨w1, hc, hq, hcalls, hout, _, _, hval⟩ := H.2.2.1 rfl
    obtain ⟨wm, w2, _, hset, heq, hq2, _, hc2, _, ho2, _, hready⟩ := hval (.value 40) rfl
    obtain ⟨w3, hr, hcalls3, hget⟩ := H.2.2.2.1 _ 7 _ 40 rfl hready
    exact ⟨w1, wm, w2, w3, hc, hq, hcalls,
      Future_get_pending _ _ (congrArg PromiseFuturePair.m_val hout), hset, heq, hq2, hc2,
      Future_get_pending _ _ (congrArg PromiseFuturePair.m_val ho2), hr, hcalls3, hget⟩
  · have H := continuation_callback_only_enqueues (fun _ => 0) 2 oneCell 0
      (.catchContinuation 1 7 (fun _ => .ok (.completed 0)) 0)
      (catchAsync 2 oneCell 7 (fun _ => .ok (.completed 0)) 0) hd ha (by decide) (by decide)
      (Or.inr (Or.inr ⟨7, _, rfl, rfl⟩))
    obtain ⟨w1, hc, hq, hcalls, _, _, _, hval⟩ := H.2.2.1 rfl
    obtain ⟨wm, w2, _, hset, _, hq2, _, hc2, _, ho2, _, hready⟩ := hval (.exception 5) rfl
    obtain ⟨w3, hr, hcalls3, _⟩ := H.2.2.2.2.2.1 _ 7 _ 5 rfl hready
    exact ⟨w1, wm, w2, w3, hc, hq, hcalls, hset, hq2, hc2,
      Future_get_pending _ _ (congrArg PromiseFuturePair.m_val ho2), hr, hcalls3⟩
  · have H := continuation_callback_only_enqueues (fun _ => 0) 2 (oneCell.setVal 0 (.value 40))
      0 (.asyncContinuation 1 7 (fun _ => .ok .pending) 0)
      (addAsyncContinuation 2 (oneCell.setVal 0 (.value 40)) 7 (fun _ => .ok .pending) 0)
      hd2 ha2 (by decide) (by decide) (Or.inr (Or.inl ⟨7, _, rfl, rfl⟩))
    obtain ⟨w1, hc, _, hq, hcalls, hout, _, hready⟩ := H.2.1 rfl
    obtain ⟨w3, hr, hcalls3, _⟩ := H.2.2.2.2.1 _ 7 _ 40 rfl hready
    exact ⟨w1, w3, hc, hq, hcalls,
      Future_get_pending _ _ (congrArg PromiseFuturePair.m_val hout), hr, hcalls3⟩

end Posting

end FuturesDemo
